import Mathlib

/-!
# Verification of the incremental diff/merge engine of `translate-platform`

This file embeds, as Lean definitions, the core of
`scripts/process-translation-claude-fixed.js` (class
`IncrementalTranslationProcessor`): the flattener
(`flattenObject`/`unflattenObject`), the change detector
(`detectChanges`/`detectFileChanges`), the delta builder
(`translateChanges`), and the merger
(`mergeTranslations`/`deepMerge`/`deleteNestedKey`), together with the
post-API save step (`saveTranslations`), and proves or refutes the
specification's properties about them.

Modelling conventions, fixed once here:

* A parsed JSON value is a `JVal`.  JS numbers are modelled as `Int`:
  every number appearing in the claims and in the repository's data is
  integral, and no claim depends on float behaviour.
* JS objects are association lists in property-insertion order.  JS's
  special enumeration rule for integer-like keys (listed first, in
  numeric order) is not modelled; no claim depends on enumeration order
  beyond structural identity, which every operation here treats
  uniformly.
* `JSON.parse(JSON.stringify(x))` on a parsed JSON value is a value-level
  identity, so cloning is modelled as the identity on `JVal`.
* The source file is an ES module, hence strict mode: assigning a
  property to a primitive throws a `TypeError`.  Operations that can hit
  such a write are `Option`-valued, `none` marking the thrown error.
* Properties of primitive wrappers (string indices, `length`) and
  per-index addressing inside arrays are outside the spec's `Document`
  model ("arrays are treated as atomic leaf values … never split into
  per-index paths"), and the definitions here do not descend into them;
  where the JS code would touch them the model keeps the value unchanged.
-/

namespace TranslatePlatform

/-- A parsed JSON value: the `Document` data model of the spec (§3). -/
inductive JVal where
  | str (s : String)
  | num (n : Int)
  | bool (b : Bool)
  | null
  | arr (elems : List JVal)
  | obj (fields : List (String × JVal))
deriving Repr

namespace JVal

mutual

/-- Structural equality on JSON values. -/
def beq : JVal → JVal → Bool
  | .str a, .str b => a == b
  | .num a, .num b => a == b
  | .bool a, .bool b => a == b
  | .null, .null => true
  | .arr a, .arr b => beqList a b
  | .obj a, .obj b => beqFields a b
  | _, _ => false

def beqList : List JVal → List JVal → Bool
  | [], [] => true
  | v :: vs, w :: ws => beq v w && beqList vs ws
  | _, _ => false

def beqFields : List (String × JVal) → List (String × JVal) → Bool
  | [], [] => true
  | (ka, va) :: fs, (kb, vb) :: gs => ka == kb && beq va vb && beqFields fs gs
  | _, _ => false

end

mutual

theorem beq_iff_eq : ∀ a b : JVal, beq a b = true ↔ a = b
  | .str _, .str _ => by simp [beq]
  | .num _, .num _ => by simp [beq]
  | .bool _, .bool _ => by simp [beq]
  | .null, .null => by simp [beq]
  | .arr x, .arr y => by simp [beq, beqList_iff_eq x y]
  | .obj x, .obj y => by simp [beq, beqFields_iff_eq x y]
  | .str _, .num _ | .str _, .bool _ | .str _, .null | .str _, .arr _ | .str _, .obj _
  | .num _, .str _ | .num _, .bool _ | .num _, .null | .num _, .arr _ | .num _, .obj _
  | .bool _, .str _ | .bool _, .num _ | .bool _, .null | .bool _, .arr _ | .bool _, .obj _
  | .null, .str _ | .null, .num _ | .null, .bool _ | .null, .arr _ | .null, .obj _
  | .arr _, .str _ | .arr _, .num _ | .arr _, .bool _ | .arr _, .null | .arr _, .obj _
  | .obj _, .str _ | .obj _, .num _ | .obj _, .bool _ | .obj _, .null | .obj _, .arr _ => by
    simp [beq]

theorem beqList_iff_eq : ∀ vs ws : List JVal, beqList vs ws = true ↔ vs = ws
  | [], [] => by simp [beqList]
  | v :: vs, w :: ws => by
    rw [beqList]
    simp [beq_iff_eq v w, beqList_iff_eq vs ws]
  | [], _ :: _ => by simp [beqList]
  | _ :: _, [] => by simp [beqList]

theorem beqFields_iff_eq :
    ∀ fs gs : List (String × JVal), beqFields fs gs = true ↔ fs = gs
  | [], [] => by simp [beqFields]
  | (ka, va) :: fs, (kb, vb) :: gs => by
    rw [beqFields]
    simp [and_assoc, beq_iff_eq va vb, beqFields_iff_eq fs gs]
  | [], _ :: _ => by simp [beqFields]
  | _ :: _, [] => by simp [beqFields]

end

instance : DecidableEq JVal := fun a b =>
  decidable_of_iff (beq a b = true) (beq_iff_eq a b)

end JVal

/-- JS truthiness of a JSON value: `0`, `""`, `false` and `null` are
falsy; every object and array (even empty) is truthy. -/
def jsTruthy : JVal → Bool
  | .str s => s ≠ ""
  | .num n => n ≠ 0
  | .bool b => b
  | .null => false
  | .arr _ => true
  | .obj _ => true

/-- First-match association-list lookup.  All object field lists built
by the definitions below have distinct keys, mirroring JS property
semantics. -/
def lookupA {α : Type} (fields : List (String × α)) (k : String) : Option α :=
  match fields with
  | [] => none
  | (k', v) :: rest => if k' = k then some v else lookupA rest k

/-- Property read `v[k]` on a JSON value, restricted to the `Document`
model: mappings expose their fields; reading any key of a non-mapping
yields `undefined` (`none`).  (String index/`length` wrapper properties
and array index properties fall outside the spec's Document model and
are not modelled; no claim reads them.) -/
def jsGet (v : JVal) (k : String) : Option JVal :=
  match v with
  | .obj fields => lookupA fields k
  | _ => none

/-- Truthiness of a possibly-`undefined` read: `undefined` is falsy. -/
def truthyO : Option JVal → Bool
  | none => false
  | some v => jsTruthy v

/-- JS property assignment `o[k] = v` on an object's field list: if the
key is present its value is replaced in place (insertion-order position
kept, as JS does); otherwise the new entry is appended. -/
def insertJs (fields : List (String × JVal)) (k : String) (v : JVal) :
    List (String × JVal) :=
  match fields with
  | [] => [(k, v)]
  | (k', v') :: rest =>
    if k' = k then (k', v) :: rest else (k', v') :: insertJs rest k v

/-- The keys of a field list. -/
def keysA (fields : List (String × JVal)) : List String := fields.map Prod.fst

/-- `Object.entries(v)` as the JS runtime produces it: an object's own
fields; an array's elements under their stringified indices; a string's
characters under their indices; no entries for other primitives. -/
def entriesJs : JVal → List (String × JVal)
  | .obj fields => fields
  | .arr xs => xs.enum.map fun p => (toString p.1, p.2)
  | .str s => s.data.enum.map fun p => (toString p.1, .str (String.singleton p.2))
  | _ => []

/-- `{...v}`: object spread, collecting `entriesJs` by repeated property
assignment (later duplicates overwrite in place). -/
def spreadToObj (v : JVal) : List (String × JVal) :=
  (entriesJs v).foldl (fun acc p => insertJs acc p.1 p.2) []

/-- `typeof v === 'object' && v !== null && !Array.isArray(v)`: the
"nested mapping" test used by `flattenObject` and `deepMerge`. -/
def isMapping : JVal → Bool
  | .obj _ => true
  | _ => false

/-- `typeof v === 'object' && v !== null` (arrays included): the
recursion test `deepMerge` applies to the *existing* value. -/
def isObjTypeof : JVal → Bool
  | .obj _ => true
  | .arr _ => true
  | _ => false

/-- `Object.assign(acc, src)`: assign each entry of `src` into `acc` in
order. -/
def objAssign (acc src : List (String × JVal)) : List (String × JVal) :=
  src.foldl (fun a p => insertJs a p.1 p.2) acc

/-- The loop body of `flattenObject` (lines 468–482): walk the entries;
a value passing the nested-mapping test is flattened recursively with
the extended prefix and its (fresh) result `Object.assign`ed into the
accumulator; any other value (string, number, boolean, null, array) is
assigned at the current dotted key.  `prefix ? prefix + '.' + key : key`
tests the string's truthiness, i.e. non-emptiness. -/
def flattenGo : List (String × JVal) → String → List (String × JVal) →
    List (String × JVal)
  | [], _, res => res
  | (k, v) :: rest, pre, res =>
    let nk := if pre = "" then k else pre ++ "." ++ k
    match v with
    | .obj sub => flattenGo rest pre (objAssign res (flattenGo sub nk []))
    | _ => flattenGo rest pre (insertJs res nk v)

/-- `flattenObject(obj, prefix)`: the flat dotted-path map of a
document. -/
def flattenObject (v : JVal) (pre : String) : List (String × JVal) :=
  flattenGo (entriesJs v) pre []

/-- The shared descent of `setNestedValue` (lines 587–599) and the loop
body of `unflattenObject` (lines 484–502), whose code is identical: walk
all but the last key, replacing a missing-or-falsy intermediate with a
fresh `{}` and descending otherwise, then assign the terminal key.
`none` models the strict-mode `TypeError` thrown when the walk tries to
write through a truthy primitive (the file is an ES module).  Descending
into an array is kept as the identity: named properties set on an array
do not survive `JSON.stringify`, and per-index paths into arrays are
outside the spec's Document model. -/
def setPath : JVal → List String → JVal → Option JVal
  | cur, [], _ => some cur
  | cur, [last], v =>
    match cur with
    | .obj fields => some (.obj (insertJs fields last v))
    | .arr _ => some cur
    | _ => none
  | cur, k :: rest, v =>
    match cur with
    | .obj fields =>
      let child :=
        match lookupA fields k with
        | some c => if jsTruthy c then c else .obj []
        | none => .obj []
      match setPath child rest v with
      | some c' => some (.obj (insertJs fields k c'))
      | none => none
    | .arr _ => some cur
    | _ => none

/-- JS `key.split('.')`: split on every occurrence of the dot, keeping
empty segments, so that `"".split('.') = [""]` and
`"a..b".split('.') = ["a", "", "b"]`.  Defined over the character list
(the separator is a single character). -/
def splitDots (s : String) : List String :=
  (s.data.splitOn '.').map fun l => String.mk l

/-- `setNestedValue(obj, key, value)` (lines 587–599). -/
def setNestedValue (o : JVal) (key : String) (v : JVal) : Option JVal :=
  setPath o (splitDots key) v

/-- The entry loop of `unflattenObject` (lines 484–502): assign each
flat entry through the nested structure being built.  Its body is the
same walk as `setNestedValue`. -/
def unflatGo : List (String × JVal) → JVal → Option JVal
  | [], acc => some acc
  | (k, v) :: rest, acc =>
    match setPath acc (splitDots k) v with
    | some acc' => unflatGo rest acc'
    | none => none

/-- `unflattenObject(flatObj)` (lines 484–502), starting from `{}`. -/
def unflattenObject (flat : List (String × JVal)) : Option JVal :=
  unflatGo flat (.obj [])

/-- Accumulate the decimal value of a digit run (helper of `asIndex`). -/
def asIndexGo : List Char → Nat → Option Nat
  | [], acc => some acc
  | c :: cs, acc =>
    if c.isDigit then asIndexGo cs (acc * 10 + (c.toNat - 48)) else none

/-- A property key that is a canonical array index in the JS sense:
`"0"`, `"1"`, `"10"`, … — all digits, no leading zero.  `arr["2"]` is
element 2; `arr["02"]` is an ordinary (absent) property. -/
def asIndex (s : String) : Option Nat :=
  match s.data with
  | [] => none
  | ['0'] => some 0
  | '0' :: _ :: _ => none
  | c :: cs => if c.isDigit then asIndexGo cs (c.toNat - 48) else none

/-- The walk of `deleteNestedKey` (lines 658–670), strict mode: walk all
but the last key, returning unchanged as soon as an intermediate
property reads missing or falsy (`if (!current[keys[i]]) return`), then
`delete` the terminal key; `none` is a thrown `TypeError`.  Property
reads follow JS: a mapping reads its fields; an array reads elements at
canonical index keys and its `length`; a string reads one-character
strings at index keys and its `length`; other reads are `undefined`
(prototype methods are outside the JSON value model).  The terminal
`delete`: on a mapping it removes the field; on an array at an
in-range index it leaves a hole, written here as `null`, which is what
the hole reads back as through the `JSON.stringify`/`parse` pipeline
that produced every document in this tree; on a string at an in-range
index, or of any `length` property, the own property is
non-configurable and strict mode throws; reading or deleting a property
of `null` throws; anything else is a no-op.  JS mutates intermediates
through references, which this value model renders by rebuilding the
spine — for a primitive intermediate (a character of a string, a
`length` number) JS operates on a copy, so only the recursion's thrown
error survives and its value is discarded. -/
def deletePath : JVal → List String → Option JVal
  | cur, [] => some cur
  | cur, [last] =>
    match cur with
    | .obj fields => some (.obj (fields.filter fun p => p.1 ≠ last))
    | .arr xs =>
      match asIndex last with
      | some i => if i < xs.length then some (.arr (xs.set i .null)) else some cur
      | none => if last = "length" then none else some cur
    | .str s =>
      match asIndex last with
      | some i => if i < s.length then none else some cur
      | none => if last = "length" then none else some cur
    | .num n => some cur
    | .bool b => some cur
    | .null => none
  | cur, k :: r :: rs =>
    match cur with
    | .obj fields =>
      match lookupA fields k with
      | some c =>
        if jsTruthy c then
          (deletePath c (r :: rs)).map fun c' => .obj (insertJs fields k c')
        else some cur
      | none => some cur
    | .arr xs =>
      match asIndex k with
      | some i =>
        match xs[i]? with
        | some e =>
          if jsTruthy e then
            (deletePath e (r :: rs)).map fun e' => .arr (xs.set i e')
          else some cur
        | none => some cur
      | none =>
        if k = "length" then
          if xs.length = 0 then some cur
          else (deletePath (.num xs.length) (r :: rs)).map fun _ => cur
        else some cur
    | .str s =>
      match asIndex k with
      | some i =>
        match s.data[i]? with
        | some c =>
          (deletePath (.str (String.singleton c)) (r :: rs)).map fun _ => cur
        | none => some cur
      | none =>
        if k = "length" then
          if s.length = 0 then some cur
          else (deletePath (.num s.length) (r :: rs)).map fun _ => cur
        else some cur
    | .num n => some cur
    | .bool b => some cur
    | .null => none

/-- `deleteNestedKey(obj, key)` (lines 658–670); `none` is a thrown
`TypeError`. -/
def deleteNestedKey (o : JVal) (key : String) : Option JVal :=
  deletePath o (splitDots key)

/-- Reachability of a dotted path in a document: descend through nested
mappings key by key.  `lookupPath d [] = some d`; a path is *absent*
when the lookup is `none`.  This is the specification-side reading of
"path P is reachable in a translated document" (§8). -/
def lookupPath : JVal → List String → Option JVal
  | v, [] => some v
  | v, k :: rest =>
    match v with
    | .obj fields =>
      match lookupA fields k with
      | some c => lookupPath c rest
      | none => none
    | _ => none

/-- Strict equality `===` as evaluated at `detectFileChanges`' only call
site, where the previous and current flat values always originate from
two distinct `JSON.parse` invocations (the persisted state file versus
the freshly read base files): scalars compare by value, a type change
compares unequal, and two reference-typed values are never the same
reference, hence never strictly equal.  Flat maps hold scalars, `null`
and arrays as values (nested mappings are descended into), so the
reference case concerns arrays. -/
def strictEqParsed : JVal → JVal → Bool
  | .str a, .str b => a == b
  | .num a, .num b => a == b
  | .bool a, .bool b => a == b
  | .null, .null => true
  | _, _ => false

/-- The per-document `ChangeSet` of the spec (§3), as built by
`detectFileChanges`. -/
structure FileChanges where
  hasChanges : Bool
  newKeys : List (String × JVal)
  modifiedKeys : List (String × JVal × JVal)
  deletedKeys : List String
deriving Repr, DecidableEq

/-- `detectFileChanges(previousContent, currentContent, fileName)`
(lines 430–466): flatten both sides; a current path absent from the
previous flat map is new, one present with a strictly different value is
modified (carrying old and new), and a previous path absent from the
current flat map is deleted.  `hasChanges` is set on every push. -/
def detectFileChanges (previousContent currentContent : JVal) : FileChanges :=
  let previousFlat := flattenObject previousContent ""
  let currentFlat := flattenObject currentContent ""
  let nk := currentFlat.filter fun p => ¬ (keysA previousFlat).contains p.1
  let mk := currentFlat.filterMap fun p =>
    match lookupA previousFlat p.1 with
    | none => none
    | some old => if strictEqParsed old p.2 then none else some (p.1, old, p.2)
  let dk := (keysA previousFlat).filter fun k => ¬ (keysA currentFlat).contains k
  { hasChanges := !nk.isEmpty || !mk.isEmpty || !dk.isEmpty
    newKeys := nk
    modifiedKeys := mk
    deletedKeys := dk }

/-- The run-level change record of `detectChanges`. -/
structure Changes where
  hasChanges : Bool
  newFiles : List String
  modifiedFiles : List String
  newKeys : List (String × List (String × JVal))
  modifiedKeys : List (String × List (String × JVal × JVal))
  deletedKeys : List (String × List String)
deriving Repr, DecidableEq

/-- `detectChanges(previousFiles, currentFiles)` (lines 394–428): a
current document whose name reads falsy in the previous tree is a new
file; a current document with a truthy previous version contributes its
`detectFileChanges` result when that result has changes.  Documents
present only in the previous tree are never examined. -/
def detectChanges (previousFiles currentFiles : JVal) : Changes :=
  let nf := (entriesJs currentFiles).filterMap fun p =>
    if truthyO (jsGet previousFiles p.1) then none else some p.1
  let mods := (entriesJs currentFiles).filterMap fun p =>
    match jsGet previousFiles p.1 with
    | some prevDoc =>
      if jsTruthy prevDoc then
        let fc := detectFileChanges prevDoc p.2
        if fc.hasChanges then some (p.1, fc) else none
      else none
    | none => none
  { hasChanges := !nf.isEmpty || !mods.isEmpty
    newFiles := nf
    modifiedFiles := mods.map Prod.fst
    newKeys := mods.map fun q => (q.1, q.2.newKeys)
    modifiedKeys := mods.map fun q => (q.1, q.2.modifiedKeys)
    deletedKeys := mods.map fun q => (q.1, q.2.deletedKeys) }

/-- The target language list of the constructor (line 301). -/
def targetLanguages : List String :=
  ["de", "es", "fr", "fr-ca", "ja", "ko", "nl", "pt", "zh-cn", "zh-hk", "it"]

/-- `contentToTranslate[fileName]` update through `setNestedValue`: read
the entry, assign through it, write it back (the JS code mutates the
entry in place).  Calling `setNestedValue` on an absent entry would read
a property of `undefined` and throw, hence `none`. -/
def setInContent (acc : List (String × JVal)) (fn key : String) (v : JVal) :
    Option (List (String × JVal)) :=
  match lookupA acc fn with
  | some doc => (setNestedValue doc key v).map (insertJs acc fn)
  | none => none

/-- The delta construction of `translateChanges` (lines 539–585), i.e.
the `contentToTranslate` object handed to the translation collaborator:
nothing when `hasChanges` is false; otherwise every new file is copied
whole from the (re-read) current base files, and every modified file is
started as `{}` unless already present and filled with exactly its new
keys' values and its modified keys' new values.  (The final
`Object.keys(...).length === 0` check returns the same empty object and
is omitted; a `none` models a strict-mode `TypeError` inside
`setNestedValue`.) -/
def deltaStep (nkm : List (String × List (String × JVal)))
    (mkm : List (String × List (String × JVal × JVal)))
    (acc : List (String × JVal)) (fn : String) :
    Option (List (String × JVal)) :=
  let acc₁ := if truthyO (lookupA acc fn) then acc else insertJs acc fn (.obj [])
  let step₁ : Option (List (String × JVal)) :=
    match lookupA nkm fn with
    | some nks => nks.foldlM (fun a p => setInContent a fn p.1 p.2) acc₁
    | none => some acc₁
  match step₁ with
  | some acc₂ =>
    match lookupA mkm fn with
    | some mks => mks.foldlM (fun a q => setInContent a fn q.1 q.2.2) acc₂
    | none => some acc₂
  | none => none

/-- The whole of `contentToTranslate` as built by `translateChanges`. -/
def buildDelta (currentFiles : JVal) (ch : Changes) :
    Option (List (String × JVal)) :=
  if ¬ ch.hasChanges then some []
  else
    ch.modifiedFiles.foldlM (deltaStep ch.newKeys ch.modifiedKeys)
      (ch.newFiles.foldl (fun acc fn =>
        match jsGet currentFiles fn with
        | some v => insertJs acc fn v
        | none => acc) [])

mutual

/-- `deepMerge(target, source)` (lines 640–656): start from
`{...target}` and assign each `Object.entries(source)` entry in order; a
nested-mapping value recurses when the value currently at that key is
object-typed and non-null — mappings *and arrays* — and otherwise
overwrites; every other value overwrites. -/
def deepMerge (target source : JVal) : JVal :=
  match source with
  | .obj fs => .obj (deepMergeFields (spreadToObj target) fs)
  | .arr xs => .obj (deepMergeElems (spreadToObj target) 0 xs)
  | src => .obj (objAssign (spreadToObj target) (entriesJs src))

/-- The entry loop of `deepMerge` for a mapping source. -/
def deepMergeFields (res : List (String × JVal)) :
    List (String × JVal) → List (String × JVal)
  | [] => res
  | (k, v) :: rest =>
    let res' :=
      match v with
      | .obj sub =>
        match lookupA res k with
        | some rv =>
          if isObjTypeof rv then insertJs res k (deepMerge rv (.obj sub))
          else insertJs res k (.obj sub)
        | none => insertJs res k (.obj sub)
      | _ => insertJs res k v
    deepMergeFields res' rest

/-- The entry loop of `deepMerge` for an array source (its
`Object.entries` are index/element pairs). -/
def deepMergeElems (res : List (String × JVal)) (i : Nat) :
    List JVal → List (String × JVal)
  | [] => res
  | v :: rest =>
    let k := toString i
    let res' :=
      match v with
      | .obj sub =>
        match lookupA res k with
        | some rv =>
          if isObjTypeof rv then insertJs res k (deepMerge rv (.obj sub))
          else insertJs res k (.obj sub)
        | none => insertJs res k (.obj sub)
      | _ => insertJs res k v
    deepMergeElems res' (i + 1) rest

end

/-- Property write `o[k] = v` on a JSON value: mappings get the entry
assigned; a write on an array sets a named property that does not
survive `JSON.stringify` (kept as the identity — the keys written here
are language identifiers and file names, never array indices); a write
on a primitive throws in strict mode (`none`). -/
def jsSetO (o : JVal) (k : String) (v : JVal) : Option JVal :=
  match o with
  | .obj fields => some (.obj (insertJs fields k v))
  | .arr _ => some o
  | _ => none

/-- Property read `o[k]` with the strict-mode error at the base:
reading any property of `null` throws (`none`); otherwise the read
yields the property — `some none` is `undefined`, also for non-mapping
bases (whose wrapper properties are outside the Document model). -/
def jsReadO (o : JVal) (k : String) : Option (Option JVal) :=
  match o with
  | .null => none
  | .obj fields => some (lookupA fields k)
  | _ => some none

/-- Two-level read `o[k₁][k₂]`: reading a property of an `undefined` or
`null` first level throws. -/
def jsRead2O (o : JVal) (k₁ k₂ : String) : Option (Option JVal) := do
  let r₁ ← jsReadO o k₁
  match r₁ with
  | none => none
  | some v => jsReadO v k₂

/-- Two-level write `o[k₁][k₂] = v`: the inner write mutates the object
held at `o[k₁]`, modelled by writing the updated object back. -/
def jsSet2O (o : JVal) (k₁ k₂ : String) (v : JVal) : Option JVal := do
  let r₁ ← jsReadO o k₁
  match r₁ with
  | none => none
  | some base =>
    match jsSetO base k₂ v with
    | some base' => jsSetO o k₁ base'
    | none => none

/-- The per-file install-or-merge step of `mergeTranslations` (lines
612–623): a truthy existing entry is deep-merged with the newly
translated file, anything else is overwritten wholesale. -/
def installFileStep (lang : String) (m : JVal) (p : String × JVal) :
    Option JVal := do
  let cur ← jsRead2O m lang p.1
  match cur with
  | some curv =>
    if jsTruthy curv then jsSet2O m lang p.1 (deepMerge curv p.2)
    else jsSet2O m lang p.1 p.2
  | none => jsSet2O m lang p.1 p.2

/-- The per-file deletion step of `mergeTranslations`' deletion loop
(lines 626–634): a modified file with recorded deleted keys and a truthy
merged entry has each deleted key removed by `deleteNestedKey`. -/
def deleteFileStep (ch : Changes) (lang : String) (m : JVal) (fn : String) :
    Option JVal :=
  match lookupA ch.deletedKeys fn with
  | some dks => do
    let cur ← jsRead2O m lang fn
    match cur with
    | some curv =>
      if jsTruthy curv then do
        let curv' ← dks.foldlM deleteNestedKey curv
        jsSet2O m lang fn curv'
      else some m
    | none => some m
  | none => some m

/-- `if (!merged[language]) merged[language] = {}` (line 609). -/
def ensureLang (merged : JVal) (lang : String) : Option JVal := do
  let ml ← jsReadO merged lang
  if truthyO ml then some merged else jsSetO merged lang (.obj [])

/-- The install-or-merge loop over `newTranslations[language]` (lines
611–624): skipped entirely when the response has no truthy entry for the
language. -/
def installLang (newT : JVal) (merged : JVal) (lang : String) :
    Option JVal := do
  let nl ← jsReadO newT lang
  match nl with
  | some nlv =>
    if jsTruthy nlv then (entriesJs nlv).foldlM (installFileStep lang) merged
    else some merged
  | none => some merged

/-- The whole body of `mergeTranslations`' per-language loop. -/
def mergeLangStep (newT : JVal) (ch : Changes) (merged : JVal)
    (lang : String) : Option JVal := do
  let merged ← ensureLang merged lang
  let merged ← installLang newT merged lang
  ch.modifiedFiles.foldlM (deleteFileStep ch lang) merged

/-- `mergeTranslations(existingTranslations, newTranslations, changes)`
(lines 601–638).  The initial
`JSON.parse(JSON.stringify(existingTranslations))` deep clone is the
identity at the value level (the non-mutation of the caller's structure,
claim C9, is settled against the heap model below).  Per target
language: ensure a truthy language entry, install or `deepMerge` each
newly translated file when the response has a truthy entry for the
language, then apply the deleted keys of every modified file to a truthy
merged file.  `none` models a strict-mode `TypeError`, possible only on
non-mapping containers, which the loader never produces. -/
def mergeTranslations (existing newT : JVal) (ch : Changes) : Option JVal :=
  targetLanguages.foldlM (mergeLangStep newT ch) existing

/-- The pure content of `saveTranslations` (lines 780–800): the
`(language, fileName, content)` files written, in write order.  Every
language entry of the merged object is walked; entries whose key is not
in `targetLanguages` are skipped.  No check that any requested language
is missing is performed before or during the writes. -/
def savedFiles (translations : JVal) : List (String × String × JVal) :=
  (entriesJs translations).foldl (fun acc p =>
    if targetLanguages.contains p.1 then
      acc ++ (entriesJs p.2).map fun q => (p.1, q.1, q.2)
    else acc) []

/-- Steps 6–7 of `translateIncremental` (lines 337–341) after the
collaborator's response has been parsed: merge, then save.  The parsed
response is used as returned: `callAnthropicAPI` (lines 720–751) and
`callClaudeOAuth` (lines 753–778) of `IncrementalTranslationProcessor`
extract the JSON block, `JSON.parse` it and return it without any
validation of the language keys. -/
def mergeAndSave (existing response : JVal) (ch : Changes) :
    Option (List (String × String × JVal)) :=
  (mergeTranslations existing response ch).map savedFiles

/-! ## The heap model for claim C9

`mergeTranslations` mutates objects in place (`merged[language] = {}`,
`merged[language][fileName] = ...`, `delete current[...]`), so the
non-mutation of the *caller's* `existingTranslations` (claim C9) is a
statement about object identity that the value-level embedding above
cannot express.  The definitions below give JSON trees an explicit
store: a `Node` is one level of a value with children by location, and
`JSON.parse` allocates fresh locations (`allocVal`).
`mergeTranslationsH` is `mergeTranslations` over the store: it first
clones the existing tree (`JSON.parse(JSON.stringify(...))`, line 603)
and then performs every property write on the clone's locations.  The
values written (the deep-merged or deletion-processed documents) are
computed by the value-level functions already defined and allocated
fresh; in the source they are fresh spread objects or in-place updates
of clone/response nodes, never nodes of the caller's tree, so this
modelling preserves exactly the claim's footprint: no write ever
targets a location of the caller's tree. -/

/-- One heap cell: a JSON value one level deep, children by location. -/
inductive Node where
  | nstr (s : String)
  | nnum (n : Int)
  | nbool (b : Bool)
  | nnull
  | narr (xs : List Nat)
  | nobj (fields : List (String × Nat))
deriving Repr, DecidableEq

/-- The object store: a memory of allocated nodes and the next fresh
location. -/
structure Store where
  mem : List (Nat × Node)
  next : Nat
deriving Repr, DecidableEq

/-- Locations a node points to. -/
def nodeLocs : Node → List Nat
  | .narr xs => xs
  | .nobj fields => fields.map Prod.snd
  | _ => []

def lookupL (mem : List (Nat × Node)) (l : Nat) : Option Node :=
  match mem with
  | [] => none
  | (l', nd) :: rest => if l' = l then some nd else lookupL rest l

def insertL (mem : List (Nat × Node)) (l : Nat) (nd : Node) :
    List (Nat × Node) :=
  match mem with
  | [] => [(l, nd)]
  | (l', nd') :: rest =>
    if l' = l then (l', nd) :: rest else (l', nd') :: insertL rest l nd

/-- Property insertion on a node's field list (last writer wins, order
of first insertion preserved), as for `insertJs`. -/
def insertP (fields : List (String × Nat)) (k : String) (l : Nat) :
    List (String × Nat) :=
  match fields with
  | [] => [(k, l)]
  | (k', l') :: rest =>
    if k' = k then (k', l) :: rest else (k', l') :: insertP rest k l

/-- In-place node update: `writeL` never allocates. -/
def writeL (s : Store) (l : Nat) (nd : Node) : Store :=
  ⟨insertL s.mem l nd, s.next⟩

/-- JS truthiness of a node (`{}` and `[]` are truthy). -/
def ntruthy : Node → Bool
  | .nstr t => t ≠ ""
  | .nnum n => n ≠ 0
  | .nbool b => b
  | .nnull => false
  | .narr _ => true
  | .nobj _ => true

mutual

/-- `JSON.parse`: allocate a tree of fresh nodes for a value. -/
def allocVal : JVal → Store → Nat × Store
  | .str t, s => (s.next, ⟨insertL s.mem s.next (.nstr t), s.next + 1⟩)
  | .num n, s => (s.next, ⟨insertL s.mem s.next (.nnum n), s.next + 1⟩)
  | .bool b, s => (s.next, ⟨insertL s.mem s.next (.nbool b), s.next + 1⟩)
  | .null, s => (s.next, ⟨insertL s.mem s.next .nnull, s.next + 1⟩)
  | .arr xs, s =>
    let p := allocList xs s
    (p.2.next, ⟨insertL p.2.mem p.2.next (.narr p.1), p.2.next + 1⟩)
  | .obj fs, s =>
    let p := allocFields fs s
    (p.2.next, ⟨insertL p.2.mem p.2.next (.nobj p.1), p.2.next + 1⟩)

def allocList : List JVal → Store → List Nat × Store
  | [], s => ([], s)
  | v :: vs, s =>
    let p := allocVal v s
    let q := allocList vs p.2
    (p.1 :: q.1, q.2)

def allocFields : List (String × JVal) → Store → List (String × Nat) × Store
  | [], s => ([], s)
  | kv :: fs, s =>
    let p := allocVal kv.2 s
    let q := allocFields fs p.2
    ((kv.1, p.1) :: q.1, q.2)

end

/-- `JSON.stringify` direction: decode the tree rooted at a location.
Fuel bounds the depth; every tree allocated by `allocVal` decodes with
enough fuel. -/
def readVal : Nat → Store → Nat → Option JVal
  | 0, _, _ => none
  | fuel + 1, s, l =>
    match lookupL s.mem l with
    | some (.nstr t) => some (.str t)
    | some (.nnum n) => some (.num n)
    | some (.nbool b) => some (.bool b)
    | some .nnull => some .null
    | some (.narr xs) => (xs.mapM (readVal fuel s)).map .arr
    | some (.nobj fields) =>
      (fields.mapM (fun p => (readVal fuel s p.2).map
        fun v => (p.1, v))).map .obj
    | none => none

/-- `if (!merged[language]) merged[language] = {}` on the store: read
the language slot of the clone's root object; when absent or falsy,
allocate a fresh empty object node and repoint the root's field. -/
def ensureLangH (s : Store) (root : Nat) (lang : String) : Option Store :=
  match lookupL s.mem root with
  | some (.nobj fields) =>
    match lookupA fields lang with
    | some l =>
      match lookupL s.mem l with
      | some nd =>
        if ntruthy nd then some s
        else some (writeL ⟨insertL s.mem s.next (.nobj []), s.next + 1⟩
          root (.nobj (insertP fields lang s.next)))
      | none => none
    | none => some (writeL ⟨insertL s.mem s.next (.nobj []), s.next + 1⟩
        root (.nobj (insertP fields lang s.next)))
  | some (.narr _) => some s
  | _ => none

/-- `merged[language][fileName] = (truthy ? deepMerge(cur, newFile) :
newFile)` on the store: the installed document is computed by the
value-level `deepMerge` and allocated fresh, and the language object's
field is repointed — the write targets the language node's location. -/
def installFileStepH (fuel : Nat) (lang : String) (s : Store) (root : Nat)
    (p : String × JVal) : Option Store :=
  match lookupL s.mem root with
  | some (.nobj rf) =>
    match lookupA rf lang with
    | some llang =>
      match lookupL s.mem llang with
      | some (.nobj ff) =>
        match lookupA ff p.1 with
        | some lf =>
          match lookupL s.mem lf with
          | some nd =>
            if ntruthy nd then
              match readVal fuel s lf with
              | some cur =>
                let q := allocVal (deepMerge cur p.2) s
                some (writeL q.2 llang (.nobj (insertP ff p.1 q.1)))
              | none => none
            else
              let q := allocVal p.2 s
              some (writeL q.2 llang (.nobj (insertP ff p.1 q.1)))
          | none => none
        | none =>
          let q := allocVal p.2 s
          some (writeL q.2 llang (.nobj (insertP ff p.1 q.1)))
      | some (.narr _) => some s
      | _ => none
    | none => none
  | _ => none

/-- The deletion step on the store: the deletion-processed document is
computed by the value-level `deleteNestedKey` fold and allocated fresh,
repointing the language node's field (in the source the delete mutates
the document node in place; either way the write stays on clone-region
locations). -/
def deleteFileStepH (fuel : Nat) (ch : Changes) (lang : String) (s : Store)
    (root : Nat) (fn : String) : Option Store :=
  match lookupA ch.deletedKeys fn with
  | some dks =>
    match lookupL s.mem root with
    | some (.nobj rf) =>
      match lookupA rf lang with
      | some llang =>
        match lookupL s.mem llang with
        | some (.nobj ff) =>
          match lookupA ff fn with
          | some lf =>
            match lookupL s.mem lf with
            | some nd =>
              if ntruthy nd then
                match readVal fuel s lf with
                | some cur =>
                  match dks.foldlM deleteNestedKey cur with
                  | some cur' =>
                    let q := allocVal cur' s
                    some (writeL q.2 llang (.nobj (insertP ff fn q.1)))
                  | none => none
                | none => none
              else some s
            | none => none
          | none => some s
        | some (.nstr _) => some s
        | some (.nnum _) => some s
        | some (.nbool _) => some s
        | some (.narr _) => some s
        | _ => none
      | none => none
    | _ => none
  | none => some s

/-- The install loop over `newTranslations[language]`; the response is a
separately parsed tree, modelled as a pure value. -/
def installLangH (fuel : Nat) (newT : JVal) (s : Store) (root : Nat)
    (lang : String) : Option Store :=
  match jsReadO newT lang with
  | some (some nlv) =>
    if jsTruthy nlv then
      (entriesJs nlv).foldlM (fun st p => installFileStepH fuel lang st root p) s
    else some s
  | some none => some s
  | none => none

/-- The per-language body of `mergeTranslations` on the store. -/
def mergeLangStepH (fuel : Nat) (newT : JVal) (ch : Changes) (s : Store)
    (root : Nat) (lang : String) : Option Store := do
  let s₁ ← ensureLangH s root lang
  let s₂ ← installLangH fuel newT s₁ root lang
  ch.modifiedFiles.foldlM (fun st fn => deleteFileStepH fuel ch lang st root fn) s₂

/-- `mergeTranslations` on the store: decode the caller's tree
(`JSON.stringify`), allocate a fresh copy (`JSON.parse`), and run every
per-language mutation on the copy's root. -/
def mergeTranslationsH (fuel : Nat) (s : Store) (lex : Nat) (newT : JVal)
    (ch : Changes) : Option (Nat × Store) :=
  match readVal fuel s lex with
  | some v =>
    let p := allocVal v s
    match targetLanguages.foldlM
        (fun st lang => mergeLangStepH fuel newT ch st p.1 lang) p.2 with
    | some s₂ => some (p.1, s₂)
    | none => none
  | none => none

/-- Store sanity: every allocated location and every pointer stored in a
node lies below `next`.  `allocVal` preserves it. -/
def StoreWF (s : Store) : Prop :=
  ∀ p ∈ s.mem, p.1 < s.next ∧ ∀ l' ∈ nodeLocs p.2, l' < s.next

/-- The invariant carried through `mergeTranslationsH`'s loops over a
base store `s₀`: the base region is untouched, allocation is monotone,
and the clone root's object fields point at clone-region locations other
than the root itself (so a write through a field never rewrites the
base region or the root's own node). -/
def MergeInv (s₀ : Store) (root : Nat) (st : Store) : Prop :=
  (∀ l, l < s₀.next → lookupL st.mem l = lookupL s₀.mem l) ∧
  s₀.next ≤ st.next ∧ root < st.next ∧
  (∀ rf, lookupL st.mem root = some (.nobj rf) →
    ∀ p ∈ rf, s₀.next ≤ p.2 ∧ p.2 < st.next ∧ p.2 ≠ root)

/-! ## Specification-side notions

The definitions below are not translations of repository code; they are
the vocabulary in which the spec's properties are stated and proved:
the dotted join of a segment path, the flat map as a list of segment
paths, the class of documents on which the dotted encoding is faithful,
and the "untouched path" notion of §4.4. -/

/-- Join a segment path with dots: the inverse direction of
`splitDots`. -/
def joinDots : List String → String
  | [] => ""
  | [k] => k
  | k :: rest => k ++ "." ++ joinDots rest

/-- Boolean key-list distinctness. -/
def nodupB : List String → Bool
  | [] => true
  | k :: ks => ¬ ks.contains k && nodupB ks

/-- A key usable in the dotted encoding: non-empty and dot-free. -/
def goodKey (k : String) : Bool := k ≠ "" && ¬ ('.' ∈ k.data)

mutual

/-- A value whose dotted flat map determines it: every nested mapping
is non-empty and carries canonical fields.  Leaves, arrays included,
are atomic. -/
def canonVal : JVal → Bool
  | .obj fields => ¬ fields.isEmpty && nodupB (keysA fields) && canonFields fields
  | _ => true

/-- Canonical fields: distinct, non-empty, dot-free keys at every
level, with canonical values. -/
def canonFields : List (String × JVal) → Bool
  | [] => true
  | (k, v) :: rest => goodKey k && canonVal v && canonFields rest

end

/-- A canonical document: a mapping (possibly empty at the top) with
canonical fields and distinct keys. -/
def canonDoc : JVal → Bool
  | .obj fields => nodupB (keysA fields) && canonFields fields
  | _ => false

/-- The flat map of a field list as segment paths, in emission order:
the mathematical form of `flattenObject` against which it is proved. -/
def flatSeg : List (String × JVal) → List (List String × JVal)
  | [] => []
  | (k, v) :: rest =>
    (match v with
     | .obj sub => (flatSeg sub).map fun p => (k :: p.1, p.2)
     | _ => [([k], v)]) ++ flatSeg rest

mutual

/-- No array occurs anywhere in a value. -/
def arrayFree : JVal → Bool
  | .str _ => true
  | .num _ => true
  | .bool _ => true
  | .null => true
  | .arr _ => false
  | .obj fields => arrayFreeFields fields

/-- No array occurs anywhere under a field list. -/
def arrayFreeFields : List (String × JVal) → Bool
  | [] => true
  | (_, v) :: rest => arrayFree v && arrayFreeFields rest

end

/-- A path the new subtree `s` does not address: its walk leaves `s` at
a missing key before consuming the whole path and before meeting a
non-mapping.  Such paths are the "untouched" paths of §4.4 relative to
the newly translated sparse document. -/
def untouchedIn : JVal → List String → Bool
  | _, [] => false
  | .obj fields, k :: ks =>
    (match lookupA fields k with
     | none => true
     | some v =>
       match v, ks with
       | .obj sub, _ :: _ => untouchedIn (.obj sub) ks
       | _, _ => false)
  | _, _ :: _ => true

mutual

/-- Nowhere does a nested mapping of the source meet an array of the
target: the situation in which `deepMerge` spreads the array into an
index-keyed mapping instead of overwriting. -/
def noArrClash : JVal → JVal → Bool
  | .obj tf, .obj sf => noArrClashFields tf sf
  | _, _ => true

/-- Field-list form of `noArrClash`. -/
def noArrClashFields (tf : List (String × JVal)) :
    List (String × JVal) → Bool
  | [] => true
  | (k, v) :: rest =>
    (match v with
     | .obj sub =>
       match lookupA tf k with
       | some (.arr _) => false
       | some (.obj tsub) => noArrClash (.obj tsub) (.obj sub)
       | _ => true
     | _ => true) && noArrClashFields tf rest

end

/-- The translated document of language `lang`, file `fn` inside a
translation tree. -/
def docAt (m : JVal) (lang fn : String) : Option JVal :=
  (jsGet m lang).bind fun l => jsGet l fn

mutual

/-- The data-model invariant of §3: keys are unique within every
mapping.  `JSON.parse` output always satisfies it (a repeated key keeps
only its last value). -/
def wfDoc : JVal → Bool
  | .obj fields => nodupB (keysA fields) && wfFields fields
  | .arr xs => wfList xs
  | _ => true

/-- `wfDoc` under a field list. -/
def wfFields : List (String × JVal) → Bool
  | [] => true
  | (_, v) :: rest => wfDoc v && wfFields rest

/-- `wfDoc` for every element of an array. -/
def wfList : List JVal → Bool
  | [] => true
  | v :: rest => wfDoc v && wfList rest

end

/-- Segment-level unflattening: `unflatGo` after the dotted keys have
been split back into their segment paths. -/
def unflatSeg : List (List String × JVal) → JVal → Option JVal
  | [], acc => some acc
  | (p, v) :: rest, acc =>
    match setPath acc p v with
    | some acc' => unflatSeg rest acc'
    | none => none

/-- Join a segment path under a dotted prefix, exactly as `flattenGo`
builds its keys: the empty prefix contributes nothing. -/
def joinWith (pre : String) (p : List String) : String :=
  if pre = "" then joinDots p else pre ++ "." ++ joinDots p

/-! ## Association-list lemmas -/

theorem lookupA_nil {α : Type} (k : String) :
    lookupA ([] : List (String × α)) k = none := rfl

theorem lookupA_cons {α : Type} (k' : String) (v' : α) (rest : List (String × α))
    (k : String) :
    lookupA ((k', v') :: rest) k = if k' = k then some v' else lookupA rest k := rfl

theorem keysA_nil : keysA [] = [] := rfl

theorem keysA_cons (k : String) (v : JVal) (rest : List (String × JVal)) :
    keysA ((k, v) :: rest) = k :: keysA rest := rfl

theorem insertJs_nil (k : String) (v : JVal) : insertJs [] k v = [(k, v)] := rfl

theorem insertJs_cons (k' : String) (v' : JVal) (rest : List (String × JVal))
    (k : String) (v : JVal) :
    insertJs ((k', v') :: rest) k v =
      if k' = k then (k', v) :: rest else (k', v') :: insertJs rest k v := rfl

theorem lookupA_insertJs_self (fs : List (String × JVal)) (k : String) (v : JVal) :
    lookupA (insertJs fs k v) k = some v := by
  induction fs with
  | nil => simp [insertJs_nil, lookupA_cons, lookupA_nil]
  | cons p rest ih =>
    obtain ⟨k', v'⟩ := p
    by_cases h : k' = k
    · simp [insertJs_cons, h, lookupA_cons]
    · simp [insertJs_cons, h, lookupA_cons, ih]

theorem lookupA_insertJs_ne (fs : List (String × JVal)) {k k' : String} (v : JVal)
    (h : k' ≠ k) : lookupA (insertJs fs k v) k' = lookupA fs k' := by
  have hne : ¬ (k = k') := fun hh => h hh.symm
  induction fs with
  | nil => simp [insertJs_nil, lookupA_cons, lookupA_nil, hne]
  | cons p rest ih =>
    obtain ⟨k₀, v₀⟩ := p
    by_cases hk : k₀ = k
    · subst hk
      simp [insertJs_cons, lookupA_cons, hne]
    · simp [insertJs_cons, hk, lookupA_cons, ih]

theorem lookupA_eq_none (fs : List (String × JVal)) (k : String) :
    lookupA fs k = none ↔ k ∉ keysA fs := by
  induction fs with
  | nil => simp [lookupA_nil, keysA_nil]
  | cons p rest ih =>
    obtain ⟨k', v'⟩ := p
    by_cases h : k' = k
    · subst h; simp [lookupA_cons, keysA_cons]
    · simp only [lookupA_cons, if_neg h, keysA_cons, List.mem_cons, ih]
      constructor
      · rintro hn (rfl | hm)
        · exact h rfl
        · exact hn hm
      · intro hn hm
        exact hn (Or.inr hm)

theorem lookupA_isSome (fs : List (String × JVal)) (k : String) :
    (lookupA fs k).isSome = true ↔ k ∈ keysA fs := by
  rcases hl : lookupA fs k with _ | v
  · simpa [hl] using (lookupA_eq_none fs k).mp hl
  · simp only [Option.isSome_some, true_iff]
    by_contra hmem
    rw [← lookupA_eq_none fs k] at hmem
    simp [hl] at hmem

theorem mem_of_lookupA {fs : List (String × JVal)} {k : String} {v : JVal}
    (h : lookupA fs k = some v) : (k, v) ∈ fs := by
  induction fs with
  | nil => simp [lookupA_nil] at h
  | cons p rest ih =>
    obtain ⟨k', v'⟩ := p
    by_cases hk : k' = k
    · subst hk
      rw [lookupA_cons, if_pos rfl, Option.some_inj] at h
      simp [h]
    · rw [lookupA_cons, if_neg hk] at h
      exact List.mem_cons_of_mem _ (ih h)

theorem lookupA_of_mem {fs : List (String × JVal)} {k : String} {v : JVal}
    (hmem : (k, v) ∈ fs) (hnd : (keysA fs).Nodup) : lookupA fs k = some v := by
  induction fs with
  | nil => simp at hmem
  | cons p rest ih =>
    obtain ⟨k', v'⟩ := p
    rw [keysA_cons, List.nodup_cons] at hnd
    rcases List.mem_cons.mp hmem with h | h
    · rw [Prod.mk.injEq] at h
      simp [lookupA_cons, h.1.symm, h.2]
    · have hk : k' ≠ k := by
        rintro rfl
        exact hnd.1 (List.mem_map.mpr ⟨(k', v), h, rfl⟩)
      simp [lookupA_cons, hk, ih h hnd.2]

theorem insertJs_of_not_mem {fs : List (String × JVal)} {k : String} (v : JVal)
    (h : k ∉ keysA fs) : insertJs fs k v = fs ++ [(k, v)] := by
  induction fs with
  | nil => simp [insertJs_nil]
  | cons p rest ih =>
    obtain ⟨k', v'⟩ := p
    rw [keysA_cons, List.mem_cons] at h
    push_neg at h
    have hk : ¬ (k' = k) := fun hh => h.1 hh.symm
    simp [insertJs_cons, hk, ih h.2]

theorem insertJs_lookup_eq {fs : List (String × JVal)} {k : String} {v : JVal}
    (h : lookupA fs k = some v) : insertJs fs k v = fs := by
  induction fs with
  | nil => simp [lookupA_nil] at h
  | cons p rest ih =>
    obtain ⟨k', v'⟩ := p
    by_cases hk : k' = k
    · subst hk
      rw [lookupA_cons, if_pos rfl, Option.some_inj] at h
      simp [insertJs_cons, h]
    · rw [lookupA_cons, if_neg hk] at h
      simp [insertJs_cons, hk, ih h]

theorem insertJs_insertJs (fs : List (String × JVal)) (k : String) (v w : JVal) :
    insertJs (insertJs fs k v) k w = insertJs fs k w := by
  induction fs with
  | nil => simp [insertJs_nil, insertJs_cons]
  | cons p rest ih =>
    obtain ⟨k', v'⟩ := p
    by_cases hk : k' = k
    · simp [insertJs_cons, hk]
    · simp [insertJs_cons, hk, ih]

theorem keysA_insertJs_mem {fs : List (String × JVal)} {k : String} (v : JVal)
    (h : k ∈ keysA fs) : keysA (insertJs fs k v) = keysA fs := by
  induction fs with
  | nil => simp [keysA_nil] at h
  | cons p rest ih =>
    obtain ⟨k', v'⟩ := p
    by_cases hk : k' = k
    · simp [insertJs_cons, hk, keysA_cons]
    · rw [keysA_cons, List.mem_cons] at h
      rcases h with h | h
      · exact absurd h.symm hk
      · simp [insertJs_cons, hk, keysA_cons, ih h]

theorem mem_keysA_insertJs (fs : List (String × JVal)) (k : String) (v : JVal)
    (k' : String) : k' ∈ keysA (insertJs fs k v) ↔ k' ∈ keysA fs ∨ k' = k := by
  by_cases h : k ∈ keysA fs
  · rw [keysA_insertJs_mem v h]
    constructor
    · exact fun hh => Or.inl hh
    · rintro (hh | rfl) <;> [exact hh; exact h]
  · rw [insertJs_of_not_mem v h]
    simp [keysA]

theorem nodup_keysA_insertJs {fs : List (String × JVal)} (k : String) (v : JVal)
    (h : (keysA fs).Nodup) : (keysA (insertJs fs k v)).Nodup := by
  by_cases hm : k ∈ keysA fs
  · rw [keysA_insertJs_mem v hm]; exact h
  · rw [insertJs_of_not_mem v hm]
    have hkeys : keysA (fs ++ [(k, v)]) = keysA fs ++ [k] := by simp [keysA]
    rw [hkeys]
    refine List.Nodup.append h (List.nodup_singleton k) ?_
    intro a ha hb
    rw [List.mem_singleton] at hb
    exact hm (hb ▸ ha)

theorem nodupB_iff (ks : List String) : nodupB ks = true ↔ ks.Nodup := by
  induction ks with
  | nil => simp [nodupB]
  | cons k rest ih => simp [nodupB, ih, List.nodup_cons]

/-! ## The dotted encoding: `joinDots` / `splitDots` -/

theorem string_data_inj {a b : String} (h : a.data = b.data) : a = b := by
  cases a; cases b; exact congrArg String.mk h

theorem string_mk_data (s : String) : String.mk s.data = s := by cases s; rfl

theorem joinDots_cons₂ (k k' : String) (rest : List String) :
    joinDots (k :: k' :: rest) = k ++ "." ++ joinDots (k' :: rest) := rfl

theorem data_joinDots :
    ∀ path : List String,
      (joinDots path).data = List.intercalate ['.'] (path.map String.data)
  | [] => by simp [joinDots, List.intercalate]
  | [k] => by simp [joinDots, List.intercalate, List.intersperse]
  | k :: k' :: rest => by
    have ih := data_joinDots (k' :: rest)
    rw [joinDots_cons₂, String.data_append, String.data_append, ih]
    show _ = List.intercalate ['.'] (k.data :: (k' :: rest).map String.data)
    rw [List.intercalate, List.intercalate, List.map_cons,
      List.intersperse_cons₂, List.flatten_cons, List.flatten_cons]
    simp [List.append_assoc]

theorem splitDots_joinDots (path : List String) (hne : path ≠ [])
    (hdot : ∀ s ∈ path, '.' ∉ s.data) : splitDots (joinDots path) = path := by
  unfold splitDots
  rw [data_joinDots]
  rw [List.splitOn_intercalate (path.map String.data) '.'
    (by
      intro l hl
      rcases List.mem_map.mp hl with ⟨s, hs, rfl⟩
      exact hdot s hs)
    (by simpa using hne)]
  rw [List.map_map]
  have : ∀ s : String, (fun l => String.mk l) ∘ String.data = id := by
    intro _; funext s; exact string_mk_data s
  rw [this "", List.map_id]

theorem strAppend_cancel_left {a b c : String} (h : a ++ b = a ++ c) : b = c := by
  have hd := congrArg String.data h
  rw [String.data_append, String.data_append] at hd
  exact string_data_inj (List.append_cancel_left hd)

theorem joinDots_inj {p q : List String} (hp : p ≠ []) (hq : q ≠ [])
    (hpd : ∀ s ∈ p, '.' ∉ s.data) (hqd : ∀ s ∈ q, '.' ∉ s.data)
    (h : joinDots p = joinDots q) : p = q := by
  have := congrArg splitDots h
  rwa [splitDots_joinDots p hp hpd, splitDots_joinDots q hq hqd] at this

theorem joinWith_inj (pre : String) {p q : List String} (hp : p ≠ []) (hq : q ≠ [])
    (hpd : ∀ s ∈ p, '.' ∉ s.data) (hqd : ∀ s ∈ q, '.' ∉ s.data)
    (h : joinWith pre p = joinWith pre q) : p = q := by
  unfold joinWith at h
  by_cases hpre : pre = ""
  · rw [if_pos hpre, if_pos hpre] at h
    exact joinDots_inj hp hq hpd hqd h
  · rw [if_neg hpre, if_neg hpre] at h
    exact joinDots_inj hp hq hpd hqd (strAppend_cancel_left h)

theorem joinWith_single (pre k : String) :
    joinWith pre [k] = if pre = "" then k else pre ++ "." ++ k := by
  unfold joinWith joinDots
  rfl

theorem strAppend_dot_ne_empty (a b : String) : a ++ "." ++ b ≠ "" := by
  intro h
  have hd := congrArg String.data h
  rw [String.data_append, String.data_append] at hd
  simp at hd

theorem joinWith_ne_of_goodKey {pre k : String} (hk : goodKey k = true) :
    joinWith pre [k] ≠ "" := by
  rw [joinWith_single]
  rw [goodKey, Bool.and_eq_true, decide_eq_true_eq] at hk
  by_cases hpre : pre = ""
  · simpa [hpre] using hk.1
  · rw [if_neg hpre]
    exact strAppend_dot_ne_empty pre k

theorem joinWith_cons (pre k : String) (hk : k ≠ "") {q : List String}
    (hq : q ≠ []) : joinWith pre (k :: q) = joinWith (joinWith pre [k]) q := by
  obtain ⟨q₀, qs, rfl⟩ : ∃ q₀ qs, q = q₀ :: qs := by
    cases q with
    | nil => exact absurd rfl hq
    | cons a l => exact ⟨a, l, rfl⟩
  rw [joinWith_single]
  by_cases hpre : pre = ""
  · rw [if_pos hpre]
    unfold joinWith
    rw [if_pos hpre, if_neg hk, joinDots_cons₂]
  · rw [if_neg hpre]
    unfold joinWith
    rw [if_neg hpre, if_neg (strAppend_dot_ne_empty pre k), joinDots_cons₂]
    apply string_data_inj
    simp [String.data_append]

/-! ## `flatSeg` structure -/

theorem flatSeg_nil : flatSeg [] = [] := by simp [flatSeg]

theorem flatSeg_cons_obj (k : String) (sub rest : List (String × JVal)) :
    flatSeg ((k, .obj sub) :: rest) =
      (flatSeg sub).map (fun p => (k :: p.1, p.2)) ++ flatSeg rest := by
  simp [flatSeg]

theorem flatSeg_cons_leaf {v : JVal} (h : isMapping v = false) (k : String)
    (rest : List (String × JVal)) :
    flatSeg ((k, v) :: rest) = ([k], v) :: flatSeg rest := by
  cases v
  case obj => simp [isMapping] at h
  all_goals simp [flatSeg]

theorem canonFields_cons {k : String} {v : JVal} {rest : List (String × JVal)}
    (h : canonFields ((k, v) :: rest) = true) :
    goodKey k = true ∧ canonVal v = true ∧ canonFields rest = true := by
  rw [canonFields, Bool.and_eq_true, Bool.and_eq_true] at h
  exact ⟨h.1.1, h.1.2, h.2⟩

theorem canonVal_obj {fields : List (String × JVal)}
    (h : canonVal (.obj fields) = true) :
    fields ≠ [] ∧ nodupB (keysA fields) = true ∧ canonFields fields = true := by
  rw [canonVal, Bool.and_eq_true, Bool.and_eq_true] at h
  refine ⟨?_, h.1.2, h.2⟩
  have := h.1.1
  simpa using this

theorem flatSeg_props :
    ∀ fs : List (String × JVal), canonFields fs = true →
      ∀ p ∈ flatSeg fs, p.1 ≠ [] ∧ (∀ s ∈ p.1, goodKey s = true) ∧
        isMapping p.2 = false
  | [], _, p, hp => by simp [flatSeg_nil] at hp
  | (k, v) :: rest, hc, p, hp => by
    obtain ⟨hk, hv, hrest⟩ := canonFields_cons hc
    cases hvm : isMapping v with
    | true =>
      obtain ⟨sub, rfl⟩ : ∃ sub, v = .obj sub := by
        cases v <;> simp [isMapping] at hvm ⊢
      rw [flatSeg_cons_obj] at hp
      rcases List.mem_append.mp hp with hmem | hmem
      · rcases List.mem_map.mp hmem with ⟨q, hq, rfl⟩
        obtain ⟨hsub_ne, _, hsub_cf⟩ := canonVal_obj hv
        obtain ⟨hq1, hq2, hq3⟩ := flatSeg_props sub hsub_cf q hq
        refine ⟨by simp, ?_, hq3⟩
        intro s hs
        rcases List.mem_cons.mp hs with rfl | hs
        · exact hk
        · exact hq2 s hs
      · exact flatSeg_props rest hrest p hmem
    | false =>
      rw [flatSeg_cons_leaf hvm] at hp
      rcases List.mem_cons.mp hp with rfl | hmem
      · exact ⟨by simp, by intro s hs; rcases List.mem_singleton.mp hs with rfl; exact hk, hvm⟩
      · exact flatSeg_props rest hrest p hmem

theorem flatSeg_head_mem :
    ∀ fs : List (String × JVal), ∀ p ∈ flatSeg fs,
      ∃ k q, p.1 = k :: q ∧ k ∈ keysA fs
  | [], p, hp => by simp [flatSeg_nil] at hp
  | (k, v) :: rest, p, hp => by
    cases hvm : isMapping v with
    | true =>
      obtain ⟨sub, rfl⟩ : ∃ sub, v = .obj sub := by
        cases v <;> simp [isMapping] at hvm ⊢
      rw [flatSeg_cons_obj] at hp
      rcases List.mem_append.mp hp with hmem | hmem
      · rcases List.mem_map.mp hmem with ⟨q, _, rfl⟩
        exact ⟨k, q.1, rfl, by simp [keysA_cons]⟩
      · obtain ⟨k', q', hq', hk'⟩ := flatSeg_head_mem rest p hmem
        exact ⟨k', q', hq', by simp [keysA_cons, hk']⟩
    | false =>
      rw [flatSeg_cons_leaf hvm] at hp
      rcases List.mem_cons.mp hp with rfl | hmem
      · exact ⟨k, [], rfl, by simp [keysA_cons]⟩
      · obtain ⟨k', q', hq', hk'⟩ := flatSeg_head_mem rest p hmem
        exact ⟨k', q', hq', by simp [keysA_cons, hk']⟩

theorem flatSeg_ne_nil :
    ∀ fs : List (String × JVal), fs ≠ [] → canonFields fs = true →
      flatSeg fs ≠ []
  | [], hne, _ => absurd rfl hne
  | (k, v) :: rest, _, hc => by
    obtain ⟨_, hv, _⟩ := canonFields_cons hc
    cases hvm : isMapping v with
    | true =>
      obtain ⟨sub, rfl⟩ : ∃ sub, v = .obj sub := by
        cases v <;> simp [isMapping] at hvm ⊢
      rw [flatSeg_cons_obj]
      obtain ⟨hsub_ne, _, hsub_cf⟩ := canonVal_obj hv
      have := flatSeg_ne_nil sub hsub_ne hsub_cf
      intro h
      rcases List.append_eq_nil.mp h with ⟨h1, _⟩
      exact this (List.map_eq_nil_iff.mp h1)
    | false =>
      rw [flatSeg_cons_leaf hvm]
      simp

theorem goodKey_iff (k : String) :
    goodKey k = true ↔ k ≠ "" ∧ '.' ∉ k.data := by
  simp [goodKey]

theorem objAssign_nil (acc : List (String × JVal)) : objAssign acc [] = acc := rfl

theorem objAssign_cons (acc : List (String × JVal)) (k : String) (v : JVal)
    (src : List (String × JVal)) :
    objAssign acc ((k, v) :: src) = objAssign (insertJs acc k v) src := rfl

theorem keysA_append (fs gs : List (String × JVal)) :
    keysA (fs ++ gs) = keysA fs ++ keysA gs := by simp [keysA]

theorem objAssign_append :
    ∀ {src acc : List (String × JVal)},
      (∀ k ∈ keysA src, k ∉ keysA acc) → (keysA src).Nodup →
      objAssign acc src = acc ++ src := by
  intro src
  induction src with
  | nil => intro acc _ _; simp [objAssign_nil]
  | cons p rest ih =>
    obtain ⟨k, v⟩ := p
    intro acc hdisj hnd
    rw [keysA_cons] at hdisj
    rw [keysA_cons, List.nodup_cons] at hnd
    rw [objAssign_cons, insertJs_of_not_mem v (hdisj k (by simp))]
    rw [ih ?_ hnd.2]
    · simp
    · intro k' hk'
      rw [keysA_append]
      intro hmem
      rcases List.mem_append.mp hmem with hmem | hmem
      · exact hdisj k' (by simp [hk']) hmem
      · rw [keysA_cons, keysA_nil, List.mem_singleton] at hmem
        exact hnd.1 (hmem ▸ hk')

theorem flattenGo_nil (pre : String) (res : List (String × JVal)) :
    flattenGo [] pre res = res := by simp [flattenGo]

theorem flattenGo_cons_obj (k : String) (sub rest : List (String × JVal))
    (pre : String) (res : List (String × JVal)) :
    flattenGo ((k, .obj sub) :: rest) pre res =
      flattenGo rest pre
        (objAssign res (flattenGo sub (if pre = "" then k else pre ++ "." ++ k) [])) := by
  simp [flattenGo]

theorem flattenGo_cons_leaf {v : JVal} (h : isMapping v = false) (k : String)
    (rest : List (String × JVal)) (pre : String) (res : List (String × JVal)) :
    flattenGo ((k, v) :: rest) pre res =
      flattenGo rest pre (insertJs res (if pre = "" then k else pre ++ "." ++ k) v) := by
  cases v
  case obj => simp [isMapping] at h
  all_goals simp [flattenGo]

theorem flatSeg_nodup :
    ∀ fs : List (String × JVal), canonFields fs = true →
      nodupB (keysA fs) = true → ((flatSeg fs).map Prod.fst).Nodup
  | [], _, _ => by simp [flatSeg_nil]
  | (k, v) :: rest, hc, hnd => by
    obtain ⟨hk, hv, hrest⟩ := canonFields_cons hc
    rw [keysA_cons, nodupB, Bool.and_eq_true] at hnd
    have hknotin : k ∉ keysA rest := by
      have := hnd.1
      simpa using this
    have hndrest : nodupB (keysA rest) = true := hnd.2
    have ihrest := flatSeg_nodup rest hrest hndrest
    have hdisj : ∀ q ∈ flatSeg rest, ∀ tail : List String,
        Prod.fst q ≠ k :: tail := by
      intro q hq tail heq
      obtain ⟨k', q', hq', hk'⟩ := flatSeg_head_mem rest q hq
      rw [hq'] at heq
      have hkk : k' = k := (List.cons_eq_cons.mp heq).1
      exact hknotin (hkk ▸ hk')
    cases hvm : isMapping v with
    | true =>
      obtain ⟨sub, rfl⟩ : ∃ sub, v = .obj sub := by
        cases v <;> simp [isMapping] at hvm ⊢
      rw [flatSeg_cons_obj, List.map_append]
      obtain ⟨hsub_ne, hsub_nd, hsub_cf⟩ := canonVal_obj hv
      have ihsub := flatSeg_nodup sub hsub_cf hsub_nd
      refine List.Nodup.append ?_ ihrest ?_
      · rw [List.map_map]
        have : ((flatSeg sub).map (fun p => k :: p.1)).Nodup := by
          have hinj : ∀ a ∈ (flatSeg sub).map Prod.fst,
              ∀ b ∈ (flatSeg sub).map Prod.fst,
              k :: a = k :: b → a = b := by
            intro a _ b _ h
            exact (List.cons.injEq .. ▸ h).2
          have := List.Nodup.map_on hinj ihsub
          rw [List.map_map] at this
          exact this
        convert this using 2
      · intro x hx hy
        rw [List.map_map] at hx
        rcases List.mem_map.mp hx with ⟨q, _, rfl⟩
        rcases List.mem_map.mp hy with ⟨q', hq', hx'⟩
        exact hdisj q' hq' q.1 hx'
    | false =>
      rw [flatSeg_cons_leaf hvm, List.map_cons]
      rw [List.nodup_cons]
      refine ⟨?_, ihrest⟩
      intro hmem
      rcases List.mem_map.mp hmem with ⟨q, hq, hx⟩
      exact hdisj q hq [] hx

theorem flatSeg_dotfree {fs : List (String × JVal)} (hc : canonFields fs = true)
    {p : List String × JVal} (hp : p ∈ flatSeg fs) : ∀ s ∈ p.1, '.' ∉ s.data := by
  intro s hs
  exact ((goodKey_iff s).mp ((flatSeg_props fs hc p hp).2.1 s hs)).2

theorem keysA_map_path (f : List String → String) (l : List (List String × JVal)) :
    keysA (l.map fun p => (f p.1, p.2)) = l.map fun p => f p.1 := by
  simp [keysA, List.map_map]

/-- The flattening loop, on canonical fields, computes the dot-joined
image of the segment-level flat map, appended to the accumulator. -/
theorem flattenGo_eq :
    ∀ (fs : List (String × JVal)) (pre : String) (res : List (String × JVal)),
      canonFields fs = true → nodupB (keysA fs) = true →
      (∀ p ∈ flatSeg fs, joinWith pre p.1 ∉ keysA res) →
      flattenGo fs pre res = res ++ (flatSeg fs).map fun p => (joinWith pre p.1, p.2)
  | [], pre, res, _, _, _ => by simp [flattenGo_nil, flatSeg_nil]
  | (k, v) :: rest, pre, res, hc, hnd, hdisj => by
    obtain ⟨hk, hv, hrest⟩ := canonFields_cons hc
    rw [keysA_cons, nodupB, Bool.and_eq_true] at hnd
    have hknotin : k ∉ keysA rest := by simpa using hnd.1
    have hndrest : nodupB (keysA rest) = true := hnd.2
    have hkgood := (goodKey_iff k).mp hk
    have hnkjw : joinWith pre [k] = (if pre = "" then k else pre ++ "." ++ k) :=
      joinWith_single pre k
    cases hvm : isMapping v with
    | false =>
      have hmem0 : ([k], v) ∈ flatSeg ((k, v) :: rest) := by
        rw [flatSeg_cons_leaf hvm]; simp
      have hnkres : (if pre = "" then k else pre ++ "." ++ k) ∉ keysA res := by
        have := hdisj ([k], v) hmem0
        rwa [hnkjw] at this
      rw [flattenGo_cons_leaf hvm, insertJs_of_not_mem v hnkres]
      rw [flattenGo_eq rest pre (res ++ [((if pre = "" then k else pre ++ "." ++ k), v)])
        hrest hndrest ?_]
      · rw [flatSeg_cons_leaf hvm, List.map_cons, hnkjw]
        simp
      · intro p hp
        have hpmem : p ∈ flatSeg ((k, v) :: rest) := by
          rw [flatSeg_cons_leaf hvm]; exact List.mem_cons_of_mem _ hp
        have h1 : joinWith pre p.1 ∉ keysA res := hdisj p hpmem
        have h2 : joinWith pre p.1 ≠ (if pre = "" then k else pre ++ "." ++ k) := by
          rw [← hnkjw]
          intro heq
          obtain ⟨hp1, _, _⟩ := flatSeg_props rest hrest p hp
          have hpk : p.1 = [k] := by
            refine joinWith_inj pre hp1 (by simp) (flatSeg_dotfree hrest hp) ?_ heq
            intro s hs
            rcases List.mem_singleton.mp hs with rfl
            exact hkgood.2
          obtain ⟨k', q', hq', hk'⟩ := flatSeg_head_mem rest p hp
          rw [hq'] at hpk
          have : k' = k := (List.cons_eq_cons.mp hpk).1
          exact hknotin (this ▸ hk')
        rw [keysA_append, keysA_cons, keysA_nil]
        intro hmem
        rcases List.mem_append.mp hmem with hmem | hmem
        · exact h1 hmem
        · exact h2 (List.mem_singleton.mp hmem)
    | true =>
      obtain ⟨sub, rfl⟩ : ∃ sub, v = .obj sub := by
        cases v <;> simp [isMapping] at hvm ⊢
      obtain ⟨hsub_ne, hsub_nd, hsub_cf⟩ := canonVal_obj hv
      have hinner := flattenGo_eq sub (if pre = "" then k else pre ++ "." ++ k) []
        hsub_cf hsub_nd (by intro p hp; simp [keysA_nil])
      rw [flattenGo_cons_obj, hinner, List.nil_append]
      have hgroupeq :
          (flatSeg sub).map
              (fun q => (joinWith (if pre = "" then k else pre ++ "." ++ k) q.1, q.2)) =
            ((flatSeg sub).map fun q => (k :: q.1, q.2)).map
              fun p => (joinWith pre p.1, p.2) := by
        rw [List.map_map]
        apply List.map_congr_left
        intro q hq
        obtain ⟨hq1, _, _⟩ := flatSeg_props sub hsub_cf q hq
        have hjc := joinWith_cons pre k hkgood.1 hq1
        rw [hnkjw] at hjc
        simp [Function.comp, hjc]
      have hgroupmem : ∀ q ∈ flatSeg sub,
          (k :: q.1, q.2) ∈ flatSeg ((k, JVal.obj sub) :: rest) := by
        intro q hq
        rw [flatSeg_cons_obj]
        exact List.mem_append_left _ (List.mem_map.mpr ⟨q, hq, rfl⟩)
      have hsubkeys : keysA ((flatSeg sub).map
          fun q => (joinWith (if pre = "" then k else pre ++ "." ++ k) q.1, q.2)) =
          (flatSeg sub).map fun q =>
            joinWith (if pre = "" then k else pre ++ "." ++ k) q.1 :=
        keysA_map_path _ _
      have hjoin_sub : ∀ q ∈ flatSeg sub,
          joinWith (if pre = "" then k else pre ++ "." ++ k) q.1 =
            joinWith pre (k :: q.1) := by
        intro q hq
        obtain ⟨hq1, _, _⟩ := flatSeg_props sub hsub_cf q hq
        have hjc := joinWith_cons pre k hkgood.1 hq1
        rw [hnkjw] at hjc
        exact hjc.symm
      rw [objAssign_append ?_ ?_]
      rotate_left
      · -- keys of the flattened subgroup are fresh for `res`
        intro k' hk'
        rw [hsubkeys] at hk'
        rcases List.mem_map.mp hk' with ⟨q, hq, rfl⟩
        rw [hjoin_sub q hq]
        exact hdisj (k :: q.1, q.2) (hgroupmem q hq)
      · -- and distinct among themselves
        rw [hsubkeys]
        have hinj : ∀ a ∈ (flatSeg sub).map Prod.fst, ∀ b ∈ (flatSeg sub).map Prod.fst,
            joinWith (if pre = "" then k else pre ++ "." ++ k) a =
              joinWith (if pre = "" then k else pre ++ "." ++ k) b → a = b := by
          intro a ha b hb h
          rcases List.mem_map.mp ha with ⟨qa, hqa, rfl⟩
          rcases List.mem_map.mp hb with ⟨qb, hqb, rfl⟩
          exact joinWith_inj _ (flatSeg_props sub hsub_cf qa hqa).1
            (flatSeg_props sub hsub_cf qb hqb).1
            (flatSeg_dotfree hsub_cf hqa) (flatSeg_dotfree hsub_cf hqb) h
        have := List.Nodup.map_on hinj (flatSeg_nodup sub hsub_cf hsub_nd)
        rw [List.map_map] at this
        exact this
      · rw [flattenGo_eq rest pre _ hrest hndrest ?_]
        · rw [flatSeg_cons_obj, List.map_append, hgroupeq, List.append_assoc]
        · intro p hp
          have hpmem : p ∈ flatSeg ((k, JVal.obj sub) :: rest) := by
            rw [flatSeg_cons_obj]
            exact List.mem_append_right _ hp
          have h1 : joinWith pre p.1 ∉ keysA res := hdisj p hpmem
          rw [keysA_append, hsubkeys]
          intro hmem
          rcases List.mem_append.mp hmem with hmem | hmem
          · exact h1 hmem
          · rcases List.mem_map.mp hmem with ⟨q, hq, hqeq⟩
            rw [hjoin_sub q hq] at hqeq
            obtain ⟨hp1, _, _⟩ := flatSeg_props rest hrest p hp
            have hpq : p.1 = k :: q.1 := by
              refine joinWith_inj pre hp1 (by simp) (flatSeg_dotfree hrest hp) ?_ hqeq.symm
              intro s hs
              rcases List.mem_cons.mp hs with rfl | hs
              · exact hkgood.2
              · exact flatSeg_dotfree hsub_cf hq s hs
            obtain ⟨k', q', hq', hk'⟩ := flatSeg_head_mem rest p hp
            rw [hq'] at hpq
            have : k' = k := (List.cons_eq_cons.mp hpq).1
            exact hknotin (this ▸ hk')

/-! ## Rebuilding a document from its flat map -/

theorem setPath_single (fields : List (String × JVal)) (last : String) (v : JVal) :
    setPath (.obj fields) [last] v = some (.obj (insertJs fields last v)) := rfl

theorem setPath_cons_absent {fields : List (String × JVal)} {k : String}
    (h : lookupA fields k = none) (r : String) (rs : List String) (v : JVal) :
    setPath (.obj fields) (k :: r :: rs) v =
      (setPath (.obj []) (r :: rs) v).map fun c' => .obj (insertJs fields k c') := by
  show (match setPath (match lookupA fields k with
        | some c => if jsTruthy c then c else JVal.obj []
        | none => JVal.obj []) (r :: rs) v with
       | some c' => some (JVal.obj (insertJs fields k c'))
       | none => none) = _
  rw [h]
  rcases setPath (JVal.obj []) (r :: rs) v with _ | c' <;> rfl

theorem setPath_cons_obj {fields : List (String × JVal)} {k : String}
    {cf : List (String × JVal)} (h : lookupA fields k = some (.obj cf))
    (r : String) (rs : List String) (v : JVal) :
    setPath (.obj fields) (k :: r :: rs) v =
      (setPath (.obj cf) (r :: rs) v).map fun c' => .obj (insertJs fields k c') := by
  show (match setPath (match lookupA fields k with
        | some c => if jsTruthy c then c else JVal.obj []
        | none => JVal.obj []) (r :: rs) v with
       | some c' => some (JVal.obj (insertJs fields k c'))
       | none => none) = _
  rw [h]
  show (match setPath (JVal.obj cf) (r :: rs) v with
       | some c' => some (JVal.obj (insertJs fields k c'))
       | none => none) = _
  rcases setPath (JVal.obj cf) (r :: rs) v with _ | c' <;> rfl

theorem setPath_obj_some :
    ∀ (p : List String) (fields : List (String × JVal)) (v r : JVal),
      p ≠ [] → setPath (.obj fields) p v = some r →
      ∃ rf, r = JVal.obj rf := by
  intro p fields v r hne h
  match p with
  | [last] =>
    rw [setPath_single] at h
    exact ⟨_, (Option.some_inj.mp h).symm⟩
  | k :: r' :: rs =>
    have h' : (match setPath (match lookupA fields k with
          | some c => if jsTruthy c then c else JVal.obj []
          | none => JVal.obj []) (r' :: rs) v with
         | some c' => some (JVal.obj (insertJs fields k c'))
         | none => none) = some r := h
    rcases hsp : setPath (match lookupA fields k with
        | some c => if jsTruthy c then c else JVal.obj []
        | none => JVal.obj []) (r' :: rs) v with _ | c'
    · rw [hsp] at h'
      simp at h'
    · rw [hsp] at h'
      exact ⟨_, Option.some_inj.mp h'.symm⟩

theorem lookupA_append_single {fields : List (String × JVal)} {k : String}
    (h : k ∉ keysA fields) (x : JVal) :
    lookupA (fields ++ [(k, x)]) k = some x := by
  rw [← insertJs_of_not_mem x h]
  exact lookupA_insertJs_self fields k x

theorem unflatSeg_nil (acc : JVal) : unflatSeg [] acc = some acc := rfl

theorem unflatSeg_cons (p : List String) (v : JVal)
    (rest : List (List String × JVal)) (acc : JVal) :
    unflatSeg ((p, v) :: rest) acc =
      match setPath acc p v with
      | some acc' => unflatSeg rest acc'
      | none => none := rfl

theorem unflatSeg_append :
    ∀ (xs ys : List (List String × JVal)) (acc : JVal),
      unflatSeg (xs ++ ys) acc =
        match unflatSeg xs acc with
        | some acc' => unflatSeg ys acc'
        | none => none
  | [], ys, acc => by simp [unflatSeg_nil]
  | (p, v) :: rest, ys, acc => by
    rw [List.cons_append, unflatSeg_cons, unflatSeg_cons]
    rcases setPath acc p v with _ | acc'
    · rfl
    · exact unflatSeg_append rest ys acc'

/-- Continuing a group: when the group key already holds a mapping,
pushing the group's entries through `k` updates that mapping in
place. -/
theorem unflatSeg_group_cont :
    ∀ (entries : List (List String × JVal)) (k : String)
      (fields cf : List (String × JVal)),
      (∀ p ∈ entries, p.1 ≠ []) →
      lookupA fields k = some (.obj cf) →
      unflatSeg (entries.map fun p => (k :: p.1, p.2)) (.obj fields) =
        (unflatSeg entries (.obj cf)).map fun r => .obj (insertJs fields k r)
  | [], k, fields, cf, _, hc => by
    rw [List.map_nil, unflatSeg_nil, unflatSeg_nil, Option.map_some']
    rw [insertJs_lookup_eq hc]
  | (p, v) :: rest, k, fields, cf, hne, hc => by
    obtain ⟨r, rs, rfl⟩ : ∃ r rs, p = r :: rs := by
      cases p with
      | nil => exact absurd rfl (hne (_, v) (by simp))
      | cons a l => exact ⟨a, l, rfl⟩
    rw [List.map_cons, unflatSeg_cons, setPath_cons_obj hc]
    rcases hsp : setPath (.obj cf) (r :: rs) v with _ | c'
    · rw [unflatSeg_cons, hsp]
      rfl
    · obtain ⟨c'f, rfl⟩ := setPath_obj_some (r :: rs) cf v c' (by simp) hsp
      rw [Option.map_some']
      show unflatSeg (List.map (fun p => (k :: p.1, p.2)) rest)
          (JVal.obj (insertJs fields k (JVal.obj c'f))) = _
      have hstep := unflatSeg_group_cont rest k (insertJs fields k (.obj c'f)) c'f
        (fun q hq => hne q (List.mem_cons_of_mem _ hq))
        (lookupA_insertJs_self fields k (.obj c'f))
      rw [hstep]
      rw [unflatSeg_cons, hsp]
      show _ = Option.map (fun r => JVal.obj (insertJs fields k r))
        (unflatSeg rest (JVal.obj c'f))
      rcases hru : unflatSeg rest (JVal.obj c'f) with _ | rr
      · rfl
      · rw [Option.map_some', Option.map_some', insertJs_insertJs]

/-- Starting a group: a fresh group key appends one entry holding the
rebuilt subtree. -/
theorem unflatSeg_group (entries : List (List String × JVal)) (k : String)
    (fields : List (String × JVal)) (hne : ∀ p ∈ entries, p.1 ≠ [])
    (hentries : entries ≠ []) (habs : lookupA fields k = none) :
    unflatSeg (entries.map fun p => (k :: p.1, p.2)) (.obj fields) =
      (unflatSeg entries (.obj [])).map fun r => .obj (fields ++ [(k, r)]) := by
  have hknot : k ∉ keysA fields := (lookupA_eq_none fields k).mp habs
  obtain ⟨⟨p, v⟩, rest, rfl⟩ : ∃ q rest, entries = q :: rest := by
    cases entries with
    | nil => exact absurd rfl hentries
    | cons a l => exact ⟨a, l, rfl⟩
  obtain ⟨r, rs, rfl⟩ : ∃ r rs, p = r :: rs := by
    have := hne (p, v) (by simp)
    cases p with
    | nil => exact absurd rfl this
    | cons a l => exact ⟨a, l, rfl⟩
  rw [List.map_cons, unflatSeg_cons, setPath_cons_absent habs]
  rcases hsp : setPath (.obj []) (r :: rs) v with _ | c'
  · rw [unflatSeg_cons, hsp]
    rfl
  · obtain ⟨c'f, rfl⟩ := setPath_obj_some (r :: rs) [] v c' (by simp) hsp
    rw [Option.map_some']
    rw [insertJs_of_not_mem _ hknot]
    show unflatSeg (List.map (fun p => (k :: p.1, p.2)) rest)
        (JVal.obj (fields ++ [(k, JVal.obj c'f)])) = _
    have hstep := unflatSeg_group_cont rest k (fields ++ [(k, JVal.obj c'f)]) c'f
      (fun q hq => hne q (List.mem_cons_of_mem _ hq))
      (lookupA_append_single hknot _)
    rw [hstep]
    rw [unflatSeg_cons, hsp]
    show _ = Option.map (fun r => JVal.obj (fields ++ [(k, r)]))
      (unflatSeg rest (JVal.obj c'f))
    rcases hru : unflatSeg rest (JVal.obj c'f) with _ | rr
    · rfl
    · rw [Option.map_some', Option.map_some']
      rw [← insertJs_of_not_mem (JVal.obj c'f) hknot, insertJs_insertJs,
        insertJs_of_not_mem rr hknot]

/-- Folding the segment-level flat map of canonical fields over
`setPath` rebuilds exactly those fields, after any disjoint
accumulator. -/
theorem unflatSeg_flatSeg :
    ∀ fs : List (String × JVal), canonFields fs = true →
      nodupB (keysA fs) = true →
      ∀ accFields : List (String × JVal),
        (∀ kk ∈ keysA fs, kk ∉ keysA accFields) →
        unflatSeg (flatSeg fs) (.obj accFields) = some (.obj (accFields ++ fs))
  | [], _, _, accFields, _ => by simp [flatSeg_nil, unflatSeg_nil]
  | (k, v) :: rest, hc, hnd, accFields, hacc => by
    obtain ⟨hk, hv, hrest⟩ := canonFields_cons hc
    rw [keysA_cons, nodupB, Bool.and_eq_true] at hnd
    have hknotin : k ∉ keysA rest := by simpa using hnd.1
    have hndrest : nodupB (keysA rest) = true := hnd.2
    have hkacc : k ∉ keysA accFields := hacc k (by rw [keysA_cons]; simp)
    have hrestacc : ∀ kk ∈ keysA rest, kk ∉ keysA (accFields ++ [(k, v)]) ∧
        kk ∉ keysA accFields := by
      intro kk hkk
      have h1 : kk ∉ keysA accFields := hacc kk (by rw [keysA_cons]; simp [hkk])
      constructor
      · rw [keysA_append, keysA_cons, keysA_nil]
        intro hmem
        rcases List.mem_append.mp hmem with hmem | hmem
        · exact h1 hmem
        · rw [List.mem_singleton] at hmem
          exact hknotin (hmem ▸ hkk)
      · exact h1
    cases hvm : isMapping v with
    | false =>
      rw [flatSeg_cons_leaf hvm, unflatSeg_cons, setPath_single,
        insertJs_of_not_mem v hkacc]
      show unflatSeg (flatSeg rest) (JVal.obj (accFields ++ [(k, v)])) = _
      rw [unflatSeg_flatSeg rest hrest hndrest (accFields ++ [(k, v)])
        (fun kk hkk => (hrestacc kk hkk).1)]
      simp
    | true =>
      obtain ⟨sub, rfl⟩ : ∃ sub, v = .obj sub := by
        cases v <;> simp [isMapping] at hvm ⊢
      obtain ⟨hsub_ne, hsub_nd, hsub_cf⟩ := canonVal_obj hv
      rw [flatSeg_cons_obj, unflatSeg_append]
      rw [unflatSeg_group (flatSeg sub) k accFields
        (fun q hq => (flatSeg_props sub hsub_cf q hq).1)
        (flatSeg_ne_nil sub hsub_ne hsub_cf)
        ((lookupA_eq_none accFields k).mpr hkacc)]
      rw [unflatSeg_flatSeg sub hsub_cf hsub_nd [] (by simp [keysA_nil])]
      rw [Option.map_some', List.nil_append]
      show unflatSeg (flatSeg rest) (JVal.obj (accFields ++ [(k, JVal.obj sub)])) = _
      rw [unflatSeg_flatSeg rest hrest hndrest (accFields ++ [(k, JVal.obj sub)])
        (fun kk hkk => (hrestacc kk hkk).1)]
      simp

theorem unflatGo_nil (acc : JVal) : unflatGo [] acc = some acc := rfl

theorem unflatGo_cons (k : String) (v : JVal) (rest : List (String × JVal))
    (acc : JVal) :
    unflatGo ((k, v) :: rest) acc =
      match setPath acc (splitDots k) v with
      | some acc' => unflatGo rest acc'
      | none => none := rfl

theorem unflatGo_eq_unflatSeg :
    ∀ (l : List (List String × JVal)) (acc : JVal),
      (∀ p ∈ l, p.1 ≠ [] ∧ ∀ s ∈ p.1, '.' ∉ s.data) →
      unflatGo (l.map fun p => (joinDots p.1, p.2)) acc = unflatSeg l acc
  | [], _, _ => rfl
  | (p, v) :: rest, acc, h => by
    rw [List.map_cons, unflatGo_cons, unflatSeg_cons]
    rw [splitDots_joinDots p (h (p, v) (by simp)).1 (h (p, v) (by simp)).2]
    rcases setPath acc p v with _ | a
    · rfl
    · exact unflatGo_eq_unflatSeg rest a fun q hq => h q (List.mem_cons_of_mem _ hq)

theorem flattenObject_canon (fields : List (String × JVal))
    (hc : canonFields fields = true) (hnd : nodupB (keysA fields) = true) :
    flattenObject (.obj fields) "" =
      (flatSeg fields).map fun p => (joinDots p.1, p.2) := by
  show flattenGo fields "" [] = _
  rw [flattenGo_eq fields "" [] hc hnd (by simp [keysA_nil])]
  rw [List.nil_append]
  apply List.map_congr_left
  intro p _
  simp [joinWith]

/-! ## Structure of every flat map -/

theorem mem_insertJs {fs : List (String × JVal)} {k : String} {v : JVal} :
    ∀ p ∈ insertJs fs k v, p ∈ fs ∨ p = (k, v) := by
  induction fs with
  | nil => simp only [insertJs_nil]; exact fun p h => Or.inr (List.mem_singleton.mp h ▸ rfl)
  | cons q rest ih =>
    obtain ⟨k', v'⟩ := q
    intro p hp
    by_cases hk : k' = k
    · rw [insertJs_cons, if_pos hk] at hp
      rcases List.mem_cons.mp hp with rfl | hp
      · exact Or.inr (by rw [hk])
      · exact Or.inl (List.mem_cons_of_mem _ hp)
    · rw [insertJs_cons, if_neg hk] at hp
      rcases List.mem_cons.mp hp with rfl | hp
      · exact Or.inl (by simp)
      · rcases ih p hp with h | h
        · exact Or.inl (List.mem_cons_of_mem _ h)
        · exact Or.inr h

theorem mem_objAssign :
    ∀ (src acc : List (String × JVal)), ∀ p ∈ objAssign acc src,
      p ∈ acc ∨ p ∈ src
  | [], acc, p, hp => by rw [objAssign_nil] at hp; exact Or.inl hp
  | (k, v) :: rest, acc, p, hp => by
    rw [objAssign_cons] at hp
    rcases mem_objAssign rest (insertJs acc k v) p hp with h | h
    · rcases mem_insertJs p h with h' | h'
      · exact Or.inl h'
      · exact Or.inr (by simp [h'])
    · exact Or.inr (List.mem_cons_of_mem _ h)

theorem objAssign_nodup {src acc : List (String × JVal)}
    (h : (keysA acc).Nodup) : (keysA (objAssign acc src)).Nodup := by
  induction src generalizing acc with
  | nil => exact h
  | cons q rest ih =>
    obtain ⟨k, v⟩ := q
    rw [objAssign_cons]
    exact ih (nodup_keysA_insertJs k v h)

theorem flattenGo_nodup :
    ∀ (fs : List (String × JVal)) (pre : String) (res : List (String × JVal)),
      (keysA res).Nodup → (keysA (flattenGo fs pre res)).Nodup
  | [], _, _, h => by rwa [flattenGo_nil]
  | (k, v) :: rest, pre, res, h => by
    cases hvm : isMapping v with
    | true =>
      obtain ⟨sub, rfl⟩ : ∃ sub, v = .obj sub := by
        cases v <;> simp [isMapping] at hvm ⊢
      rw [flattenGo_cons_obj]
      exact flattenGo_nodup rest pre _ (objAssign_nodup h)
    | false =>
      rw [flattenGo_cons_leaf hvm]
      exact flattenGo_nodup rest pre _ (nodup_keysA_insertJs _ v h)

theorem flattenObject_nodup (v : JVal) : (keysA (flattenObject v "")).Nodup :=
  flattenGo_nodup (entriesJs v) "" [] (by simp [keysA_nil])

theorem flattenGo_no_mapping :
    ∀ (fs : List (String × JVal)) (pre : String) (res : List (String × JVal)),
      (∀ p ∈ res, isMapping p.2 = false) →
      ∀ p ∈ flattenGo fs pre res, isMapping p.2 = false
  | [], _, _, h, p, hp => by rw [flattenGo_nil] at hp; exact h p hp
  | (k, v) :: rest, pre, res, h, p, hp => by
    cases hvm : isMapping v with
    | true =>
      obtain ⟨sub, rfl⟩ : ∃ sub, v = .obj sub := by
        cases v <;> simp [isMapping] at hvm ⊢
      rw [flattenGo_cons_obj] at hp
      refine flattenGo_no_mapping rest pre _ ?_ p hp
      intro q hq
      rcases mem_objAssign _ _ q hq with h' | h'
      · exact h q h'
      · exact flattenGo_no_mapping sub _ [] (by simp) q h'
    | false =>
      rw [flattenGo_cons_leaf hvm] at hp
      refine flattenGo_no_mapping rest pre _ ?_ p hp
      intro q hq
      rcases mem_insertJs q hq with h' | h'
      · exact h q h'
      · rw [h']
        exact hvm

theorem flattenObject_no_mapping (v : JVal) :
    ∀ p ∈ flattenObject v "", isMapping p.2 = false :=
  flattenGo_no_mapping (entriesJs v) "" [] (by simp)

theorem strictEqParsed_refl {v : JVal} (hobj : isMapping v = false)
    (harr : ∀ xs, v ≠ JVal.arr xs) : strictEqParsed v v = true := by
  cases v
  case obj => simp [isMapping] at hobj
  case arr xs => exact absurd rfl (harr xs)
  all_goals simp [strictEqParsed]

theorem contains_iff_mem (l : List String) (k : String) :
    l.contains k = true ↔ k ∈ l := by
  rw [List.contains_iff_exists_mem_beq]
  constructor
  · rintro ⟨a, ha, hb⟩
    rw [eq_of_beq hb]
    exact ha
  · intro h
    exact ⟨k, h, by simp⟩

theorem detect_modified_shape {pf : List (String × JVal)} {ak : String} {av : JVal}
    {t : String × JVal × JVal}
    (h : (match lookupA pf ak with
          | none => none
          | some old => if strictEqParsed old av then none
              else some (ak, old, av)) = some t) :
    ∃ old, lookupA pf ak = some old ∧ strictEqParsed old av = false ∧
      t = (ak, old, av) := by
  rcases hl : lookupA pf ak with _ | old <;> rw [hl] at h
  · exact absurd h (by simp)
  · change (if strictEqParsed old av = true then none else some (ak, old, av))
      = some t at h
    by_cases hse : strictEqParsed old av = true
    · rw [if_pos hse] at h
      exact absurd h (by simp)
    · rw [if_neg hse] at h
      exact ⟨old, rfl, by simpa using hse, (Option.some_inj.mp h).symm⟩

/-! ## Claim C2: the flatten/unflatten round trip -/

/-- C2 (counterexample): the round-trip law `unflatten(flatten(d)) == d`
fails for a Document with no arrays at all, namely `{"a": {}}`: the
empty nested mapping produces no flat entry, so flattening loses the key
`"a"` and unflattening returns `{}`. -/
theorem c2_roundtrip_counterexample :
    arrayFree (JVal.obj [("a", JVal.obj [])]) = true ∧
    unflattenObject (flattenObject (JVal.obj [("a", JVal.obj [])]) "") =
      some (JVal.obj []) ∧
    JVal.obj ([] : List (String × JVal)) ≠ JVal.obj [("a", JVal.obj [])] := by
  refine ⟨by simp [arrayFree, arrayFreeFields], ?_, by simp⟩
  simp [flattenObject, flattenGo, entriesJs, objAssign, unflattenObject, unflatGo]

/-- C2 (amended): for every canonical Document `d` — a mapping whose
keys, at every level, are distinct, non-empty and dot-free, and whose
nested mappings are all non-empty (arrays remain atomic leaves, so no
condition is placed on their contents) — unflattening the flat map
produced by flattening `d` yields a structurally identical Document:
`unflatten(flatten(d)) = d`. -/
theorem c2_roundtrip_amended (d : JVal) (hc : canonDoc d = true) :
    unflattenObject (flattenObject d "") = some d := by
  obtain ⟨fields, rfl⟩ : ∃ fields, d = .obj fields := by
    cases d <;> simp [canonDoc] at hc ⊢
  rw [canonDoc, Bool.and_eq_true] at hc
  rw [flattenObject_canon fields hc.2 hc.1]
  show unflatGo ((flatSeg fields).map fun p => (joinDots p.1, p.2)) (.obj []) = _
  rw [unflatGo_eq_unflatSeg (flatSeg fields) (.obj [])
    (fun p hp => ⟨(flatSeg_props fields hc.2 p hp).1, flatSeg_dotfree hc.2 hp⟩)]
  rw [unflatSeg_flatSeg fields hc.2 hc.1 [] (by simp [keysA_nil])]
  simp

/-- C2 (witness): a concrete canonical document round-trips. -/
theorem c2_roundtrip_amended_witness :
    canonDoc (JVal.obj [("a", JVal.obj [("b", JVal.str "x")]), ("c", JVal.num 1)]) =
      true ∧
    unflattenObject (flattenObject
        (JVal.obj [("a", JVal.obj [("b", JVal.str "x")]), ("c", JVal.num 1)]) "") =
      some (JVal.obj [("a", JVal.obj [("b", JVal.str "x")]), ("c", JVal.num 1)]) :=
  ⟨by simp [canonDoc, canonFields, canonVal, goodKey, nodupB, keysA],
   c2_roundtrip_amended _
     (by simp [canonDoc, canonFields, canonVal, goodKey, nodupB, keysA])⟩

/-! ## Claim C8: idempotence of change detection -/

/-- C8 (counterexample): change detection on two structurally identical
copies of a document with an array-valued leaf is *not* empty: the two
array values come from distinct `JSON.parse` results, so strict equality
compares references and reports the path as modified. -/
theorem c8_idempotence_counterexample :
    (detectFileChanges (JVal.obj [("a", JVal.arr [JVal.num 1])])
        (JVal.obj [("a", JVal.arr [JVal.num 1])])).modifiedKeys =
      [("a", JVal.arr [JVal.num 1], JVal.arr [JVal.num 1])] ∧
    (detectFileChanges (JVal.obj [("a", JVal.arr [JVal.num 1])])
        (JVal.obj [("a", JVal.arr [JVal.num 1])])).hasChanges = true := by
  constructor <;>
    simp [detectFileChanges, flattenObject, flattenGo, entriesJs, insertJs,
      keysA, strictEqParsed, lookupA]

/-- C8 (amended): change detection of a document against a structurally
identical copy of itself yields an empty ChangeSet — no new, modified or
deleted entries and `hasChanges = false` — provided the document has no
array-valued leaf (`null` and every scalar leaf compare strictly equal
across the two parses; an array-valued leaf is always re-reported as
modified because two separately parsed arrays are never the same
reference). -/
theorem c8_idempotence_amended (d : JVal)
    (harr : ∀ p ∈ flattenObject d "", ∀ xs, p.2 ≠ JVal.arr xs) :
    detectFileChanges d d =
      { hasChanges := false, newKeys := [], modifiedKeys := [], deletedKeys := [] } := by
  have hnd := flattenObject_nodup d
  have hnomap := flattenObject_no_mapping d
  have hnk : (flattenObject d "").filter
      (fun p => ¬ (keysA (flattenObject d "")).contains p.1) = [] := by
    rw [List.filter_eq_nil_iff]
    intro p hp
    have hcont : (keysA (flattenObject d "")).contains p.1 = true := by
      rw [List.contains_iff_exists_mem_beq]
      exact ⟨p.1, List.mem_map.mpr ⟨p, hp, rfl⟩, by simp⟩
    simp [hcont]
    exact List.mem_map.mpr ⟨p, hp, rfl⟩
  have hmk : (flattenObject d "").filterMap
      (fun p => match lookupA (flattenObject d "") p.1 with
        | none => none
        | some old => if strictEqParsed old p.2 then none
            else some (p.1, old, p.2)) = [] := by
    rw [List.filterMap_eq_nil_iff]
    intro p hp
    rw [lookupA_of_mem (by exact hp) hnd]
    show (if strictEqParsed p.2 p.2 = true then none else some (p.1, p.2, p.2)) = none
    rw [if_pos (strictEqParsed_refl (hnomap p hp) (harr p hp))]
  have hdk : (keysA (flattenObject d "")).filter
      (fun k => ¬ (keysA (flattenObject d "")).contains k) = [] := by
    rw [List.filter_eq_nil_iff]
    intro k hk
    have hcont : (keysA (flattenObject d "")).contains k = true := by
      rw [List.contains_iff_exists_mem_beq]
      exact ⟨k, hk, by simp⟩
    simp [hcont]
    exact hk
  simp only [detectFileChanges]
  rw [hnk, hmk, hdk]
  simp

/-- C8 (witness): a document with `null` and scalar leaves detects no
changes against itself. -/
theorem c8_idempotence_amended_witness :
    (∀ p ∈ flattenObject (JVal.obj [("a", JVal.null), ("b", JVal.str "x")]) "",
      ∀ xs, p.2 ≠ JVal.arr xs) ∧
    detectFileChanges (JVal.obj [("a", JVal.null), ("b", JVal.str "x")])
        (JVal.obj [("a", JVal.null), ("b", JVal.str "x")]) =
      { hasChanges := false, newKeys := [], modifiedKeys := [], deletedKeys := [] } :=
  ⟨by simp [flattenObject, flattenGo, entriesJs, insertJs],
   c8_idempotence_amended _ (by simp [flattenObject, flattenGo, entriesJs, insertJs])⟩

end TranslatePlatform

namespace TranslatePlatform

/-! ## Claim C6: classification of change detection -/

/-- C6: on any pair of documents, change detection over their flat maps
classifies each path of the current flat map as new exactly when it is
absent from the previous flat map (and then it is not reported
modified); as modified, carrying the old and the new value, exactly when
it is present with a strictly different value — a type change such as
number to string is strictly different; and as untouched (no entry in
either list) when present with a strictly equal value; and it classifies
as deleted exactly the paths present only in the previous flat map. -/
theorem c6_change_classification (prev cur : JVal) :
    (∀ k v, (k, v) ∈ flattenObject cur "" →
      ((lookupA (flattenObject prev "") k = none →
          (k, v) ∈ (detectFileChanges prev cur).newKeys ∧
          ∀ o n, (k, o, n) ∉ (detectFileChanges prev cur).modifiedKeys) ∧
       (∀ old, lookupA (flattenObject prev "") k = some old →
          strictEqParsed old v = false →
          (k, old, v) ∈ (detectFileChanges prev cur).modifiedKeys ∧
          (k, v) ∉ (detectFileChanges prev cur).newKeys) ∧
       (∀ old, lookupA (flattenObject prev "") k = some old →
          strictEqParsed old v = true →
          (k, v) ∉ (detectFileChanges prev cur).newKeys ∧
          ∀ o n, (k, o, n) ∉ (detectFileChanges prev cur).modifiedKeys))) ∧
    (∀ i s, strictEqParsed (JVal.num i) (JVal.str s) = false) ∧
    (∀ k, k ∈ (detectFileChanges prev cur).deletedKeys ↔
      k ∈ keysA (flattenObject prev "") ∧ k ∉ keysA (flattenObject cur "")) := by
  have hndcur := flattenObject_nodup cur
  refine ⟨?_, fun i s => rfl, ?_⟩
  · intro k v hkv
    refine ⟨?_, ?_, ?_⟩
    · intro hnone
      have hknotin : k ∉ keysA (flattenObject prev "") :=
        (lookupA_eq_none _ k).mp hnone
      constructor
      · show (k, v) ∈ (flattenObject cur "").filter _
        rw [List.mem_filter]
        refine ⟨hkv, ?_⟩
        simp only [decide_eq_true_eq]
        intro hcont
        exact hknotin ((contains_iff_mem _ k).mp hcont)
      · intro o n hmem
        have hmem' : (k, o, n) ∈ (flattenObject cur "").filterMap
            (fun p => match lookupA (flattenObject prev "") p.1 with
              | none => none
              | some old => if strictEqParsed old p.2 then none
                  else some (p.1, old, p.2)) := hmem
        rcases List.mem_filterMap.mp hmem' with ⟨⟨ak, av⟩, _, ha⟩
        obtain ⟨old, hl, _, ht⟩ := detect_modified_shape ha
        rw [Prod.mk.injEq] at ht
        have hak : k = ak := ht.1
        rw [← hak, hnone] at hl
        exact absurd hl (by simp)
    · intro old hsome hne
      constructor
      · show (k, old, v) ∈ (flattenObject cur "").filterMap _
        refine List.mem_filterMap.mpr ⟨(k, v), hkv, ?_⟩
        show (match lookupA (flattenObject prev "") k with
            | none => none
            | some o => if strictEqParsed o v then none
                else some (k, o, v)) = _
        rw [hsome]
        change (if strictEqParsed old v = true then none else some (k, old, v)) = _
        rw [if_neg (by simp [hne])]
      · intro hmem
        have hmem' : (k, v) ∈ (flattenObject cur "").filter
            (fun p => ¬ (keysA (flattenObject prev "")).contains p.1) := hmem
        rw [List.mem_filter] at hmem'
        have hcont : (keysA (flattenObject prev "")).contains k = true :=
          (contains_iff_mem _ k).mpr (by
            rw [← lookupA_isSome]
            simp [hsome])
        have := hmem'.2
        simp only [decide_eq_true_eq] at this
        exact this hcont
    · intro old hsome heq
      constructor
      · intro hmem
        have hmem' : (k, v) ∈ (flattenObject cur "").filter
            (fun p => ¬ (keysA (flattenObject prev "")).contains p.1) := hmem
        rw [List.mem_filter] at hmem'
        have hcont : (keysA (flattenObject prev "")).contains k = true :=
          (contains_iff_mem _ k).mpr (by
            rw [← lookupA_isSome]
            simp [hsome])
        have := hmem'.2
        simp only [decide_eq_true_eq] at this
        exact this hcont
      · intro o n hmem
        have hmem' : (k, o, n) ∈ (flattenObject cur "").filterMap
            (fun p => match lookupA (flattenObject prev "") p.1 with
              | none => none
              | some old => if strictEqParsed old p.2 then none
                  else some (p.1, old, p.2)) := hmem
        rcases List.mem_filterMap.mp hmem' with ⟨⟨ak, av⟩, hamem, ha⟩
        obtain ⟨old', hl, hne', ht⟩ := detect_modified_shape ha
        rw [Prod.mk.injEq] at ht
        have hak : k = ak := ht.1
        have h2 : lookupA (flattenObject cur "") k = some v :=
          lookupA_of_mem hkv hndcur
        have h1 : lookupA (flattenObject cur "") ak = some av :=
          lookupA_of_mem hamem hndcur
        rw [← hak] at h1 hl
        rw [h2] at h1
        have hav : av = v := Option.some_inj.mp h1.symm
        rw [hsome] at hl
        have holdeq : old' = old := Option.some_inj.mp hl.symm
        rw [holdeq, hav] at hne'
        rw [heq] at hne'
        exact absurd hne' (by simp)
  · intro k
    show k ∈ (keysA (flattenObject prev "")).filter _ ↔ _
    rw [List.mem_filter]
    constructor
    · rintro ⟨h1, h2⟩
      refine ⟨h1, fun hmem => ?_⟩
      have hcont := (contains_iff_mem (keysA (flattenObject cur "")) k).mpr hmem
      simp only [decide_eq_true_eq] at h2
      exact h2 hcont
    · rintro ⟨h1, h2⟩
      refine ⟨h1, ?_⟩
      simp only [decide_eq_true_eq]
      intro hcont
      exact h2 ((contains_iff_mem _ k).mp hcont)

/-- C6 (witness): on `previous = {"a": 1, "b": "y", "c": "z"}` and
`current = {"a": "1", "b": "y", "d": "w"}`, the number-to-string change
at `"a"` is modified, `"d"` is new and `"c"` is deleted. -/
theorem c6_change_classification_witness :
    ("a", JVal.num 1, JVal.str "1") ∈
      (detectFileChanges
        (JVal.obj [("a", JVal.num 1), ("b", JVal.str "y"), ("c", JVal.str "z")])
        (JVal.obj [("a", JVal.str "1"), ("b", JVal.str "y"), ("d", JVal.str "w")])).modifiedKeys ∧
    ("d", JVal.str "w") ∈
      (detectFileChanges
        (JVal.obj [("a", JVal.num 1), ("b", JVal.str "y"), ("c", JVal.str "z")])
        (JVal.obj [("a", JVal.str "1"), ("b", JVal.str "y"), ("d", JVal.str "w")])).newKeys ∧
    "c" ∈
      (detectFileChanges
        (JVal.obj [("a", JVal.num 1), ("b", JVal.str "y"), ("c", JVal.str "z")])
        (JVal.obj [("a", JVal.str "1"), ("b", JVal.str "y"), ("d", JVal.str "w")])).deletedKeys := by
  have h := c6_change_classification
    (JVal.obj [("a", JVal.num 1), ("b", JVal.str "y"), ("c", JVal.str "z")])
    (JVal.obj [("a", JVal.str "1"), ("b", JVal.str "y"), ("d", JVal.str "w")])
  refine ⟨?_, ?_, ?_⟩
  · exact ((h.1 "a" (JVal.str "1")
      (by simp [flattenObject, flattenGo, entriesJs, insertJs])).2.1 (JVal.num 1)
      (by simp [flattenObject, flattenGo, entriesJs, insertJs, lookupA])
      (by simp [strictEqParsed])).1
  · exact ((h.1 "d" (JVal.str "w")
      (by simp [flattenObject, flattenGo, entriesJs, insertJs])).1
      (by simp [flattenObject, flattenGo, entriesJs, insertJs, lookupA])).1
  · exact (h.2.2 "c").mpr
      (by simp [flattenObject, flattenGo, entriesJs, insertJs, keysA])

end TranslatePlatform

namespace TranslatePlatform

/-! ## Claim C3: the deep-merge rule -/

theorem wfDoc_obj {fields : List (String × JVal)} (h : wfDoc (.obj fields) = true) :
    (keysA fields).Nodup ∧ ∀ p ∈ fields, wfDoc p.2 = true := by
  rw [wfDoc, Bool.and_eq_true] at h
  refine ⟨(nodupB_iff _).mp h.1, ?_⟩
  have h2 := h.2
  clear h
  induction fields with
  | nil => simp
  | cons q rest ih =>
    obtain ⟨k, v⟩ := q
    rw [wfFields, Bool.and_eq_true] at h2
    intro p hp
    rcases List.mem_cons.mp hp with rfl | hp
    · exact h2.1
    · exact ih h2.2 p hp

theorem spreadToObj_obj {tf : List (String × JVal)} (hnd : (keysA tf).Nodup) :
    spreadToObj (.obj tf) = tf := by
  show objAssign [] tf = tf
  rw [objAssign_append (by simp [keysA_nil]) hnd]
  simp

theorem deepMerge_obj (t : JVal) (sf : List (String × JVal)) :
    deepMerge t (.obj sf) = .obj (deepMergeFields (spreadToObj t) sf) := by
  simp [deepMerge]

theorem deepMergeFields_nil (res : List (String × JVal)) :
    deepMergeFields res [] = res := by simp [deepMergeFields]

theorem deepMergeFields_cons_obj (res : List (String × JVal)) (k : String)
    (sub rest : List (String × JVal)) :
    deepMergeFields res ((k, .obj sub) :: rest) =
      deepMergeFields
        (match lookupA res k with
         | some rv =>
           if isObjTypeof rv then insertJs res k (deepMerge rv (.obj sub))
           else insertJs res k (.obj sub)
         | none => insertJs res k (.obj sub)) rest := by
  simp [deepMergeFields]

theorem deepMergeFields_cons_leaf {v : JVal} (h : isMapping v = false)
    (res : List (String × JVal)) (k : String) (rest : List (String × JVal)) :
    deepMergeFields res ((k, v) :: rest) =
      deepMergeFields (insertJs res k v) rest := by
  cases v
  case obj => simp [isMapping] at h
  all_goals simp [deepMergeFields]

/-- The per-key content of the deep-merge loop: on distinct source keys,
each key of the result is the source value — merged recursively into the
current value when the source value is a mapping and the current value
is object-typed — and otherwise the untouched current value. -/
theorem deepMergeFields_lookup :
    ∀ (sf res : List (String × JVal)), (keysA sf).Nodup →
      ∀ k, lookupA (deepMergeFields res sf) k =
        match lookupA sf k with
        | none => lookupA res k
        | some v =>
          match v with
          | .obj sub =>
            some (match lookupA res k with
              | some rv => if isObjTypeof rv then deepMerge rv (.obj sub) else .obj sub
              | none => .obj sub)
          | _ => some v
  | [], res, _, k => by rw [deepMergeFields_nil, lookupA_nil]
  | (k₀, v₀) :: rest, res, hnd, k => by
    rw [keysA_cons, List.nodup_cons] at hnd
    by_cases hk : k₀ = k
    · subst hk
      have hrest : lookupA rest k₀ = none :=
        (lookupA_eq_none rest k₀).mpr hnd.1
      rw [lookupA_cons, if_pos rfl]
      cases hvm : isMapping v₀ with
      | true =>
        obtain ⟨sub, rfl⟩ : ∃ sub, v₀ = .obj sub := by
          cases v₀ <;> simp [isMapping] at hvm ⊢
        rw [deepMergeFields_cons_obj]
        rw [deepMergeFields_lookup rest _ hnd.2 k₀, hrest]
        rcases hres : lookupA res k₀ with _ | rv
        · simp [lookupA_insertJs_self]
        · by_cases hot : isObjTypeof rv = true <;>
            simp [hot, lookupA_insertJs_self]
      | false =>
        rw [deepMergeFields_cons_leaf hvm]
        rw [deepMergeFields_lookup rest _ hnd.2 k₀, hrest, lookupA_insertJs_self]
        cases v₀ <;> first | rfl | simp [isMapping] at hvm
    · have hne : k ≠ k₀ := fun hh => hk hh.symm
      rw [lookupA_cons, if_neg hk]
      cases hvm : isMapping v₀ with
      | true =>
        obtain ⟨sub, rfl⟩ : ∃ sub, v₀ = .obj sub := by
          cases v₀ <;> simp [isMapping] at hvm ⊢
        rw [deepMergeFields_cons_obj]
        rw [deepMergeFields_lookup rest _ hnd.2 k]
        rcases hres : lookupA res k₀ with _ | rv
        · simp [lookupA_insertJs_ne _ _ hne]
        · by_cases hot : isObjTypeof rv = true <;>
            simp [hot, lookupA_insertJs_ne _ _ hne]
      | false =>
        rw [deepMergeFields_cons_leaf hvm]
        rw [deepMergeFields_lookup rest _ hnd.2 k]
        rw [lookupA_insertJs_ne _ _ hne]

theorem untouched_lookupPath_none :
    ∀ (P : List String) (s : JVal), untouchedIn s P = true → lookupPath s P = none := by
  intro P
  induction P with
  | nil => intro s h; simp [untouchedIn] at h
  | cons k ks ih =>
    intro s h
    cases s
    case obj sf =>
      rw [untouchedIn] at h
      rcases hl : lookupA sf k with _ | v
      · rw [lookupPath, hl]
      · rw [hl] at h
        rw [lookupPath, hl]
        match v, ks, h with
        | .obj sub, k' :: ks', h => exact ih (.obj sub) h
        | .str _, _, h => exact absurd h (by simp)
        | .num _, _, h => exact absurd h (by simp)
        | .bool _, _, h => exact absurd h (by simp)
        | .null, _, h => exact absurd h (by simp)
        | .arr _, _, h => exact absurd h (by simp)
        | .obj _, [], h => exact absurd h (by simp)
    all_goals rfl

theorem noArrClashFields_cons_obj (tf : List (String × JVal)) (k : String)
    (sub rest : List (String × JVal)) :
    noArrClashFields tf ((k, .obj sub) :: rest) =
      ((match lookupA tf k with
        | some (.arr _) => false
        | some (.obj tsub) => noArrClash (.obj tsub) (.obj sub)
        | _ => true) && noArrClashFields tf rest) := by
  simp [noArrClashFields]

theorem noArrClashFields_tail {tf : List (String × JVal)} {k : String} {v : JVal}
    {rest : List (String × JVal)}
    (h : noArrClashFields tf ((k, v) :: rest) = true) :
    noArrClashFields tf rest = true := by
  cases v <;> simp only [noArrClashFields, Bool.and_eq_true, Bool.true_and] at h <;>
    first | exact h | exact h.2

theorem noArrClashFields_spec {tf : List (String × JVal)} :
    ∀ {sf : List (String × JVal)}, noArrClashFields tf sf = true →
      ∀ (pk : String) (pv : JVal), (pk, pv) ∈ sf → ∀ sub, pv = JVal.obj sub →
        (∀ xs, lookupA tf pk ≠ some (JVal.arr xs)) ∧
        (∀ tsub, lookupA tf pk = some (JVal.obj tsub) →
          noArrClash (.obj tsub) (.obj sub) = true) := by
  intro sf
  induction sf with
  | nil => intro _ pk pv hp; simp at hp
  | cons q rest ih =>
    obtain ⟨k₀, v₀⟩ := q
    intro h pk pv hp sub hsub
    subst hsub
    rcases List.mem_cons.mp hp with heq | hp
    · rw [Prod.mk.injEq] at heq
      obtain ⟨heq1, heq2⟩ := heq
      subst heq1
      subst heq2
      rw [noArrClashFields_cons_obj, Bool.and_eq_true] at h
      constructor
      · intro xs hl
        have := h.1
        rw [hl] at this
        simp at this
      · intro tsub hl
        have := h.1
        rw [hl] at this
        exact this
    · exact ih (noArrClashFields_tail h) pk _ hp sub rfl

theorem lookupPath_obj_cons (fields : List (String × JVal)) (k : String)
    (rest : List String) :
    lookupPath (.obj fields) (k :: rest) =
      match lookupA fields k with
      | some c => lookupPath c rest
      | none => none := rfl

/-- Preservation of untouched paths: a path the source does not address
reads the same in `deepMerge t s` as in `t`, provided no mapping of the
source meets an array of the target. -/
theorem deepMerge_untouched :
    ∀ (P : List String) (t s : JVal), isMapping t = true → isMapping s = true →
      wfDoc t = true → wfDoc s = true →
      untouchedIn s P = true → noArrClash t s = true →
      lookupPath (deepMerge t s) P = lookupPath t P := by
  intro P
  induction P with
  | nil => intro t s _ _ _ _ hu _; simp [untouchedIn] at hu
  | cons k ks ih =>
    intro t s ht hs hwt hws hu hcl
    obtain ⟨tf, rfl⟩ : ∃ tf, t = .obj tf := by
      cases t <;> simp [isMapping] at ht ⊢
    obtain ⟨sf, rfl⟩ : ∃ sf, s = .obj sf := by
      cases s <;> simp [isMapping] at hs ⊢
    obtain ⟨hndt, hwft⟩ := wfDoc_obj hwt
    obtain ⟨hnds, hwfs⟩ := wfDoc_obj hws
    have hmain : lookupPath (deepMerge (.obj tf) (.obj sf)) (k :: ks) =
        match lookupA (deepMergeFields tf sf) k with
        | some c => lookupPath c ks
        | none => none := by
      rw [deepMerge_obj, spreadToObj_obj hndt]
      rfl
    rw [hmain, deepMergeFields_lookup sf tf hnds k]
    rw [untouchedIn] at hu
    rcases hls : lookupA sf k with _ | v
    · rfl
    · rw [hls] at hu
      match v, ks, hu with
      | .obj sub, k' :: ks', hu =>
        have hclk := noArrClashFields_spec (by
          rw [noArrClash] at hcl
          exact hcl) k (JVal.obj sub) (mem_of_lookupA hls) sub rfl
        show lookupPath (match lookupA tf k with
            | some rv => if isObjTypeof rv then deepMerge rv (.obj sub) else .obj sub
            | none => .obj sub) (k' :: ks') = _
        rcases hlt : lookupA tf k with _ | rv
        · rw [untouched_lookupPath_none (k' :: ks') (.obj sub) hu, lookupPath_obj_cons, hlt]
        · cases rv with
          | obj tsub =>
            show lookupPath (deepMerge (JVal.obj tsub) (JVal.obj sub)) (k' :: ks') = _
            rw [ih (.obj tsub) (.obj sub) rfl rfl
              (hwft (k, .obj tsub) (mem_of_lookupA hlt))
              (hwfs (k, .obj sub) (mem_of_lookupA hls))
              hu (hclk.2 tsub hlt)]
            conv_rhs => rw [lookupPath_obj_cons, hlt]
          | arr xs => exact absurd hlt (hclk.1 xs)
          | str a =>
            show lookupPath (JVal.obj sub) (k' :: ks') = _
            rw [untouched_lookupPath_none (k' :: ks') (.obj sub) hu, lookupPath_obj_cons, hlt]
            rfl
          | num a =>
            show lookupPath (JVal.obj sub) (k' :: ks') = _
            rw [untouched_lookupPath_none (k' :: ks') (.obj sub) hu, lookupPath_obj_cons, hlt]
            rfl
          | bool a =>
            show lookupPath (JVal.obj sub) (k' :: ks') = _
            rw [untouched_lookupPath_none (k' :: ks') (.obj sub) hu, lookupPath_obj_cons, hlt]
            rfl
          | null =>
            show lookupPath (JVal.obj sub) (k' :: ks') = _
            rw [untouched_lookupPath_none (k' :: ks') (.obj sub) hu, lookupPath_obj_cons, hlt]
            rfl

end TranslatePlatform

namespace TranslatePlatform

/-- C3 (counterexample): the claimed rule "recurse only when both values
are nested mappings, otherwise the new value overwrites" fails when the
existing value is an *array* and the new value is a mapping: instead of
overwriting, `deepMerge` recurses into the array (its
`typeof === 'object' && !== null` test admits arrays), spreading it into
an index-keyed mapping.  Existing `{"k": ["x"]}` merged with new
`{"k": {"a": "y"}}` yields `{"k": {"0": "x", "a": "y"}}`, not
`{"k": {"a": "y"}}`. -/
theorem c3_merge_rule_counterexample :
    deepMerge (JVal.obj [("k", JVal.arr [JVal.str "x"])])
        (JVal.obj [("k", JVal.obj [("a", JVal.str "y")])]) =
      JVal.obj [("k", JVal.obj [("0", JVal.str "x"), ("a", JVal.str "y")])] ∧
    JVal.obj [("0", JVal.str "x"), ("a", JVal.str "y")] ≠
      JVal.obj [("a", JVal.str "y")] := by
  constructor
  · simp [deepMerge, deepMergeFields, deepMergeElems, spreadToObj, entriesJs,
      objAssign, insertJs, lookupA, isObjTypeof, List.enum, List.enumFrom,
      show toString (0 : Nat) = "0" from rfl]
  · simp

/-- C3 (amended): the merge combines the existing and the newly
translated document key by key: each key of the new document is merged
recursively when its new value is a nested mapping *and* the existing
value at that key is object-typed and non-null — a nested mapping or an
array, an array being first spread into an index-keyed mapping — and in
every other case the new value overwrites; keys absent from the new
document keep their existing value.  Consequently every path untouched
by the new document reads the same in the merged document as in the
existing one, provided no nested mapping of the new document meets an
array of the existing one. -/
theorem c3_merge_rule_amended :
    (∀ (tf sf : List (String × JVal)), (keysA tf).Nodup → (keysA sf).Nodup →
      ∀ k, jsGet (deepMerge (.obj tf) (.obj sf)) k =
        match lookupA sf k with
        | none => lookupA tf k
        | some v =>
          match v with
          | .obj sub =>
            some (match lookupA tf k with
              | some rv =>
                if isObjTypeof rv then deepMerge rv (.obj sub) else .obj sub
              | none => .obj sub)
          | _ => some v) ∧
    (∀ (t s : JVal) (P : List String), isMapping t = true → isMapping s = true →
      wfDoc t = true → wfDoc s = true → untouchedIn s P = true →
      noArrClash t s = true →
      lookupPath (deepMerge t s) P = lookupPath t P) := by
  constructor
  · intro tf sf hndt hnds k
    rw [deepMerge_obj, spreadToObj_obj hndt]
    show lookupA (deepMergeFields tf sf) k = _
    rw [deepMergeFields_lookup sf tf hnds k]
  · intro t s P ht hs hwt hws hu hcl
    exact deepMerge_untouched P t s ht hs hwt hws hu hcl

/-- C3 (witness): on existing `{"a": "x", "keep": "v"}` and new
`{"a": "y"}`, the merged value at `"a"` is the new `"y"` and the
untouched path `"keep"` still reads `"v"`. -/
theorem c3_merge_rule_amended_witness :
    jsGet (deepMerge (JVal.obj [("a", JVal.str "x"), ("keep", JVal.str "v")])
        (JVal.obj [("a", JVal.str "y")])) "a" = some (JVal.str "y") ∧
    lookupPath (deepMerge (JVal.obj [("a", JVal.str "x"), ("keep", JVal.str "v")])
        (JVal.obj [("a", JVal.str "y")])) ["keep"] =
      lookupPath (JVal.obj [("a", JVal.str "x"), ("keep", JVal.str "v")]) ["keep"] := by
  constructor
  · have h := c3_merge_rule_amended.1 [("a", JVal.str "x"), ("keep", JVal.str "v")]
      [("a", JVal.str "y")] (by simp [keysA]) (by simp [keysA]) "a"
    rw [h]
    simp [lookupA]
  · exact c3_merge_rule_amended.2
      (JVal.obj [("a", JVal.str "x"), ("keep", JVal.str "v")])
      (JVal.obj [("a", JVal.str "y")]) ["keep"] rfl rfl
      (by simp [wfDoc, wfFields, nodupB, keysA])
      (by simp [wfDoc, wfFields, nodupB, keysA])
      (by simp [untouchedIn, lookupA])
      (by simp [noArrClash, noArrClashFields, lookupA])

end TranslatePlatform

namespace TranslatePlatform

/-! ## Claim C7: merging an empty delta -/

theorem merge_empty_go :
    ∀ (langs : List String) (existing : JVal) (ch : Changes),
      ch.modifiedFiles = [] →
      (∀ l ∈ langs, truthyO (jsGet existing l) = true) →
      langs.foldlM (mergeLangStep (.obj []) ch) existing = some existing
  | [], _, _, _, _ => rfl
  | lang :: rest, existing, ch, hmf, htr => by
    have htr1 := htr lang (by simp)
    obtain ⟨fields, rfl⟩ : ∃ fields, existing = .obj fields := by
      cases existing <;> simp [jsGet, truthyO] at htr1 ⊢
    have he : ensureLang (JVal.obj fields) lang = some (JVal.obj fields) := by
      rw [ensureLang]
      show (some (lookupA fields lang)).bind _ = _
      rw [Option.some_bind]
      rw [show truthyO (lookupA fields lang) = true from htr1]
      rw [if_pos rfl]
    have hi : installLang (.obj []) (JVal.obj fields) lang =
        some (JVal.obj fields) := by
      rw [installLang]
      show (some (none : Option JVal)).bind _ = _
      rw [Option.some_bind]
    have hbody : mergeLangStep (.obj []) ch (JVal.obj fields) lang =
        some (JVal.obj fields) := by
      rw [mergeLangStep, he]
      show (some (JVal.obj fields) : Option JVal).bind _ = _
      rw [Option.some_bind, hi]
      show (some (JVal.obj fields) : Option JVal).bind _ = _
      rw [Option.some_bind, hmf]
      rfl
    simp only [List.foldlM_cons]
    rw [hbody]
    exact merge_empty_go rest (JVal.obj fields) ch hmf
      (fun l hl => htr l (List.mem_cons_of_mem _ hl))


/-- C7 (counterexample): merging an empty delta into an
`existingTranslations` that does not yet carry every target language is
*not* structurally identical to it: the merge loop installs an empty
mapping for every missing (or falsy) target-language key.  From the
empty tree `{}` it returns a tree with all eleven language keys. -/
theorem c7_empty_merge_counterexample :
    mergeTranslations (JVal.obj []) (JVal.obj [])
        { hasChanges := false, newFiles := [], modifiedFiles := [],
          newKeys := [], modifiedKeys := [], deletedKeys := [] } =
      some (JVal.obj [("de", JVal.obj []), ("es", JVal.obj []),
        ("fr", JVal.obj []), ("fr-ca", JVal.obj []), ("ja", JVal.obj []),
        ("ko", JVal.obj []), ("nl", JVal.obj []), ("pt", JVal.obj []),
        ("zh-cn", JVal.obj []), ("zh-hk", JVal.obj []), ("it", JVal.obj [])]) ∧
    JVal.obj [("de", JVal.obj []), ("es", JVal.obj []),
        ("fr", JVal.obj []), ("fr-ca", JVal.obj []), ("ja", JVal.obj []),
        ("ko", JVal.obj []), ("nl", JVal.obj []), ("pt", JVal.obj []),
        ("zh-cn", JVal.obj []), ("zh-hk", JVal.obj []), ("it", JVal.obj [])] ≠
      JVal.obj [] := by
  constructor
  · decide
  · decide

/-- C7 (amended): merging an empty delta (`newlyTranslated = {}`, no
modified files in the change set) returns `existingTranslations`
structurally unchanged provided the existing tree already carries a
truthy entry for every target language (as the loader always produces);
absent or falsy target-language entries are the one exception, being
replaced by empty mappings. -/
theorem c7_empty_merge_amended (existing : JVal) (ch : Changes)
    (hmf : ch.modifiedFiles = [])
    (htr : ∀ l ∈ targetLanguages, truthyO (jsGet existing l) = true) :
    mergeTranslations existing (.obj []) ch = some existing :=
  merge_empty_go targetLanguages existing ch hmf htr

/-- C7 (witness): an existing tree carrying all eleven languages is
returned unchanged. -/
theorem c7_empty_merge_amended_witness :
    (∀ l ∈ targetLanguages, truthyO (jsGet (JVal.obj [("de", JVal.obj []),
      ("es", JVal.obj []), ("fr", JVal.obj []), ("fr-ca", JVal.obj []),
      ("ja", JVal.obj []), ("ko", JVal.obj []), ("nl", JVal.obj []),
      ("pt", JVal.obj []), ("zh-cn", JVal.obj []), ("zh-hk", JVal.obj []),
      ("it", JVal.obj [])]) l) = true) ∧
    mergeTranslations (JVal.obj [("de", JVal.obj []), ("es", JVal.obj []),
        ("fr", JVal.obj []), ("fr-ca", JVal.obj []), ("ja", JVal.obj []),
        ("ko", JVal.obj []), ("nl", JVal.obj []), ("pt", JVal.obj []),
        ("zh-cn", JVal.obj []), ("zh-hk", JVal.obj []), ("it", JVal.obj [])])
      (.obj [])
        { hasChanges := false, newFiles := [], modifiedFiles := [],
          newKeys := [], modifiedKeys := [], deletedKeys := [] } =
      some (JVal.obj [("de", JVal.obj []), ("es", JVal.obj []),
        ("fr", JVal.obj []), ("fr-ca", JVal.obj []), ("ja", JVal.obj []),
        ("ko", JVal.obj []), ("nl", JVal.obj []), ("pt", JVal.obj []),
        ("zh-cn", JVal.obj []), ("zh-hk", JVal.obj []), ("it", JVal.obj [])]) :=
  ⟨by decide, c7_empty_merge_amended _ _ rfl (by decide)⟩

end TranslatePlatform

namespace TranslatePlatform

theorem setInContent_shape {acc : List (String × JVal)} {fn key : String}
    {v : JVal} {acc' : List (String × JVal)}
    (h : setInContent acc fn key v = some acc') :
    keysA acc' = keysA acc ∧ ∀ g, g ≠ fn → lookupA acc' g = lookupA acc g := by
  rw [setInContent] at h
  rcases hl : lookupA acc fn with _ | doc
  · rw [hl] at h
    exact absurd h (by simp)
  · rw [hl] at h
    replace h : (setNestedValue doc key v).map (insertJs acc fn) = some acc' := h
    rcases hs : setNestedValue doc key v with _ | doc'
    · rw [hs] at h
      exact absurd h (by simp)
    · rw [hs] at h
      rw [Option.map_some'] at h
      have hacc' : acc' = insertJs acc fn doc' := (Option.some_inj.mp h).symm
      subst hacc'
      have hfn : fn ∈ keysA acc := by
        rw [← lookupA_isSome]
        simp [hl]
      exact ⟨keysA_insertJs_mem doc' hfn,
        fun g hg => lookupA_insertJs_ne acc doc' fun hh => hg hh⟩

theorem setInContent_fold_shape {fn : String} :
    ∀ (ks : List (String × JVal)) (acc acc' : List (String × JVal)),
      ks.foldlM (fun a p => setInContent a fn p.1 p.2) acc = some acc' →
      keysA acc' = keysA acc ∧ ∀ g, g ≠ fn → lookupA acc' g = lookupA acc g
  | [], acc, acc', h => by
    rw [List.foldlM_nil] at h
    rw [← Option.some_inj.mp h]
    exact ⟨rfl, fun _ _ => rfl⟩
  | p :: rest, acc, acc', h => by
    rw [List.foldlM_cons] at h
    rcases hs : setInContent acc fn p.1 p.2 with _ | acc₁
    · rw [hs] at h
      simp at h
    · rw [hs] at h
      replace h : rest.foldlM (fun a p => setInContent a fn p.1 p.2) acc₁ = some acc' := h
      obtain ⟨h1, h2⟩ := setInContent_shape hs
      obtain ⟨h3, h4⟩ := setInContent_fold_shape rest acc₁ acc' h
      exact ⟨h3.trans h1, fun g hg => (h4 g hg).trans (h2 g hg)⟩

theorem setInContent_fold_shape2 {fn : String} {ks2 : List (String × JVal × JVal)} :
    ∀ (acc acc' : List (String × JVal)),
      ks2.foldlM (fun a q => setInContent a fn q.1 q.2.2) acc = some acc' →
      keysA acc' = keysA acc ∧ ∀ g, g ≠ fn → lookupA acc' g = lookupA acc g := by
  induction ks2 with
  | nil =>
    intro acc acc' h
    rw [List.foldlM_nil] at h
    rw [← Option.some_inj.mp h]
    exact ⟨rfl, fun _ _ => rfl⟩
  | cons q rest ih =>
    intro acc acc' h
    rw [List.foldlM_cons] at h
    rcases hs : setInContent acc fn q.1 q.2.2 with _ | acc₁
    · rw [hs] at h
      simp at h
    · rw [hs] at h
      replace h : rest.foldlM (fun a q => setInContent a fn q.1 q.2.2) acc₁ = some acc' := h
      obtain ⟨h1, h2⟩ := setInContent_shape hs
      obtain ⟨h3, h4⟩ := ih acc₁ acc' h
      exact ⟨h3.trans h1, fun g hg => (h4 g hg).trans (h2 g hg)⟩


theorem keysA_single (k : String) (v : JVal) : keysA [(k, v)] = [k] := rfl

theorem deltaStep_fresh (nkm : List (String × List (String × JVal)))
    (mkm : List (String × List (String × JVal × JVal)))
    (acc : List (String × JVal)) (fn : String) (hf : fn ∉ keysA acc) :
    deltaStep nkm mkm acc fn = none ∨
    ∃ acc₃, deltaStep nkm mkm acc fn = some acc₃ ∧
      keysA acc₃ = keysA acc ++ [fn] ∧
      (∀ g, g ≠ fn → lookupA acc₃ g = lookupA acc g) ∧
      (lookupA nkm fn = some [] → lookupA mkm fn = some [] →
        lookupA acc₃ fn = some (.obj [])) := by
  have hl : lookupA acc fn = none := (lookupA_eq_none acc fn).mpr hf
  have hkeys₁ : keysA (insertJs acc fn (.obj [])) = keysA acc ++ [fn] := by
    rw [insertJs_of_not_mem _ hf, keysA_append, keysA_single]
  have hlookup₁ : ∀ g, g ≠ fn →
      lookupA (insertJs acc fn (.obj [])) g = lookupA acc g :=
    fun g hg => lookupA_insertJs_ne acc _ hg
  have hself₁ : lookupA (insertJs acc fn (.obj [])) fn = some (.obj []) :=
    lookupA_insertJs_self acc fn _
  rcases hq : lookupA nkm fn with _ | nks
  · rcases hm : lookupA mkm fn with _ | mks
    · right
      refine ⟨insertJs acc fn (.obj []), ?_, hkeys₁, hlookup₁, fun _ _ => hself₁⟩
      simp [deltaStep, hl, hq, hm, truthyO]
    · rcases hr : mks.foldlM
        (fun a q => setInContent a fn q.1 q.2.2) (insertJs acc fn (.obj [])) with _ | acc₃
      · left
        simp [deltaStep, hl, hq, hm, truthyO, hr]
      · right
        obtain ⟨h1, h2⟩ := setInContent_fold_shape2 _ _ hr
        refine ⟨acc₃, ?_, h1.trans hkeys₁,
          fun g hg => (h2 g hg).trans (hlookup₁ g hg), ?_⟩
        · simp [deltaStep, hl, hq, hm, truthyO, hr]
        · intro hnk _
          exact absurd hnk (by simp)
  · rcases hr : nks.foldlM
        (fun a p => setInContent a fn p.1 p.2) (insertJs acc fn (.obj [])) with _ | acc₂
    · left
      simp [deltaStep, hl, hq, truthyO, hr]
    · obtain ⟨h1, h2⟩ := setInContent_fold_shape nks _ _ hr
      rcases hm : lookupA mkm fn with _ | mks
      · right
        refine ⟨acc₂, ?_, h1.trans hkeys₁,
          fun g hg => (h2 g hg).trans (hlookup₁ g hg), ?_⟩
        · simp [deltaStep, hl, hq, truthyO, hr, hm]
        · intro _ hmk
          exact absurd hmk (by simp)
      · rcases hr₂ : mks.foldlM
          (fun a q => setInContent a fn q.1 q.2.2) acc₂ with _ | acc₃
        · left
          simp [deltaStep, hl, hq, truthyO, hr, hm, hr₂]
        · right
          obtain ⟨h3, h4⟩ := setInContent_fold_shape2 _ _ hr₂
          refine ⟨acc₃, ?_, (h3.trans h1).trans hkeys₁,
            fun g hg => ((h4 g hg).trans (h2 g hg)).trans (hlookup₁ g hg), ?_⟩
          · simp [deltaStep, hl, hq, truthyO, hr, hm, hr₂]
          · intro hnk hmk
            have hnks : nks = [] := Option.some_inj.mp hnk
            have hmks : mks = [] := Option.some_inj.mp hmk
            subst hnks
            subst hmks
            rw [List.foldlM_nil] at hr
            rw [List.foldlM_nil] at hr₂
            rw [← Option.some_inj.mp hr₂, ← Option.some_inj.mp hr]
            exact hself₁

theorem newFold_shape (cur : JVal) :
    ∀ (nfs : List String) (acc : List (String × JVal)),
      nfs.Nodup → (∀ f ∈ nfs, f ∉ keysA acc) →
      (∀ f ∈ nfs, ∃ v, jsGet cur f = some v) →
      keysA (nfs.foldl (fun acc fn =>
        match jsGet cur fn with
        | some v => insertJs acc fn v
        | none => acc) acc) = keysA acc ++ nfs ∧
      ∀ g, g ∉ nfs → lookupA (nfs.foldl (fun acc fn =>
        match jsGet cur fn with
        | some v => insertJs acc fn v
        | none => acc) acc) g = lookupA acc g
  | [], acc, _, _, _ => by
    rw [List.foldl_nil]
    exact ⟨by simp, fun _ _ => rfl⟩
  | f :: rest, acc, hnd, hfresh, hval => by
    rw [List.foldl_cons]
    obtain ⟨v, hv⟩ := hval f (List.mem_cons_self f rest)
    rw [hv]
    have hfacc : f ∉ keysA acc := hfresh f (List.mem_cons_self f rest)
    have hkeys₁ : keysA (insertJs acc f v) = keysA acc ++ [f] := by
      rw [insertJs_of_not_mem _ hfacc, keysA_append, keysA_single]
    have hnd' : rest.Nodup := (List.nodup_cons.mp hnd).2
    have hfr : f ∉ rest := (List.nodup_cons.mp hnd).1
    have hfresh' : ∀ g ∈ rest, g ∉ keysA (insertJs acc f v) := by
      intro g hg
      rw [hkeys₁]
      intro hmem
      rcases List.mem_append.mp hmem with h | h
      · exact hfresh g (List.mem_cons_of_mem f hg) h
      · rw [List.mem_singleton.mp h] at hg
        exact hfr hg
    have hval' : ∀ g ∈ rest, ∃ w, jsGet cur g = some w :=
      fun g hg => hval g (List.mem_cons_of_mem f hg)
    obtain ⟨ih1, ih2⟩ := newFold_shape cur rest (insertJs acc f v) hnd' hfresh' hval'
    constructor
    · rw [ih1, hkeys₁, List.append_assoc]
      rfl
    · intro g hg
      have hgr : g ∉ rest := fun hh => hg (List.mem_cons_of_mem f hh)
      have hgf : g ≠ f := fun hh => hg (hh ▸ List.mem_cons_self f rest)
      rw [ih2 g hgr]
      exact lookupA_insertJs_ne acc v hgf

theorem modFold_shape (nkm : List (String × List (String × JVal)))
    (mkm : List (String × List (String × JVal × JVal))) :
    ∀ (mfs : List String) (acc res : List (String × JVal)),
      mfs.Nodup → (∀ f ∈ mfs, f ∉ keysA acc) →
      mfs.foldlM (deltaStep nkm mkm) acc = some res →
      keysA res = keysA acc ++ mfs ∧
      (∀ g, g ∉ mfs → lookupA res g = lookupA acc g) ∧
      (∀ f ∈ mfs, lookupA nkm f = some [] → lookupA mkm f = some [] →
        lookupA res f = some (.obj []))
  | [], acc, res, _, _, h => by
    rw [List.foldlM_nil] at h
    rw [← Option.some_inj.mp h]
    exact ⟨by simp, fun _ _ => rfl, fun f hf => absurd hf (List.not_mem_nil f)⟩
  | f :: rest, acc, res, hnd, hfresh, h => by
    rw [List.foldlM_cons] at h
    have hfacc : f ∉ keysA acc := hfresh f (List.mem_cons_self f rest)
    rcases deltaStep_fresh nkm mkm acc f hfacc with hnone | ⟨acc₃, hstep, hk3, hl3, hdel3⟩
    · rw [hnone] at h
      simp at h
    · rw [hstep] at h
      replace h : rest.foldlM (deltaStep nkm mkm) acc₃ = some res := h
      have hnd' : rest.Nodup := (List.nodup_cons.mp hnd).2
      have hfr : f ∉ rest := (List.nodup_cons.mp hnd).1
      have hfresh' : ∀ g ∈ rest, g ∉ keysA acc₃ := by
        intro g hg
        rw [hk3]
        intro hmem
        rcases List.mem_append.mp hmem with hh | hh
        · exact hfresh g (List.mem_cons_of_mem f hg) hh
        · rw [List.mem_singleton.mp hh] at hg
          exact hfr hg
      obtain ⟨ih1, ih2, ih3⟩ := modFold_shape nkm mkm rest acc₃ res hnd' hfresh' h
      refine ⟨?_, ?_, ?_⟩
      · rw [ih1, hk3, List.append_assoc]
        rfl
      · intro g hg
        have hgr : g ∉ rest := fun hh => hg (List.mem_cons_of_mem f hh)
        have hgf : g ≠ f := fun hh => hg (hh ▸ List.mem_cons_self f rest)
        rw [ih2 g hgr]
        exact hl3 g hgf
      · intro f₀ hf₀ hnk hmk
        rcases List.mem_cons.mp hf₀ with hh | hh
        · subst hh
          rw [ih2 f₀ hfr]
          exact hdel3 hnk hmk
        · exact ih3 f₀ hh hnk hmk



theorem filterMap_key_nodup {β γ : Type} (key : γ → String)
    (F : String × β → Option γ)
    (hF : ∀ p c, F p = some c → key c = p.1) :
    ∀ (l : List (String × β)), (l.map Prod.fst).Nodup →
      ((l.filterMap F).map key).Nodup
  | [], _ => by simp
  | p :: rest, hnd => by
    rw [List.map_cons] at hnd
    obtain ⟨hp, hnd'⟩ := List.nodup_cons.mp hnd
    rw [List.filterMap_cons]
    rcases hFp : F p with _ | c
    · exact filterMap_key_nodup key F hF rest hnd'
    · rw [List.map_cons]
      refine List.nodup_cons.mpr ⟨?_, filterMap_key_nodup key F hF rest hnd'⟩
      intro hmem
      obtain ⟨c', hc', hkc'⟩ := List.mem_map.mp hmem
      obtain ⟨q, hq, hFq⟩ := List.mem_filterMap.mp hc'
      have h1 : key c' = q.1 := hF q c' hFq
      have h2 : key c = p.1 := hF p c hFp
      have h3 : q.1 = p.1 := by rw [← h1, hkc', h2]
      exact hp (h3 ▸ List.mem_map.mpr ⟨q, hq, rfl⟩)

theorem mem_detect_newFiles {prev : JVal} {cf : List (String × JVal)} {f : String}
    (h : f ∈ (detectChanges prev (.obj cf)).newFiles) :
    truthyO (jsGet prev f) = false ∧ f ∈ keysA cf := by
  obtain ⟨p, hp, hFp⟩ := List.mem_filterMap.mp h
  rcases ht : truthyO (jsGet prev p.1) with _ | _
  · rw [ht] at hFp
    simp at hFp
    subst hFp
    exact ⟨ht, List.mem_map.mpr ⟨p, hp, rfl⟩⟩
  · rw [ht] at hFp
    simp at hFp

theorem mem_detect_modFiles {prev : JVal} {cf : List (String × JVal)} {f : String}
    (h : f ∈ (detectChanges prev (.obj cf)).modifiedFiles) :
    truthyO (jsGet prev f) = true := by
  obtain ⟨q, hq, hqf⟩ := List.mem_map.mp h
  obtain ⟨p, hp, hFp⟩ := List.mem_filterMap.mp hq
  rcases hg : jsGet prev p.1 with _ | prevDoc
  · rw [hg] at hFp
    simp at hFp
  · rw [hg] at hFp
    replace hFp : (if jsTruthy prevDoc = true then
        (if (detectFileChanges prevDoc p.2).hasChanges = true
          then some (p.1, detectFileChanges prevDoc p.2) else none)
        else none) = some q := hFp
    rcases htr : jsTruthy prevDoc with _ | _
    · rw [htr] at hFp
      simp at hFp
    · rw [htr] at hFp
      rcases hfc : (detectFileChanges prevDoc p.2).hasChanges with _ | _
      · rw [hfc] at hFp
        simp at hFp
      · rw [hfc] at hFp
        simp at hFp
        have hq1 : q.1 = p.1 := by rw [← hFp]
        rw [← hqf, hq1, hg]
        exact htr

theorem detect_newFiles_nodup {prev : JVal} {cf : List (String × JVal)}
    (hnd : (keysA cf).Nodup) : (detectChanges prev (.obj cf)).newFiles.Nodup := by
  have h := @filterMap_key_nodup JVal String id
    (fun p => if truthyO (jsGet prev p.1) then none else some p.1)
    (fun p c hc => by
      replace hc : (if truthyO (jsGet prev p.1) = true then none else some p.1)
          = some c := hc
      by_cases ht : truthyO (jsGet prev p.1) = true
      · rw [if_pos ht] at hc
        exact absurd hc (by simp)
      · rw [if_neg ht] at hc
        exact (Option.some_inj.mp hc).symm) cf hnd
  rw [List.map_id] at h
  exact h

theorem detect_modFiles_nodup {prev : JVal} {cf : List (String × JVal)}
    (hnd : (keysA cf).Nodup) : (detectChanges prev (.obj cf)).modifiedFiles.Nodup := by
  exact @filterMap_key_nodup JVal (String × FileChanges) Prod.fst
    (fun p =>
      match jsGet prev p.1 with
      | some prevDoc =>
        if jsTruthy prevDoc then
          if (detectFileChanges prevDoc p.2).hasChanges
            then some (p.1, detectFileChanges prevDoc p.2) else none
        else none
      | none => none)
    (fun p c hc => by
      replace hc : (match jsGet prev p.1 with
          | some prevDoc =>
            if jsTruthy prevDoc = true then
              if (detectFileChanges prevDoc p.2).hasChanges = true
                then some (p.1, detectFileChanges prevDoc p.2) else none
            else none
          | none => none) = some c := hc
      rcases hg : jsGet prev p.1 with _ | prevDoc
      · rw [hg] at hc
        exact absurd hc (by simp)
      · rw [hg] at hc
        replace hc : (if jsTruthy prevDoc = true then
            (if (detectFileChanges prevDoc p.2).hasChanges = true
              then some (p.1, detectFileChanges prevDoc p.2) else none)
            else none) = some c := hc
        rcases htr : jsTruthy prevDoc with _ | _
        · rw [htr] at hc
          exact absurd hc (by simp)
        · rw [htr] at hc
          rcases hfc : (detectFileChanges prevDoc p.2).hasChanges with _ | _
          · rw [hfc] at hc
            exact absurd hc (by simp)
          · rw [hfc] at hc
            simp only [if_pos rfl] at hc
            rw [← Option.some_inj.mp hc]) cf hnd

theorem detect_hasChanges_false {prev cur : JVal}
    (h : (detectChanges prev cur).hasChanges = false) :
    (detectChanges prev cur).newFiles = [] ∧
    (detectChanges prev cur).modifiedFiles = [] := by
  simp only [detectChanges] at h ⊢
  obtain ⟨h1, h2⟩ := Bool.or_eq_false_iff.mp h
  constructor
  · simpa using h1
  · have : ((entriesJs cur).filterMap fun p =>
        match jsGet prev p.1 with
        | some prevDoc =>
          if jsTruthy prevDoc = true then
            if (detectFileChanges prevDoc p.2).hasChanges = true
              then some (p.1, detectFileChanges prevDoc p.2) else none
          else none
        | none => none) = [] := by simpa using h2
    rw [this]
    rfl

/-- C5: the delta handed to the translation collaborator holds an entry for
every new and every modified document, and a modified document all of
whose detected changes are deletions is included as the empty mapping. -/
theorem c5_delta_contents_amended (prev : JVal) (cf : List (String × JVal))
    (hnd : (keysA cf).Nodup) (res : List (String × JVal))
    (h : buildDelta (.obj cf) (detectChanges prev (.obj cf)) = some res) :
    keysA res = (detectChanges prev (.obj cf)).newFiles ++
      (detectChanges prev (.obj cf)).modifiedFiles ∧
    ∀ f ∈ (detectChanges prev (.obj cf)).modifiedFiles,
      lookupA (detectChanges prev (.obj cf)).newKeys f = some [] →
      lookupA (detectChanges prev (.obj cf)).modifiedKeys f = some [] →
      lookupA res f = some (.obj []) := by
  rw [buildDelta] at h
  by_cases hc : (detectChanges prev (.obj cf)).hasChanges = true
  · rw [if_neg (not_not_intro hc)] at h
    have hnfnd := @detect_newFiles_nodup prev cf hnd
    have hmfnd := @detect_modFiles_nodup prev cf hnd
    have hval : ∀ f ∈ (detectChanges prev (.obj cf)).newFiles,
        ∃ v, jsGet (.obj cf) f = some v := by
      intro f hf
      have hmem : f ∈ keysA cf := (mem_detect_newFiles hf).2
      have := (lookupA_isSome cf f).mpr hmem
      exact Option.isSome_iff_exists.mp this
    obtain ⟨hk0, hl0⟩ := newFold_shape (.obj cf)
      (detectChanges prev (.obj cf)).newFiles [] hnfnd (by simp [keysA_nil]) hval
    have hk0' : keysA ((detectChanges prev (.obj cf)).newFiles.foldl (fun acc fn =>
        match jsGet (.obj cf) fn with
        | some v => insertJs acc fn v
        | none => acc) []) = (detectChanges prev (.obj cf)).newFiles := by
      rw [hk0]
      rfl
    have hfresh : ∀ f ∈ (detectChanges prev (.obj cf)).modifiedFiles,
        f ∉ keysA ((detectChanges prev (.obj cf)).newFiles.foldl (fun acc fn =>
          match jsGet (.obj cf) fn with
          | some v => insertJs acc fn v
          | none => acc) []) := by
      intro f hf
      rw [hk0']
      intro hmem
      have h1 := (mem_detect_newFiles hmem).1
      have h2 := mem_detect_modFiles hf
      rw [h1] at h2
      exact Bool.false_ne_true h2
    obtain ⟨m1, m2, m3⟩ := modFold_shape (detectChanges prev (.obj cf)).newKeys
      (detectChanges prev (.obj cf)).modifiedKeys
      (detectChanges prev (.obj cf)).modifiedFiles _ res hmfnd hfresh h
    refine ⟨?_, m3⟩
    rw [m1, hk0']
  · rw [if_pos (by simpa using hc)] at h
    have hres : res = [] := (Option.some_inj.mp h).symm
    obtain ⟨he1, he2⟩ := detect_hasChanges_false (by simpa using hc)
    subst hres
    rw [he1, he2]
    exact ⟨rfl, fun f hf => absurd hf (List.not_mem_nil f)⟩

/-- C5: refutation of "Documents with zero new/modified leaves are
omitted entirely from the delta — the translation collaborator never
receives an empty document": a document whose only change is a deleted
key is a modified file, and the delta includes it as the empty mapping. -/
theorem c5_empty_delta_counterexample :
    (detectChanges
      (JVal.obj [("a.json", JVal.obj [("x", JVal.str "1"), ("y", JVal.str "2")])])
      (JVal.obj [("a.json", JVal.obj [("y", JVal.str "2")])])).hasChanges = true ∧
    buildDelta (JVal.obj [("a.json", JVal.obj [("y", JVal.str "2")])])
      (detectChanges
        (JVal.obj [("a.json", JVal.obj [("x", JVal.str "1"), ("y", JVal.str "2")])])
        (JVal.obj [("a.json", JVal.obj [("y", JVal.str "2")])])) =
      some [("a.json", JVal.obj [])] := by
  have hch : detectChanges
      (JVal.obj [("a.json", JVal.obj [("x", JVal.str "1"), ("y", JVal.str "2")])])
      (JVal.obj [("a.json", JVal.obj [("y", JVal.str "2")])]) =
      { hasChanges := true, newFiles := [], modifiedFiles := ["a.json"],
        newKeys := [("a.json", [])], modifiedKeys := [("a.json", [])],
        deletedKeys := [("a.json", ["x"])] } := by
    simp [detectChanges, detectFileChanges, flattenObject, flattenGo, entriesJs,
      insertJs, keysA, lookupA, strictEqParsed, jsGet, jsTruthy, truthyO]
  rw [hch]
  constructor
  · rfl
  · decide

theorem c5_delta_contents_amended_witness :
    (keysA [("a.json", JVal.obj [("y", JVal.str "2")])]).Nodup ∧
    lookupA [("a.json", JVal.obj [])] "a.json" = some (JVal.obj []) := by
  have hch : detectChanges
      (JVal.obj [("a.json", JVal.obj [("x", JVal.str "1"), ("y", JVal.str "2")])])
      (JVal.obj [("a.json", JVal.obj [("y", JVal.str "2")])]) =
      { hasChanges := true, newFiles := [], modifiedFiles := ["a.json"],
        newKeys := [("a.json", [])], modifiedKeys := [("a.json", [])],
        deletedKeys := [("a.json", ["x"])] } := by
    simp [detectChanges, detectFileChanges, flattenObject, flattenGo, entriesJs,
      insertJs, keysA, lookupA, strictEqParsed, jsGet, jsTruthy, truthyO]
  refine ⟨by decide, ?_⟩
  have h := c5_delta_contents_amended
    (JVal.obj [("a.json", JVal.obj [("x", JVal.str "1"), ("y", JVal.str "2")])])
    [("a.json", JVal.obj [("y", JVal.str "2")])]
    (by decide) [("a.json", JVal.obj [])]
    (by rw [buildDelta, hch]; decide)
  exact h.2 "a.json" (by rw [hch]; decide) (by rw [hch]; decide) (by rw [hch]; decide)

end TranslatePlatform

namespace TranslatePlatform

theorem splitDots_ne_nil (s : String) : splitDots s ≠ [] := by
  rw [splitDots]
  intro h
  exact List.splitOnP_ne_nil _ _ (List.map_eq_nil_iff.mp h)

theorem lookupA_filter_self (fields : List (String × JVal)) (last : String) :
    lookupA (fields.filter fun p => p.1 ≠ last) last = none := by
  induction fields with
  | nil => rfl
  | cons p rest ih =>
    by_cases hp : p.1 = last
    · rw [List.filter_cons_of_neg (by simp [hp])]
      exact ih
    · rw [List.filter_cons_of_pos (by simp [hp]), lookupA_cons]
      simp only [if_neg hp]
      exact ih

theorem lookupA_filter_ne (fields : List (String × JVal)) {g last : String}
    (hg : g ≠ last) :
    lookupA (fields.filter fun p => p.1 ≠ last) g = lookupA fields g := by
  induction fields with
  | nil => rfl
  | cons p rest ih =>
    by_cases hp : p.1 = last
    · rw [List.filter_cons_of_neg (by simp [hp]), lookupA_cons]
      have : ¬ p.1 = g := by
        rw [hp]
        exact fun hh => hg hh.symm
      rw [if_neg this]
      exact ih
    · rw [List.filter_cons_of_pos (by simp [hp]), lookupA_cons, lookupA_cons]
      by_cases hpg : p.1 = g
      · rw [if_pos hpg, if_pos hpg]
      · rw [if_neg hpg, if_neg hpg]
        exact ih

theorem falsy_lookupPath {v : JVal} (h : jsTruthy v = false) (k : String)
    (rest : List String) : lookupPath v (k :: rest) = none := by
  cases v <;> first | rfl | simp [jsTruthy] at h

theorem deletePath_arr_shape :
    ∀ (ps : List String) (xs : List JVal) (d' : JVal),
      deletePath (.arr xs) ps = some d' → ∃ ys, d' = JVal.arr ys
  | [], xs, d', h => ⟨xs, (Option.some_inj.mp h).symm⟩
  | [last], xs, d', h => by
    replace h : (match asIndex last with
      | some i => if i < xs.length then some (JVal.arr (xs.set i JVal.null))
        else some (JVal.arr xs)
      | none => if last = "length" then none else some (JVal.arr xs)) =
      some d' := h
    rcases hidx : asIndex last with _ | i
    · rw [hidx] at h
      replace h : (if last = "length" then none else some (JVal.arr xs)) =
        some d' := h
      by_cases hlen : last = "length"
      · rw [if_pos hlen] at h
        simp at h
      · rw [if_neg hlen] at h
        exact ⟨xs, (Option.some_inj.mp h).symm⟩
    · rw [hidx] at h
      replace h : (if i < xs.length then some (JVal.arr (xs.set i JVal.null))
        else some (JVal.arr xs)) = some d' := h
      by_cases hi : i < xs.length
      · rw [if_pos hi] at h
        exact ⟨xs.set i JVal.null, (Option.some_inj.mp h).symm⟩
      · rw [if_neg hi] at h
        exact ⟨xs, (Option.some_inj.mp h).symm⟩
  | k :: r :: rs, xs, d', h => by
    replace h : (match asIndex k with
      | some i =>
        match xs[i]? with
        | some e =>
          if jsTruthy e = true then
            (deletePath e (r :: rs)).map fun e' => JVal.arr (xs.set i e')
          else some (JVal.arr xs)
        | none => some (JVal.arr xs)
      | none =>
        if k = "length" then
          if xs.length = 0 then some (JVal.arr xs)
          else (deletePath (.num xs.length) (r :: rs)).map fun _ => JVal.arr xs
        else some (JVal.arr xs)) = some d' := h
    rcases hidx : asIndex k with _ | i
    · rw [hidx] at h
      replace h : (if k = "length" then
          if xs.length = 0 then some (JVal.arr xs)
          else (deletePath (.num xs.length) (r :: rs)).map fun _ => JVal.arr xs
        else some (JVal.arr xs)) = some d' := h
      by_cases hlen : k = "length"
      · rw [if_pos hlen] at h
        by_cases h0 : xs.length = 0
        · rw [if_pos h0] at h
          exact ⟨xs, (Option.some_inj.mp h).symm⟩
        · rw [if_neg h0] at h
          rcases hdp : deletePath (.num xs.length) (r :: rs) with _ | w
          · rw [hdp] at h
            simp at h
          · rw [hdp, Option.map_some'] at h
            exact ⟨xs, (Option.some_inj.mp h).symm⟩
      · rw [if_neg hlen] at h
        exact ⟨xs, (Option.some_inj.mp h).symm⟩
    · rw [hidx] at h
      replace h : (match xs[i]? with
        | some e =>
          if jsTruthy e = true then
            (deletePath e (r :: rs)).map fun e' => JVal.arr (xs.set i e')
          else some (JVal.arr xs)
        | none => some (JVal.arr xs)) = some d' := h
      rcases he : xs[i]? with _ | e
      · rw [he] at h
        exact ⟨xs, (Option.some_inj.mp h).symm⟩
      · rw [he] at h
        replace h : (if jsTruthy e = true then
            (deletePath e (r :: rs)).map fun e' => JVal.arr (xs.set i e')
          else some (JVal.arr xs)) = some d' := h
        by_cases ht : jsTruthy e = true
        · rw [if_pos ht] at h
          rcases hdp : deletePath e (r :: rs) with _ | e'
          · rw [hdp] at h
            simp at h
          · rw [hdp, Option.map_some'] at h
            exact ⟨xs.set i e', (Option.some_inj.mp h).symm⟩
        · rw [if_neg ht] at h
          exact ⟨xs, (Option.some_inj.mp h).symm⟩

theorem deletePath_str_shape :
    ∀ (ps : List String) (t : String) (d' : JVal),
      deletePath (.str t) ps = some d' → d' = JVal.str t
  | [], t, d', h => (Option.some_inj.mp h).symm
  | [last], t, d', h => by
    replace h : (match asIndex last with
      | some i => if i < t.length then none else some (JVal.str t)
      | none => if last = "length" then none else some (JVal.str t)) =
      some d' := h
    rcases hidx : asIndex last with _ | i
    · rw [hidx] at h
      replace h : (if last = "length" then none else some (JVal.str t)) =
        some d' := h
      by_cases hlen : last = "length"
      · rw [if_pos hlen] at h
        simp at h
      · rw [if_neg hlen] at h
        exact (Option.some_inj.mp h).symm
    · rw [hidx] at h
      replace h : (if i < t.length then none else some (JVal.str t)) =
        some d' := h
      by_cases hi : i < t.length
      · rw [if_pos hi] at h
        simp at h
      · rw [if_neg hi] at h
        exact (Option.some_inj.mp h).symm
  | k :: r :: rs, t, d', h => by
    replace h : (match asIndex k with
      | some i =>
        match t.data[i]? with
        | some c =>
          (deletePath (.str (String.singleton c)) (r :: rs)).map
            fun _ => JVal.str t
        | none => some (JVal.str t)
      | none =>
        if k = "length" then
          if t.length = 0 then some (JVal.str t)
          else (deletePath (.num t.length) (r :: rs)).map fun _ => JVal.str t
        else some (JVal.str t)) = some d' := h
    rcases hidx : asIndex k with _ | i
    · rw [hidx] at h
      replace h : (if k = "length" then
          if t.length = 0 then some (JVal.str t)
          else (deletePath (.num t.length) (r :: rs)).map fun _ => JVal.str t
        else some (JVal.str t)) = some d' := h
      by_cases hlen : k = "length"
      · rw [if_pos hlen] at h
        by_cases h0 : t.length = 0
        · rw [if_pos h0] at h
          exact (Option.some_inj.mp h).symm
        · rw [if_neg h0] at h
          rcases hdp : deletePath (.num t.length) (r :: rs) with _ | w
          · rw [hdp] at h
            simp at h
          · rw [hdp, Option.map_some'] at h
            exact (Option.some_inj.mp h).symm
      · rw [if_neg hlen] at h
        exact (Option.some_inj.mp h).symm
    · rw [hidx] at h
      replace h : (match t.data[i]? with
        | some c =>
          (deletePath (.str (String.singleton c)) (r :: rs)).map
            fun _ => JVal.str t
        | none => some (JVal.str t)) = some d' := h
      rcases hc : t.data[i]? with _ | c
      · rw [hc] at h
        exact (Option.some_inj.mp h).symm
      · rw [hc] at h
        replace h : (deletePath (.str (String.singleton c)) (r :: rs)).map
            (fun _ => JVal.str t) = some d' := h
        rcases hdp : deletePath (.str (String.singleton c)) (r :: rs) with _ | w
        · rw [hdp] at h
          simp at h
        · rw [hdp, Option.map_some'] at h
          exact (Option.some_inj.mp h).symm

theorem deletePath_num_shape {ps : List String} {n : Int} {d' : JVal}
    (h : deletePath (.num n) ps = some d') : d' = JVal.num n := by
  cases ps with
  | nil => exact (Option.some_inj.mp h).symm
  | cons k rest =>
    cases rest with
    | nil => exact (Option.some_inj.mp h).symm
    | cons r rs => exact (Option.some_inj.mp h).symm

theorem deletePath_bool_shape {ps : List String} {b : Bool} {d' : JVal}
    (h : deletePath (.bool b) ps = some d') : d' = JVal.bool b := by
  cases ps with
  | nil => exact (Option.some_inj.mp h).symm
  | cons k rest =>
    cases rest with
    | nil => exact (Option.some_inj.mp h).symm
    | cons r rs => exact (Option.some_inj.mp h).symm

theorem deletePath_null_none {ps : List String} (hne : ps ≠ []) :
    deletePath JVal.null ps = none := by
  cases ps with
  | nil => exact absurd rfl hne
  | cons k rest =>
    cases rest with
    | nil => rfl
    | cons r rs => rfl

theorem delete_absent_noop :
    ∀ (ps : List String) (doc : JVal),
      (∀ k ∈ ps, asIndex k = none ∧ k ≠ "length") →
      doc ≠ JVal.null →
      lookupPath doc ps = none →
      deletePath doc ps = some doc
  | [], doc, _, _, h => by
    simp [lookupPath] at h
  | [last], doc, hkeys, hnn, h => by
    obtain ⟨hidx, hlen⟩ := hkeys last (List.mem_cons_self last [])
    cases doc with
    | obj fields =>
      have hl : lookupA fields last = none := by
        rw [lookupPath] at h
        rcases hll : lookupA fields last with _ | c
        · rfl
        · rw [hll] at h
          simp [lookupPath] at h
      have hfe : fields.filter (fun p => p.1 ≠ last) = fields := by
        refine List.filter_eq_self.mpr ?_
        intro p hp
        simp only [decide_eq_true_eq]
        intro hpl
        have hnm : last ∉ keysA fields := (lookupA_eq_none fields last).mp hl
        apply hnm
        rw [← hpl]
        exact List.mem_map.mpr ⟨p, hp, rfl⟩
      show some (JVal.obj (fields.filter fun p => p.1 ≠ last)) =
        some (JVal.obj fields)
      rw [hfe]
    | arr xs =>
      show (match asIndex last with
        | some i => if i < xs.length then some (JVal.arr (xs.set i JVal.null))
          else some (JVal.arr xs)
        | none => if last = "length" then none else some (JVal.arr xs)) =
        some (JVal.arr xs)
      rw [hidx]
      show (if last = "length" then none else some (JVal.arr xs)) =
        some (JVal.arr xs)
      rw [if_neg hlen]
    | str t =>
      show (match asIndex last with
        | some i => if i < t.length then none else some (JVal.str t)
        | none => if last = "length" then none else some (JVal.str t)) =
        some (JVal.str t)
      rw [hidx]
      show (if last = "length" then none else some (JVal.str t)) =
        some (JVal.str t)
      rw [if_neg hlen]
    | num n => rfl
    | bool b => rfl
    | null => exact absurd rfl hnn
  | k :: r :: rs, doc, hkeys, hnn, h => by
    obtain ⟨hidx, hlen⟩ := hkeys k (List.mem_cons_self k (r :: rs))
    have hkeys' : ∀ k₀ ∈ r :: rs, asIndex k₀ = none ∧ k₀ ≠ "length" :=
      fun k₀ hk₀ => hkeys k₀ (List.mem_cons_of_mem k hk₀)
    cases doc with
    | obj fields =>
      rw [lookupPath] at h
      show (match lookupA fields k with
        | some c =>
          if jsTruthy c = true then
            (deletePath c (r :: rs)).map fun c' => JVal.obj (insertJs fields k c')
          else some (JVal.obj fields)
        | none => some (JVal.obj fields)) = some (JVal.obj fields)
      rcases hl : lookupA fields k with _ | c
      · rfl
      · rw [hl] at h
        replace h : lookupPath c (r :: rs) = none := h
        show (if jsTruthy c = true then
            (deletePath c (r :: rs)).map fun c' => JVal.obj (insertJs fields k c')
          else some (JVal.obj fields)) = some (JVal.obj fields)
        by_cases ht : jsTruthy c = true
        · rw [if_pos ht]
          have hnnc : c ≠ JVal.null := by
            intro hh
            rw [hh] at ht
            simp [jsTruthy] at ht
          rw [delete_absent_noop (r :: rs) c hkeys' hnnc h, Option.map_some']
          rw [insertJs_lookup_eq hl]
        · rw [if_neg ht]
    | arr xs =>
      show (match asIndex k with
        | some i =>
          match xs[i]? with
          | some e =>
            if jsTruthy e = true then
              (deletePath e (r :: rs)).map fun e' => JVal.arr (xs.set i e')
            else some (JVal.arr xs)
          | none => some (JVal.arr xs)
        | none =>
          if k = "length" then
            if xs.length = 0 then some (JVal.arr xs)
            else (deletePath (.num xs.length) (r :: rs)).map fun _ => JVal.arr xs
          else some (JVal.arr xs)) = some (JVal.arr xs)
      rw [hidx]
      show (if k = "length" then
          if xs.length = 0 then some (JVal.arr xs)
          else (deletePath (.num xs.length) (r :: rs)).map fun _ => JVal.arr xs
        else some (JVal.arr xs)) = some (JVal.arr xs)
      rw [if_neg hlen]
    | str t =>
      show (match asIndex k with
        | some i =>
          match t.data[i]? with
          | some c =>
            (deletePath (.str (String.singleton c)) (r :: rs)).map
              fun _ => JVal.str t
          | none => some (JVal.str t)
        | none =>
          if k = "length" then
            if t.length = 0 then some (JVal.str t)
            else (deletePath (.num t.length) (r :: rs)).map fun _ => JVal.str t
          else some (JVal.str t)) = some (JVal.str t)
      rw [hidx]
      show (if k = "length" then
          if t.length = 0 then some (JVal.str t)
          else (deletePath (.num t.length) (r :: rs)).map fun _ => JVal.str t
        else some (JVal.str t)) = some (JVal.str t)
      rw [if_neg hlen]
    | num n => rfl
    | bool b => rfl
    | null => exact absurd rfl hnn

theorem deletePath_absent :
    ∀ (ps : List String) (d d' : JVal), ps ≠ [] →
      deletePath d ps = some d' →
      lookupPath d' ps = none
  | [], _, _, hne, _ => absurd rfl hne
  | [last], d, d', _, h => by
    cases d with
    | obj fields =>
      replace h : some (JVal.obj (fields.filter fun p => p.1 ≠ last)) =
        some d' := h
      rw [← Option.some_inj.mp h]
      rw [lookupPath, lookupA_filter_self]
    | arr xs =>
      obtain ⟨ys, rfl⟩ := deletePath_arr_shape [last] xs d' h
      rfl
    | str t =>
      rw [deletePath_str_shape [last] t d' h]
      rfl
    | num n =>
      rw [deletePath_num_shape h]
      rfl
    | bool b =>
      rw [deletePath_bool_shape h]
      rfl
    | null =>
      rw [deletePath_null_none (by simp)] at h
      simp at h
  | k :: r :: rs, d, d', _, h => by
    cases d with
    | obj fields =>
      replace h : (match lookupA fields k with
        | some c =>
          if jsTruthy c = true then
            (deletePath c (r :: rs)).map fun c' => JVal.obj (insertJs fields k c')
          else some (JVal.obj fields)
        | none => some (JVal.obj fields)) = some d' := h
      rcases hl : lookupA fields k with _ | c
      · rw [hl] at h
        rw [← Option.some_inj.mp h]
        rw [lookupPath, hl]
      · rw [hl] at h
        replace h : (if jsTruthy c = true then
            (deletePath c (r :: rs)).map fun c' => JVal.obj (insertJs fields k c')
          else some (JVal.obj fields)) = some d' := h
        by_cases ht : jsTruthy c = true
        · rw [if_pos ht] at h
          rcases hdc : deletePath c (r :: rs) with _ | c'
          · rw [hdc] at h
            simp at h
          · rw [hdc, Option.map_some'] at h
            rw [← Option.some_inj.mp h]
            rw [lookupPath, lookupA_insertJs_self]
            exact deletePath_absent (r :: rs) c c' (by simp) hdc
        · rw [if_neg ht] at h
          rw [← Option.some_inj.mp h]
          rw [lookupPath, hl]
          exact falsy_lookupPath (by simpa using ht) r rs
    | arr xs =>
      obtain ⟨ys, rfl⟩ := deletePath_arr_shape (k :: r :: rs) xs d' h
      rfl
    | str t =>
      rw [deletePath_str_shape (k :: r :: rs) t d' h]
      rfl
    | num n =>
      rw [deletePath_num_shape h]
      rfl
    | bool b =>
      rw [deletePath_bool_shape h]
      rfl
    | null =>
      rw [deletePath_null_none (by simp)] at h
      simp at h

theorem deletePath_preserves_absent :
    ∀ (qs : List String) (d : JVal) (ps : List String) (d' : JVal),
      lookupPath d ps = none → deletePath d qs = some d' →
      lookupPath d' ps = none
  | [], d, ps, d', h, hd => by
    replace hd : some d = some d' := hd
    rw [← Option.some_inj.mp hd]
    exact h
  | [last], d, ps, d', h, hd => by
    cases d with
    | obj fields =>
      replace hd : some (JVal.obj (fields.filter fun p => p.1 ≠ last)) =
        some d' := hd
      rw [← Option.some_inj.mp hd]
      cases ps with
      | nil => simp [lookupPath] at h
      | cons p ps' =>
        rw [lookupPath] at h ⊢
        by_cases hpl : p = last
        · subst hpl
          rw [lookupA_filter_self]
        · rw [lookupA_filter_ne fields hpl]
          rcases hlp : lookupA fields p with _ | c
          · rfl
          · rw [hlp] at h
            exact h
    | arr xs =>
      obtain ⟨ys, rfl⟩ := deletePath_arr_shape [last] xs d' hd
      cases ps with
      | nil => simp [lookupPath] at h
      | cons p ps' => rfl
    | str t =>
      rw [deletePath_str_shape [last] t d' hd]
      cases ps with
      | nil => simp [lookupPath] at h
      | cons p ps' => rfl
    | num n =>
      rw [deletePath_num_shape hd]
      cases ps with
      | nil => simp [lookupPath] at h
      | cons p ps' => rfl
    | bool b =>
      rw [deletePath_bool_shape hd]
      cases ps with
      | nil => simp [lookupPath] at h
      | cons p ps' => rfl
    | null =>
      rw [deletePath_null_none (by simp)] at hd
      simp at hd
  | k :: r :: rs, d, ps, d', h, hd => by
    cases d with
    | obj fields =>
      replace hd : (match lookupA fields k with
        | some c =>
          if jsTruthy c = true then
            (deletePath c (r :: rs)).map fun c' => JVal.obj (insertJs fields k c')
          else some (JVal.obj fields)
        | none => some (JVal.obj fields)) = some d' := hd
      rcases hl : lookupA fields k with _ | c
      · rw [hl] at hd
        rw [← Option.some_inj.mp hd]
        exact h
      · rw [hl] at hd
        replace hd : (if jsTruthy c = true then
            (deletePath c (r :: rs)).map fun c' => JVal.obj (insertJs fields k c')
          else some (JVal.obj fields)) = some d' := hd
        by_cases ht : jsTruthy c = true
        · rw [if_pos ht] at hd
          rcases hdc : deletePath c (r :: rs) with _ | c'
          · rw [hdc] at hd
            simp at hd
          · rw [hdc, Option.map_some'] at hd
            rw [← Option.some_inj.mp hd]
            cases ps with
            | nil => simp [lookupPath] at h
            | cons p ps' =>
              rw [lookupPath] at h ⊢
              by_cases hpk : p = k
              · subst hpk
                rw [lookupA_insertJs_self]
                rw [hl] at h
                replace h : lookupPath c ps' = none := h
                exact deletePath_preserves_absent (r :: rs) c ps' c' h hdc
              · rw [lookupA_insertJs_ne fields _ hpk]
                rcases hlp : lookupA fields p with _ | w
                · rfl
                · rw [hlp] at h
                  exact h
        · rw [if_neg ht] at hd
          rw [← Option.some_inj.mp hd]
          exact h
    | arr xs =>
      obtain ⟨ys, rfl⟩ := deletePath_arr_shape (k :: r :: rs) xs d' hd
      cases ps with
      | nil => simp [lookupPath] at h
      | cons p ps' => rfl
    | str t =>
      rw [deletePath_str_shape (k :: r :: rs) t d' hd]
      cases ps with
      | nil => simp [lookupPath] at h
      | cons p ps' => rfl
    | num n =>
      rw [deletePath_num_shape hd]
      cases ps with
      | nil => simp [lookupPath] at h
      | cons p ps' => rfl
    | bool b =>
      rw [deletePath_bool_shape hd]
      cases ps with
      | nil => simp [lookupPath] at h
      | cons p ps' => rfl
    | null =>
      rw [deletePath_null_none (by simp)] at hd
      simp at hd

theorem foldlM_delete_preserves_absent :
    ∀ (dks : List String) (d d' : JVal) (ps : List String),
      lookupPath d ps = none →
      dks.foldlM deleteNestedKey d = some d' →
      lookupPath d' ps = none
  | [], d, d', ps, h, hf => by
    rw [List.foldlM_nil] at hf
    rw [← Option.some_inj.mp hf]
    exact h
  | dk :: rest, d, d', ps, h, hf => by
    rw [List.foldlM_cons] at hf
    rcases hd : deleteNestedKey d dk with _ | d₁
    · rw [hd] at hf
      simp at hf
    · rw [hd] at hf
      replace hf : rest.foldlM deleteNestedKey d₁ = some d' := hf
      exact foldlM_delete_preserves_absent rest d₁ d' ps
        (deletePath_preserves_absent (splitDots dk) d ps d₁ h hd) hf

theorem foldlM_delete_complete :
    ∀ (dks : List String) (d d' : JVal) (key : String),
      key ∈ dks → dks.foldlM deleteNestedKey d = some d' →
      lookupPath d' (splitDots key) = none
  | [], _, _, key, hk, _ => absurd hk (List.not_mem_nil key)
  | dk :: rest, d, d', key, hk, hf => by
    rw [List.foldlM_cons] at hf
    rcases hd : deleteNestedKey d dk with _ | d₁
    · rw [hd] at hf
      simp at hf
    · rw [hd] at hf
      replace hf : rest.foldlM deleteNestedKey d₁ = some d' := hf
      rcases List.mem_cons.mp hk with hh | hh
      · subst hh
        exact foldlM_delete_preserves_absent rest d₁ d' _
          (deletePath_absent (splitDots key) d d₁ (splitDots_ne_nil key) hd) hf
      · exact foldlM_delete_complete rest d₁ d' key hh hf

theorem jsReadO_some_some {m : JVal} {k : String} {b : JVal}
    (h : jsReadO m k = some (some b)) :
    ∃ fields, m = .obj fields ∧ lookupA fields k = some b := by
  cases m with
  | obj fields =>
    rw [jsReadO] at h
    exact ⟨fields, rfl, Option.some_inj.mp h⟩
  | null => exact absurd h (by simp [jsReadO])
  | str s => exact absurd h (by simp [jsReadO])
  | num n => exact absurd h (by simp [jsReadO])
  | bool b => exact absurd h (by simp [jsReadO])
  | arr xs => exact absurd h (by simp [jsReadO])

theorem jsSetO_frame {m m' : JVal} {k : String} {v : JVal}
    (h : jsSetO m k v = some m') {g : String} (hg : g ≠ k) :
    jsReadO m' g = jsReadO m g := by
  cases m with
  | obj fields =>
    rw [jsSetO] at h
    rw [← Option.some_inj.mp h, jsReadO, jsReadO]
    rw [lookupA_insertJs_ne fields v hg]
  | arr xs =>
    rw [jsSetO] at h
    rw [← Option.some_inj.mp h]
  | null => exact absurd h (by simp [jsSetO])
  | str s => exact absurd h (by simp [jsSetO])
  | num n => exact absurd h (by simp [jsSetO])
  | bool b => exact absurd h (by simp [jsSetO])

theorem jsRead2O_congr {m m' : JVal} {k₁ : String}
    (h : jsReadO m' k₁ = jsReadO m k₁) (k₂ : String) :
    jsRead2O m' k₁ k₂ = jsRead2O m k₁ k₂ := by
  rw [jsRead2O, jsRead2O, h]

theorem jsSet2O_frame1 {m m' : JVal} {k₁ k₂ : String} {v : JVal}
    (h : jsSet2O m k₁ k₂ v = some m') {g : String} (hg : g ≠ k₁) :
    jsReadO m' g = jsReadO m g := by
  rw [jsSet2O] at h
  rcases h1 : jsReadO m k₁ with _ | r₁
  · rw [h1] at h
    simp at h
  · rw [h1] at h
    rcases r₁ with _ | base
    · replace h : (none : Option JVal) = some m' := h
      simp at h
    · replace h : (match jsSetO base k₂ v with
        | some base' => jsSetO m k₁ base'
        | none => none) = some m' := h
      rcases h2 : jsSetO base k₂ v with _ | base'
      · rw [h2] at h
        simp at h
      · rw [h2] at h
        exact jsSetO_frame h hg

theorem jsSet2O_frame2 {m m' : JVal} {k₁ k₂ : String} {v : JVal}
    (h : jsSet2O m k₁ k₂ v = some m') {g : String} (hg : g ≠ k₂) :
    jsRead2O m' k₁ g = jsRead2O m k₁ g := by
  rw [jsSet2O] at h
  rcases h1 : jsReadO m k₁ with _ | r₁
  · rw [h1] at h
    simp at h
  · rw [h1] at h
    rcases r₁ with _ | base
    · replace h : (none : Option JVal) = some m' := h
      simp at h
    · replace h : (match jsSetO base k₂ v with
        | some base' => jsSetO m k₁ base'
        | none => none) = some m' := h
      rcases h2 : jsSetO base k₂ v with _ | base'
      · rw [h2] at h
        simp at h
      · rw [h2] at h
        obtain ⟨mf, rfl, hml⟩ := jsReadO_some_some h1
        replace h : some (JVal.obj (insertJs mf k₁ base')) = some m' := h
        rw [← Option.some_inj.mp h]
        rw [jsRead2O, jsRead2O, jsReadO, jsReadO, lookupA_insertJs_self, hml]
        show jsReadO base' g = jsReadO base g
        exact jsSetO_frame h2 hg

theorem jsSet2O_read_back {m m' : JVal} {k₁ k₂ : String} {v curv : JVal}
    (h : jsSet2O m k₁ k₂ v = some m')
    (hcur : jsRead2O m k₁ k₂ = some (some curv)) :
    jsRead2O m' k₁ k₂ = some (some v) := by
  rw [jsSet2O] at h
  rw [jsRead2O] at hcur
  rcases h1 : jsReadO m k₁ with _ | r₁
  · rw [h1] at h
    simp at h
  · rw [h1] at h hcur
    rcases r₁ with _ | base
    · replace h : (none : Option JVal) = some m' := h
      simp at h
    · replace hcur : jsReadO base k₂ = some (some curv) := hcur
      replace h : (match jsSetO base k₂ v with
        | some base' => jsSetO m k₁ base'
        | none => none) = some m' := h
      obtain ⟨bf, rfl, hbl⟩ := jsReadO_some_some hcur
      replace h : jsSetO m k₁ (JVal.obj (insertJs bf k₂ v)) = some m' := h
      obtain ⟨mf, rfl, hml⟩ := jsReadO_some_some h1
      replace h : some (JVal.obj (insertJs mf k₁
        (JVal.obj (insertJs bf k₂ v)))) = some m' := h
      rw [← Option.some_inj.mp h]
      rw [jsRead2O, jsReadO, lookupA_insertJs_self]
      show jsReadO (JVal.obj (insertJs bf k₂ v)) k₂ = some (some v)
      rw [jsReadO, lookupA_insertJs_self]

theorem deleteFileStep_done {ch : Changes} {lang : String} {m m₁ : JVal}
    {fn : String} {dks : List String}
    (h : deleteFileStep ch lang m fn = some m₁)
    (hdk : lookupA ch.deletedKeys fn = some dks) :
    ∀ fv, jsRead2O m₁ lang fn = some (some fv) →
      ∀ key ∈ dks, lookupPath fv (splitDots key) = none := by
  rw [deleteFileStep, hdk] at h
  rcases hc : jsRead2O m lang fn with _ | cur
  · rw [hc] at h
    simp at h
  · rw [hc] at h
    rcases cur with _ | curv
    · have hm : m₁ = m := (Option.some_inj.mp h).symm
      subst hm
      intro fv hfv
      rw [hc] at hfv
      simp at hfv
    · replace h : (if jsTruthy curv = true
          then (dks.foldlM deleteNestedKey curv >>= fun curv' =>
            jsSet2O m lang fn curv')
          else some m) = some m₁ := h
      by_cases ht : jsTruthy curv = true
      · rw [if_pos ht] at h
        rcases hfd : dks.foldlM deleteNestedKey curv with _ | curv'
        · rw [hfd] at h
          simp at h
        · rw [hfd] at h
          replace h : jsSet2O m lang fn curv' = some m₁ := h
          intro fv hfv key hkey
          have hrb := jsSet2O_read_back h hc
          rw [hrb] at hfv
          have hfv' : curv' = fv := by simpa using hfv
          rw [← hfv']
          exact foldlM_delete_complete dks curv curv' key hkey hfd
      · rw [if_neg ht] at h
        have hm : m₁ = m := (Option.some_inj.mp h).symm
        subst hm
        intro fv hfv key hkey
        rw [hc] at hfv
        have hfveq : curv = fv := by simpa using hfv
        rw [← hfveq]
        rcases hsd : splitDots key with _ | ⟨k0, rest⟩
        · exact absurd hsd (splitDots_ne_nil key)
        · exact falsy_lookupPath (by simpa using ht) k0 rest

theorem deleteFileStep_frame {ch : Changes} {lang : String} {m m₁ : JVal}
    {f' fn : String} (h : deleteFileStep ch lang m f' = some m₁)
    (hne : f' ≠ fn) : jsRead2O m₁ lang fn = jsRead2O m lang fn := by
  rw [deleteFileStep] at h
  rcases hdk : lookupA ch.deletedKeys f' with _ | dks
  · rw [hdk] at h
    rw [← Option.some_inj.mp h]
  · rw [hdk] at h
    rcases hc : jsRead2O m lang f' with _ | cur
    · rw [hc] at h
      simp at h
    · rw [hc] at h
      rcases cur with _ | curv
      · rw [← Option.some_inj.mp h]
      · replace h : (if jsTruthy curv = true
            then (dks.foldlM deleteNestedKey curv >>= fun curv' =>
              jsSet2O m lang f' curv')
            else some m) = some m₁ := h
        by_cases ht : jsTruthy curv = true
        · rw [if_pos ht] at h
          rcases hfd : dks.foldlM deleteNestedKey curv with _ | curv'
          · rw [hfd] at h
            simp at h
          · rw [hfd] at h
            replace h : jsSet2O m lang f' curv' = some m₁ := h
            exact jsSet2O_frame2 h fun hh => hne hh.symm
        · rw [if_neg ht] at h
          rw [← Option.some_inj.mp h]

theorem delFold_frame {ch : Changes} {lang fn : String} :
    ∀ (mfs : List String) (m m' : JVal),
      mfs.foldlM (deleteFileStep ch lang) m = some m' →
      (∀ f' ∈ mfs, f' ≠ fn) →
      jsRead2O m' lang fn = jsRead2O m lang fn
  | [], m, m', h, _ => by
    rw [List.foldlM_nil] at h
    rw [← Option.some_inj.mp h]
  | f :: rest, m, m', h, hne => by
    rw [List.foldlM_cons] at h
    rcases hs : deleteFileStep ch lang m f with _ | m₁
    · rw [hs] at h
      simp at h
    · rw [hs] at h
      replace h : rest.foldlM (deleteFileStep ch lang) m₁ = some m' := h
      have h1 := delFold_frame rest m₁ m' h
        (fun f' hf' => hne f' (List.mem_cons_of_mem f hf'))
      rw [h1]
      exact deleteFileStep_frame hs (hne f (List.mem_cons_self f rest))

theorem delFold_done {ch : Changes} {lang fn : String} {dks : List String} :
    ∀ (mfs : List String) (m m' : JVal),
      mfs.foldlM (deleteFileStep ch lang) m = some m' →
      fn ∈ mfs → lookupA ch.deletedKeys fn = some dks →
      ∀ fv, jsRead2O m' lang fn = some (some fv) →
        ∀ key ∈ dks, lookupPath fv (splitDots key) = none
  | [], _, _, _, hmem, _ => absurd hmem (List.not_mem_nil fn)
  | f :: rest, m, m', h, hmem, hdk => by
    rw [List.foldlM_cons] at h
    rcases hs : deleteFileStep ch lang m f with _ | m₁
    · rw [hs] at h
      simp at h
    · rw [hs] at h
      replace h : rest.foldlM (deleteFileStep ch lang) m₁ = some m' := h
      by_cases hfr : fn ∈ rest
      · exact delFold_done rest m₁ m' h hfr hdk
      · have hf : f = fn := by
          rcases List.mem_cons.mp hmem with hh | hh
          · exact hh.symm
          · exact absurd hh hfr
        subst hf
        have hdone := deleteFileStep_done hs hdk
        have hframe := @delFold_frame ch lang f rest m₁ m' h
          (fun f' hf' hh => hfr (by rw [← hh]; exact hf'))
        intro fv hfv
        rw [hframe] at hfv
        exact hdone fv hfv

theorem installFileStep_frame1 {lang' : String} {m m₁ : JVal}
    {p : String × JVal} (h : installFileStep lang' m p = some m₁)
    {lang : String} (hl : lang ≠ lang') :
    jsReadO m₁ lang = jsReadO m lang := by
  rw [installFileStep] at h
  rcases hc : jsRead2O m lang' p.1 with _ | cur
  · rw [hc] at h
    simp at h
  · rw [hc] at h
    rcases cur with _ | curv
    · replace h : jsSet2O m lang' p.1 p.2 = some m₁ := h
      exact jsSet2O_frame1 h hl
    · replace h : (if jsTruthy curv = true
          then jsSet2O m lang' p.1 (deepMerge curv p.2)
          else jsSet2O m lang' p.1 p.2) = some m₁ := h
      by_cases ht : jsTruthy curv = true
      · rw [if_pos ht] at h
        exact jsSet2O_frame1 h hl
      · rw [if_neg ht] at h
        exact jsSet2O_frame1 h hl

theorem installFold_frame {lang' lang : String} (hl : lang ≠ lang') :
    ∀ (ents : List (String × JVal)) (m m' : JVal),
      ents.foldlM (installFileStep lang') m = some m' →
      jsReadO m' lang = jsReadO m lang
  | [], m, m', h => by
    rw [List.foldlM_nil] at h
    rw [← Option.some_inj.mp h]
  | p :: rest, m, m', h => by
    rw [List.foldlM_cons] at h
    rcases hs : installFileStep lang' m p with _ | m₁
    · rw [hs] at h
      simp at h
    · rw [hs] at h
      replace h : rest.foldlM (installFileStep lang') m₁ = some m' := h
      rw [installFold_frame hl rest m₁ m' h]
      exact installFileStep_frame1 hs hl

theorem deleteFileStep_frame1 {ch : Changes} {lang' : String} {m m₁ : JVal}
    {f : String} (h : deleteFileStep ch lang' m f = some m₁)
    {lang : String} (hl : lang ≠ lang') :
    jsReadO m₁ lang = jsReadO m lang := by
  rw [deleteFileStep] at h
  rcases hdk : lookupA ch.deletedKeys f with _ | dks
  · rw [hdk] at h
    rw [← Option.some_inj.mp h]
  · rw [hdk] at h
    rcases hc : jsRead2O m lang' f with _ | cur
    · rw [hc] at h
      simp at h
    · rw [hc] at h
      rcases cur with _ | curv
      · rw [← Option.some_inj.mp h]
      · replace h : (if jsTruthy curv = true
            then (dks.foldlM deleteNestedKey curv >>= fun curv' =>
              jsSet2O m lang' f curv')
            else some m) = some m₁ := h
        by_cases ht : jsTruthy curv = true
        · rw [if_pos ht] at h
          rcases hfd : dks.foldlM deleteNestedKey curv with _ | curv'
          · rw [hfd] at h
            simp at h
          · rw [hfd] at h
            replace h : jsSet2O m lang' f curv' = some m₁ := h
            exact jsSet2O_frame1 h hl
        · rw [if_neg ht] at h
          rw [← Option.some_inj.mp h]

theorem delFold_frame1 {ch : Changes} {lang' lang : String} (hl : lang ≠ lang') :
    ∀ (mfs : List String) (m m' : JVal),
      mfs.foldlM (deleteFileStep ch lang') m = some m' →
      jsReadO m' lang = jsReadO m lang
  | [], m, m', h => by
    rw [List.foldlM_nil] at h
    rw [← Option.some_inj.mp h]
  | f :: rest, m, m', h => by
    rw [List.foldlM_cons] at h
    rcases hs : deleteFileStep ch lang' m f with _ | m₁
    · rw [hs] at h
      simp at h
    · rw [hs] at h
      replace h : rest.foldlM (deleteFileStep ch lang') m₁ = some m' := h
      rw [delFold_frame1 hl rest m₁ m' h]
      exact deleteFileStep_frame1 hs hl

theorem ensureLang_frame {m m₁ : JVal} {lang' : String}
    (h : ensureLang m lang' = some m₁) {lang : String} (hl : lang ≠ lang') :
    jsReadO m₁ lang = jsReadO m lang := by
  rw [ensureLang] at h
  rcases hml : jsReadO m lang' with _ | ml
  · rw [hml] at h
    simp at h
  · rw [hml] at h
    replace h : (if truthyO ml = true then some m
        else jsSetO m lang' (.obj [])) = some m₁ := h
    by_cases htr : truthyO ml = true
    · rw [if_pos htr] at h
      rw [← Option.some_inj.mp h]
    · rw [if_neg htr] at h
      exact jsSetO_frame h hl

theorem installLang_frame {newT m m₂ : JVal} {lang' : String}
    (h : installLang newT m lang' = some m₂) {lang : String}
    (hl : lang ≠ lang') : jsReadO m₂ lang = jsReadO m lang := by
  rw [installLang] at h
  rcases hnl : jsReadO newT lang' with _ | nl
  · rw [hnl] at h
    simp at h
  · rw [hnl] at h
    rcases nl with _ | nlv
    · replace h : some m = some m₂ := h
      rw [← Option.some_inj.mp h]
    · replace h : (if jsTruthy nlv = true
          then (entriesJs nlv).foldlM (installFileStep lang') m
          else some m) = some m₂ := h
      by_cases ht : jsTruthy nlv = true
      · rw [if_pos ht] at h
        exact installFold_frame hl (entriesJs nlv) m m₂ h
      · rw [if_neg ht] at h
        rw [← Option.some_inj.mp h]

theorem mergeLangStep_frame {newT : JVal} {ch : Changes} {m m' : JVal}
    {lang' : String} (h : mergeLangStep newT ch m lang' = some m')
    {lang : String} (hl : lang ≠ lang') :
    jsReadO m' lang = jsReadO m lang := by
  rw [mergeLangStep] at h
  rcases he : ensureLang m lang' with _ | m₁
  · rw [he] at h
    simp at h
  · rw [he] at h
    replace h : (installLang newT m₁ lang' >>= fun merged =>
      ch.modifiedFiles.foldlM (deleteFileStep ch lang') merged) = some m' := h
    rcases hi : installLang newT m₁ lang' with _ | m₂
    · rw [hi] at h
      simp at h
    · rw [hi] at h
      replace h : ch.modifiedFiles.foldlM (deleteFileStep ch lang') m₂ =
        some m' := h
      rw [delFold_frame1 hl ch.modifiedFiles m₂ m' h]
      rw [installLang_frame hi hl]
      exact ensureLang_frame he hl

theorem mergeLangStep_deletes {newT : JVal} {ch : Changes} {m m' : JVal}
    {lang fn : String} {dks : List String}
    (h : mergeLangStep newT ch m lang = some m')
    (hfn : fn ∈ ch.modifiedFiles)
    (hdk : lookupA ch.deletedKeys fn = some dks) :
    ∀ fv, jsRead2O m' lang fn = some (some fv) →
      ∀ key ∈ dks, lookupPath fv (splitDots key) = none := by
  rw [mergeLangStep] at h
  rcases he : ensureLang m lang with _ | m₁
  · rw [he] at h
    simp at h
  · rw [he] at h
    replace h : (installLang newT m₁ lang >>= fun merged =>
      ch.modifiedFiles.foldlM (deleteFileStep ch lang) merged) = some m' := h
    rcases hi : installLang newT m₁ lang with _ | m₂
    · rw [hi] at h
      simp at h
    · rw [hi] at h
      replace h : ch.modifiedFiles.foldlM (deleteFileStep ch lang) m₂ =
        some m' := h
      exact delFold_done ch.modifiedFiles m₂ m' h hfn hdk

theorem langFold_frame {newT : JVal} {ch : Changes} {lang : String} :
    ∀ (langs : List String) (m m' : JVal),
      langs.foldlM (mergeLangStep newT ch) m = some m' →
      (∀ l ∈ langs, l ≠ lang) →
      jsReadO m' lang = jsReadO m lang
  | [], m, m', h, _ => by
    rw [List.foldlM_nil] at h
    rw [← Option.some_inj.mp h]
  | l :: rest, m, m', h, hne => by
    rw [List.foldlM_cons] at h
    rcases hs : mergeLangStep newT ch m l with _ | m₁
    · rw [hs] at h
      simp at h
    · rw [hs] at h
      replace h : rest.foldlM (mergeLangStep newT ch) m₁ = some m' := h
      rw [langFold_frame rest m₁ m' h
        (fun l' hl' => hne l' (List.mem_cons_of_mem l hl'))]
      exact mergeLangStep_frame hs
        (fun hh => hne l (List.mem_cons_self l rest) hh.symm)

/-- C4 (counterexample): removing an already-absent path is *not*
always a no-op, and can raise.  `lookupPath` never descends arrays or
strings (arrays are atomic in the spec's Document model), so both paths
below are absent; yet the walk of `deleteNestedKey` does descend:
`"x.0.y"` on `{x: [{y: 1}]}` deletes `y` inside the array element, and
`"x.0"` on `{x: "hello"}` is a strict-mode `delete` of a
non-configurable string-index property, a thrown `TypeError`. -/
theorem c4_deletion_counterexample :
    lookupPath (JVal.obj [("x", JVal.arr [JVal.obj [("y", JVal.num 1)]])])
      (splitDots "x.0.y") = none ∧
    deleteNestedKey (JVal.obj [("x", JVal.arr [JVal.obj [("y", JVal.num 1)]])])
      "x.0.y" = some (JVal.obj [("x", JVal.arr [JVal.obj []])]) ∧
    JVal.obj [("x", JVal.arr [JVal.obj []])] ≠
      JVal.obj [("x", JVal.arr [JVal.obj [("y", JVal.num 1)]])] ∧
    lookupPath (JVal.obj [("x", JVal.str "hello")]) (splitDots "x.0") = none ∧
    deleteNestedKey (JVal.obj [("x", JVal.str "hello")]) "x.0" = none := by
  refine ⟨by decide, by decide, by decide, by decide, by decide⟩

/-- C4 (amended): after `mergeTranslations`, every deleted key recorded
for a modified file is unreachable in that file's merged document for
every target language; and `deleteNestedKey` on an already-absent path
whose components are ordinary mapping keys — not array/string index
keys and not `length` — returns a non-null document unchanged and
raises no error. -/
theorem c4_deletion_completeness :
    (∀ (doc : JVal) (key : String),
        (∀ k ∈ splitDots key, asIndex k = none ∧ k ≠ "length") →
        doc ≠ JVal.null →
        lookupPath doc (splitDots key) = none →
        deleteNestedKey doc key = some doc) ∧
    (∀ (existing newT : JVal) (ch : Changes) (result : JVal)
        (lang fn : String) (dks : List String) (fv : JVal),
        mergeTranslations existing newT ch = some result →
        lang ∈ targetLanguages →
        fn ∈ ch.modifiedFiles →
        lookupA ch.deletedKeys fn = some dks →
        jsRead2O result lang fn = some (some fv) →
        ∀ key ∈ dks, lookupPath fv (splitDots key) = none) := by
  constructor
  · exact fun doc key hkeys hnn h =>
      delete_absent_noop (splitDots key) doc hkeys hnn h
  · intro existing newT ch result lang fn dks fv hm hlang hfn hdk hread key hkey
    obtain ⟨l₁, l₂, hsplit⟩ := List.append_of_mem hlang
    rw [mergeTranslations, hsplit, List.foldlM_append] at hm
    rcases h1 : l₁.foldlM (mergeLangStep newT ch) existing with _ | m₁
    · rw [h1] at hm
      simp at hm
    · rw [h1] at hm
      replace hm : (lang :: l₂).foldlM (mergeLangStep newT ch) m₁ =
        some result := hm
      rw [List.foldlM_cons] at hm
      rcases h2 : mergeLangStep newT ch m₁ lang with _ | m₂
      · rw [h2] at hm
        simp at hm
      · rw [h2] at hm
        replace hm : l₂.foldlM (mergeLangStep newT ch) m₂ = some result := hm
        have hnodup : targetLanguages.Nodup := by decide
        rw [hsplit] at hnodup
        have hl₂ : ∀ l ∈ l₂, l ≠ lang := by
          have hcons : (lang :: l₂).Nodup := hnodup.of_append_right
          have hnl : lang ∉ l₂ := (List.nodup_cons.mp hcons).1
          intro l hl hh
          rw [hh] at hl
          exact hnl hl
        have hframe := langFold_frame l₂ m₂ result hm hl₂
        rw [jsRead2O_congr hframe fn] at hread
        exact mergeLangStep_deletes h2 hfn hdk fv hread key hkey

/-- C4 (witness): the Scenario C deletion, `farewell` removed from the
Spanish translation of `a.json`. -/
theorem c4_deletion_completeness_witness :
    lookupPath (JVal.obj [("greeting", JVal.str "Hola")])
      (splitDots "farewell") = none ∧
    deleteNestedKey (JVal.obj [("greeting", JVal.str "Hola")]) "farewell" =
      some (JVal.obj [("greeting", JVal.str "Hola")]) := by
  have hnoop := c4_deletion_completeness.1
    (JVal.obj [("greeting", JVal.str "Hola")]) "farewell"
    (by decide) (by decide) (by decide)
  have hdel := c4_deletion_completeness.2
    (JVal.obj [("de", JVal.obj []),
      ("es", JVal.obj [("a.json", JVal.obj [("greeting", JVal.str "Hola"),
        ("farewell", JVal.str "Adios")])]),
      ("fr", JVal.obj []), ("fr-ca", JVal.obj []), ("ja", JVal.obj []),
      ("ko", JVal.obj []), ("nl", JVal.obj []), ("pt", JVal.obj []),
      ("zh-cn", JVal.obj []), ("zh-hk", JVal.obj []), ("it", JVal.obj [])])
    (JVal.obj [])
    { hasChanges := true, newFiles := [], modifiedFiles := ["a.json"],
      newKeys := [("a.json", [])], modifiedKeys := [("a.json", [])],
      deletedKeys := [("a.json", ["farewell"])] }
    (JVal.obj [("de", JVal.obj []),
      ("es", JVal.obj [("a.json", JVal.obj [("greeting", JVal.str "Hola")])]),
      ("fr", JVal.obj []), ("fr-ca", JVal.obj []), ("ja", JVal.obj []),
      ("ko", JVal.obj []), ("nl", JVal.obj []), ("pt", JVal.obj []),
      ("zh-cn", JVal.obj []), ("zh-hk", JVal.obj []), ("it", JVal.obj [])])
    "es" "a.json" ["farewell"] (JVal.obj [("greeting", JVal.str "Hola")])
    (by decide) (by decide) (by decide) (by decide) (by decide)
    "farewell" (by decide)
  exact ⟨hdel, hnoop⟩

theorem installFileStep_frame2 {lang : String} {m m₁ : JVal}
    {p : String × JVal} (h : installFileStep lang m p = some m₁)
    {d : String} (hd : p.1 ≠ d) :
    jsRead2O m₁ lang d = jsRead2O m lang d := by
  rw [installFileStep] at h
  rcases hc : jsRead2O m lang p.1 with _ | cur
  · rw [hc] at h
    simp at h
  · rw [hc] at h
    rcases cur with _ | curv
    · replace h : jsSet2O m lang p.1 p.2 = some m₁ := h
      exact jsSet2O_frame2 h fun hh => hd hh.symm
    · replace h : (if jsTruthy curv = true
          then jsSet2O m lang p.1 (deepMerge curv p.2)
          else jsSet2O m lang p.1 p.2) = some m₁ := h
      by_cases ht : jsTruthy curv = true
      · rw [if_pos ht] at h
        exact jsSet2O_frame2 h fun hh => hd hh.symm
      · rw [if_neg ht] at h
        exact jsSet2O_frame2 h fun hh => hd hh.symm

theorem installFold_frame2 {lang d : String} :
    ∀ (ents : List (String × JVal)) (m m' : JVal),
      ents.foldlM (installFileStep lang) m = some m' →
      (∀ p ∈ ents, p.1 ≠ d) →
      jsRead2O m' lang d = jsRead2O m lang d
  | [], m, m', h, _ => by
    rw [List.foldlM_nil] at h
    rw [← Option.some_inj.mp h]
  | p :: rest, m, m', h, hne => by
    rw [List.foldlM_cons] at h
    rcases hs : installFileStep lang m p with _ | m₁
    · rw [hs] at h
      simp at h
    · rw [hs] at h
      replace h : rest.foldlM (installFileStep lang) m₁ = some m' := h
      rw [installFold_frame2 rest m₁ m' h
        (fun q hq => hne q (List.mem_cons_of_mem p hq))]
      exact installFileStep_frame2 hs (hne p (List.mem_cons_self p rest))

theorem ensureLang_truthy {m : JVal} {lang : String} {ml : Option JVal}
    (hml : jsReadO m lang = some ml) (htr : truthyO ml = true) :
    ensureLang m lang = some m := by
  rw [ensureLang, hml]
  replace htr : (if truthyO ml = true then some m
      else jsSetO m lang (.obj [])) = some m := by rw [if_pos htr]
  exact htr

theorem installLang_skip {newT m m₂ : JVal} {lang d : String}
    (h : installLang newT m lang = some m₂)
    (hkeys : ∀ nlv, jsReadO newT lang = some (some nlv) →
      lookupA (entriesJs nlv) d = none) :
    jsRead2O m₂ lang d = jsRead2O m lang d := by
  rw [installLang] at h
  rcases hnl : jsReadO newT lang with _ | nl
  · rw [hnl] at h
    simp at h
  · rw [hnl] at h
    rcases nl with _ | nlv
    · replace h : some m = some m₂ := h
      rw [← Option.some_inj.mp h]
    · replace h : (if jsTruthy nlv = true
          then (entriesJs nlv).foldlM (installFileStep lang) m
          else some m) = some m₂ := h
      by_cases ht : jsTruthy nlv = true
      · rw [if_pos ht] at h
        refine installFold_frame2 (entriesJs nlv) m m₂ h ?_
        intro p hp hpd
        have hdk : d ∉ keysA (entriesJs nlv) :=
          (lookupA_eq_none _ d).mp (hkeys nlv hnl)
        apply hdk
        rw [← hpd]
        exact List.mem_map.mpr ⟨p, hp, rfl⟩
      · rw [if_neg ht] at h
        rw [← Option.some_inj.mp h]

/-- C10: a document present only in the previous snapshot contributes
nothing to change detection (removing it from the snapshot leaves the
ChangeSet untouched, so it cannot set `hasChanges`), and the merge
leaves its previously translated content in place for every target
language. -/
theorem c10_stale_document_preserved :
    (∀ (pf cf : List (String × JVal)) (d : String),
        lookupA cf d = none →
        detectChanges (.obj (pf.filter fun p => p.1 ≠ d)) (.obj cf) =
          detectChanges (.obj pf) (.obj cf)) ∧
    (∀ (existing newT : JVal) (ch : Changes) (result : JVal)
        (lang d : String),
        mergeTranslations existing newT ch = some result →
        lang ∈ targetLanguages →
        truthyO (jsGet existing lang) = true →
        d ∉ ch.modifiedFiles →
        (∀ nlv, jsReadO newT lang = some (some nlv) →
          lookupA (entriesJs nlv) d = none) →
        jsRead2O result lang d = jsRead2O existing lang d) := by
  constructor
  · intro pf cf d hd
    have hget : ∀ p ∈ cf,
        jsGet (JVal.obj (pf.filter fun q => q.1 ≠ d)) p.1 =
          jsGet (JVal.obj pf) p.1 := by
      intro p hp
      show lookupA (pf.filter fun q => q.1 ≠ d) p.1 = lookupA pf p.1
      refine lookupA_filter_ne pf ?_
      intro hh
      have : d ∈ keysA cf := by
        rw [← hh]
        exact List.mem_map.mpr ⟨p, hp, rfl⟩
      exact (lookupA_eq_none cf d).mp hd this
    have hnf : (entriesJs (JVal.obj cf)).filterMap (fun p =>
        if truthyO (jsGet (JVal.obj (pf.filter fun q => q.1 ≠ d)) p.1)
        then none else some p.1) =
        (entriesJs (JVal.obj cf)).filterMap (fun p =>
        if truthyO (jsGet (JVal.obj pf) p.1) then none else some p.1) := by
      refine List.filterMap_congr ?_
      intro p hp
      rw [hget p hp]
    have hmods : (entriesJs (JVal.obj cf)).filterMap (fun p =>
        match jsGet (JVal.obj (pf.filter fun q => q.1 ≠ d)) p.1 with
        | some prevDoc =>
          if jsTruthy prevDoc then
            if (detectFileChanges prevDoc p.2).hasChanges
              then some (p.1, detectFileChanges prevDoc p.2) else none
          else none
        | none => none) =
        (entriesJs (JVal.obj cf)).filterMap (fun p =>
        match jsGet (JVal.obj pf) p.1 with
        | some prevDoc =>
          if jsTruthy prevDoc then
            if (detectFileChanges prevDoc p.2).hasChanges
              then some (p.1, detectFileChanges prevDoc p.2) else none
          else none
        | none => none) := by
      refine List.filterMap_congr ?_
      intro p hp
      rw [hget p hp]
    show Changes.mk _ _ _ _ _ _ = Changes.mk _ _ _ _ _ _
    rw [hnf, hmods]
  · intro existing newT ch result lang d hm hlang htr hd hkeys
    obtain ⟨l₁, l₂, hsplit⟩ := List.append_of_mem hlang
    have hnodup : targetLanguages.Nodup := by decide
    rw [hsplit] at hnodup
    have hl₁ : ∀ l ∈ l₁, l ≠ lang := by
      intro l hl hh
      have hdisj := (List.nodup_append.mp hnodup).2.2
      refine hdisj hl ?_
      rw [hh]
      exact List.mem_cons_self lang l₂
    have hl₂ : ∀ l ∈ l₂, l ≠ lang := by
      have hcons : (lang :: l₂).Nodup := hnodup.of_append_right
      have hnl : lang ∉ l₂ := (List.nodup_cons.mp hcons).1
      intro l hl hh
      rw [hh] at hl
      exact hnl hl
    rw [mergeTranslations, hsplit, List.foldlM_append] at hm
    rcases h1 : l₁.foldlM (mergeLangStep newT ch) existing with _ | m₁
    · rw [h1] at hm
      simp at hm
    · rw [h1] at hm
      replace hm : (lang :: l₂).foldlM (mergeLangStep newT ch) m₁ =
        some result := hm
      rw [List.foldlM_cons] at hm
      rcases h2 : mergeLangStep newT ch m₁ lang with _ | m₂
      · rw [h2] at hm
        simp at hm
      · rw [h2] at hm
        replace hm : l₂.foldlM (mergeLangStep newT ch) m₂ = some result := hm
        have hf₁ : jsReadO m₁ lang = jsReadO existing lang :=
          langFold_frame l₁ existing m₁ h1 hl₁
        have hf₂ : jsReadO result lang = jsReadO m₂ lang :=
          langFold_frame l₂ m₂ result hm hl₂
        rw [jsRead2O_congr hf₂ d]
        have hread : jsRead2O m₂ lang d = jsRead2O m₁ lang d := by
          rw [mergeLangStep] at h2
          rcases he : ensureLang m₁ lang with _ | ma
          · rw [he] at h2
            simp at h2
          · rw [he] at h2
            replace h2 : (installLang newT ma lang >>= fun merged =>
              ch.modifiedFiles.foldlM (deleteFileStep ch lang) merged) =
              some m₂ := h2
            rcases hi : installLang newT ma lang with _ | mb
            · rw [hi] at h2
              simp at h2
            · rw [hi] at h2
              replace h2 : ch.modifiedFiles.foldlM (deleteFileStep ch lang)
                mb = some m₂ := h2
              have hobj : ∃ ml, jsReadO existing lang = some ml ∧
                  truthyO ml = true := by
                cases existing with
                | obj fs => exact ⟨lookupA fs lang, rfl, htr⟩
                | null => exact absurd htr (by simp [jsGet, truthyO])
                | str s => exact absurd htr (by simp [jsGet, truthyO])
                | num n => exact absurd htr (by simp [jsGet, truthyO])
                | bool b => exact absurd htr (by simp [jsGet, truthyO])
                | arr xs => exact absurd htr (by simp [jsGet, truthyO])
              obtain ⟨ml, hml, hmltr⟩ := hobj
              have hma : ma = m₁ := by
                have := @ensureLang_truthy m₁ lang ml
                  (by rw [hf₁]; exact hml) hmltr
                rw [this] at he
                exact (Option.some_inj.mp he).symm
              subst hma
              have hdel : jsRead2O m₂ lang d = jsRead2O mb lang d :=
                delFold_frame ch.modifiedFiles mb m₂ h2
                  (fun f' hf' hh => hd (hh ▸ hf'))
              rw [hdel]
              exact installLang_skip hi hkeys
        rw [hread]
        exact jsRead2O_congr hf₁ d

/-- C10 (witness): `b.json` exists only in the previous snapshot; the
ChangeSet ignores it and the French translation of `b.json` survives the
merge. -/
theorem c10_stale_document_preserved_witness :
    lookupA [("a.json", JVal.obj [])] "b.json" = none ∧
    detectChanges
      (JVal.obj (([("b.json", JVal.obj [("greeting", JVal.str "Bonjour")])]).filter
        fun p => p.1 ≠ "b.json"))
      (JVal.obj [("a.json", JVal.obj [])]) =
      detectChanges
        (JVal.obj [("b.json", JVal.obj [("greeting", JVal.str "Bonjour")])])
        (JVal.obj [("a.json", JVal.obj [])]) ∧
    jsRead2O (JVal.obj [("de", JVal.obj []),
      ("es", JVal.obj []),
      ("fr", JVal.obj [("b.json", JVal.obj [("greeting", JVal.str "Bonjour")])]),
      ("fr-ca", JVal.obj []), ("ja", JVal.obj []), ("ko", JVal.obj []),
      ("nl", JVal.obj []), ("pt", JVal.obj []), ("zh-cn", JVal.obj []),
      ("zh-hk", JVal.obj []), ("it", JVal.obj [])]) "fr" "b.json" =
    jsRead2O (JVal.obj [("de", JVal.obj []),
      ("es", JVal.obj []),
      ("fr", JVal.obj [("b.json", JVal.obj [("greeting", JVal.str "Bonjour")])]),
      ("fr-ca", JVal.obj []), ("ja", JVal.obj []), ("ko", JVal.obj []),
      ("nl", JVal.obj []), ("pt", JVal.obj []), ("zh-cn", JVal.obj []),
      ("zh-hk", JVal.obj []), ("it", JVal.obj [])]) "fr" "b.json" := by
  refine ⟨by decide, ?_, ?_⟩
  · exact c10_stale_document_preserved.1
      [("b.json", JVal.obj [("greeting", JVal.str "Bonjour")])]
      [("a.json", JVal.obj [])] "b.json" (by decide)
  · exact c10_stale_document_preserved.2
      (JVal.obj [("de", JVal.obj []),
        ("es", JVal.obj []),
        ("fr", JVal.obj [("b.json", JVal.obj [("greeting", JVal.str "Bonjour")])]),
        ("fr-ca", JVal.obj []), ("ja", JVal.obj []), ("ko", JVal.obj []),
        ("nl", JVal.obj []), ("pt", JVal.obj []), ("zh-cn", JVal.obj []),
        ("zh-hk", JVal.obj []), ("it", JVal.obj [])])
      (JVal.obj [])
      { hasChanges := false, newFiles := [], modifiedFiles := [],
        newKeys := [], modifiedKeys := [], deletedKeys := [] }
      (JVal.obj [("de", JVal.obj []),
        ("es", JVal.obj []),
        ("fr", JVal.obj [("b.json", JVal.obj [("greeting", JVal.str "Bonjour")])]),
        ("fr-ca", JVal.obj []), ("ja", JVal.obj []), ("ko", JVal.obj []),
        ("nl", JVal.obj []), ("pt", JVal.obj []), ("zh-cn", JVal.obj []),
        ("zh-hk", JVal.obj []), ("it", JVal.obj [])])
      "fr" "b.json" (by decide) (by decide) (by decide) (by decide)
      (by intro nlv h; simp [jsReadO, lookupA] at h)

/-- C1: the incremental processor performs no validation of the
response's language keys.  A response that omits the requested language
`"fr"` does not fail the run: `mergeAndSave` completes (`some`, no
`TypeError` and no error of any kind is modelled or raised on the
merge/save path, lines 601–638 and 780–800) and files are written — for
`"es"` from the response and for `"fr"` from the stale existing
translation.  The spec's `MissingLanguageError` and "no files are
written" never happen in this class. -/
theorem c1_no_missing_language_error :
    mergeAndSave
      (JVal.obj [("de", JVal.obj []),
        ("es", JVal.obj []),
        ("fr", JVal.obj [("app.json", JVal.obj [("greeting", JVal.str "Bonjour")])]),
        ("fr-ca", JVal.obj []), ("ja", JVal.obj []), ("ko", JVal.obj []),
        ("nl", JVal.obj []), ("pt", JVal.obj []), ("zh-cn", JVal.obj []),
        ("zh-hk", JVal.obj []), ("it", JVal.obj [])])
      (JVal.obj [("es", JVal.obj [("app.json",
        JVal.obj [("greeting", JVal.str "Hola2")])])])
      { hasChanges := true, newFiles := [], modifiedFiles := ["app.json"],
        newKeys := [("app.json", [])],
        modifiedKeys := [("app.json",
          [("greeting", JVal.str "Hi", JVal.str "Hello")])],
        deletedKeys := [("app.json", [])] } =
      some [("es", "app.json", JVal.obj [("greeting", JVal.str "Hola2")]),
        ("fr", "app.json", JVal.obj [("greeting", JVal.str "Bonjour")])] ∧
    ("fr", "app.json", JVal.obj [("greeting", JVal.str "Bonjour")]) ∈
      [("es", "app.json", JVal.obj [("greeting", JVal.str "Hola2")]),
        ("fr", "app.json", JVal.obj [("greeting", JVal.str "Bonjour")])] := by
  constructor
  · decide
  · decide

end TranslatePlatform

namespace TranslatePlatform

theorem lookupL_nil (l : Nat) : lookupL [] l = none := rfl

theorem lookupL_cons (l' : Nat) (nd : Node) (rest : List (Nat × Node)) (l : Nat) :
    lookupL ((l', nd) :: rest) l = if l' = l then some nd else lookupL rest l := rfl

theorem insertL_nil (l : Nat) (nd : Node) : insertL [] l nd = [(l, nd)] := rfl

theorem insertL_cons (l' : Nat) (nd' : Node) (rest : List (Nat × Node))
    (l : Nat) (nd : Node) :
    insertL ((l', nd') :: rest) l nd =
      if l' = l then (l', nd) :: rest else (l', nd') :: insertL rest l nd := rfl

theorem lookupL_insertL_self (mem : List (Nat × Node)) (l : Nat) (nd : Node) :
    lookupL (insertL mem l nd) l = some nd := by
  induction mem with
  | nil => simp [insertL_nil, lookupL_cons]
  | cons p rest ih =>
    obtain ⟨l', nd'⟩ := p
    rw [insertL_cons]
    by_cases h : l' = l
    · rw [if_pos h, lookupL_cons, if_pos h]
    · rw [if_neg h, lookupL_cons, if_neg h]
      exact ih

theorem lookupL_insertL_ne (mem : List (Nat × Node)) {l l₀ : Nat} (nd : Node)
    (h : l₀ ≠ l) : lookupL (insertL mem l nd) l₀ = lookupL mem l₀ := by
  induction mem with
  | nil =>
    rw [insertL_nil, lookupL_cons, lookupL_nil, if_neg fun hh => h hh.symm]
  | cons p rest ih =>
    obtain ⟨l', nd'⟩ := p
    rw [insertL_cons]
    by_cases hl : l' = l
    · rw [if_pos hl, lookupL_cons, lookupL_cons]
      subst hl
      rw [if_neg fun hh => h hh.symm, if_neg fun hh => h hh.symm]
    · rw [if_neg hl, lookupL_cons, lookupL_cons]
      by_cases hl0 : l' = l₀
      · rw [if_pos hl0, if_pos hl0]
      · rw [if_neg hl0, if_neg hl0]
        exact ih

theorem lookupL_mem {mem : List (Nat × Node)} {l : Nat} {nd : Node}
    (h : lookupL mem l = some nd) : (l, nd) ∈ mem := by
  induction mem with
  | nil => simp [lookupL_nil] at h
  | cons p rest ih =>
    obtain ⟨l', nd'⟩ := p
    rw [lookupL_cons] at h
    by_cases hl : l' = l
    · rw [if_pos hl] at h
      subst hl
      rw [Option.some_inj.mp h]
      exact List.mem_cons_self _ _
    · rw [if_neg hl] at h
      exact List.mem_cons_of_mem _ (ih h)

theorem mem_insertP {fields : List (String × Nat)} {k : String} {l : Nat}
    {p : String × Nat} (h : p ∈ insertP fields k l) :
    p ∈ fields ∨ p = (k, l) := by
  induction fields with
  | nil =>
    rw [insertP] at h
    rcases List.mem_singleton.mp h with hh
    exact Or.inr hh
  | cons q rest ih =>
    obtain ⟨k', l'⟩ := q
    rw [insertP] at h
    by_cases hk : k' = k
    · rw [if_pos hk] at h
      rcases List.mem_cons.mp h with hh | hh
      · subst hk
        exact Or.inr (by rw [hh])
      · exact Or.inl (List.mem_cons_of_mem _ hh)
    · rw [if_neg hk] at h
      rcases List.mem_cons.mp h with hh | hh
      · exact Or.inl (by rw [hh]; exact List.mem_cons_self _ _)
      · rcases ih hh with h2 | h2
        · exact Or.inl (List.mem_cons_of_mem _ h2)
        · exact Or.inr h2

theorem lookupA_mem_nat {fields : List (String × Nat)} {k : String} {l : Nat}
    (h : lookupA fields k = some l) : (k, l) ∈ fields := by
  induction fields with
  | nil => exact absurd h (by rw [show lookupA ([] : List (String × Nat)) k = none from rfl]; simp)
  | cons p rest ih =>
    obtain ⟨k', l'⟩ := p
    rw [lookupA_cons] at h
    by_cases hk : k' = k
    · rw [if_pos hk] at h
      subst hk
      rw [← Option.some_inj.mp h]
      exact List.mem_cons_self _ _
    · rw [if_neg hk] at h
      exact List.mem_cons_of_mem _ (ih h)

mutual

theorem allocVal_spec : ∀ (v : JVal) (s : Store),
    s.next ≤ (allocVal v s).2.next ∧
    (s.next ≤ (allocVal v s).1 ∧ (allocVal v s).1 < (allocVal v s).2.next) ∧
    (∀ l₀, l₀ < s.next → lookupL (allocVal v s).2.mem l₀ = lookupL s.mem l₀) ∧
    (∃ nd, lookupL (allocVal v s).2.mem (allocVal v s).1 = some nd ∧
      ∀ l' ∈ nodeLocs nd, s.next ≤ l' ∧ l' < (allocVal v s).1)
  | .str t, s => by
    refine ⟨by simp [allocVal], ⟨le_refl _, by simp [allocVal]⟩, ?_, ?_⟩
    · intro l₀ hl₀
      show lookupL (insertL s.mem s.next (.nstr t)) l₀ = lookupL s.mem l₀
      exact lookupL_insertL_ne s.mem _ (Nat.ne_of_lt hl₀)
    · refine ⟨.nstr t, ?_, by simp [nodeLocs]⟩
      show lookupL (insertL s.mem s.next (.nstr t)) s.next = some (.nstr t)
      exact lookupL_insertL_self s.mem s.next _
  | .num n, s => by
    refine ⟨by simp [allocVal], ⟨le_refl _, by simp [allocVal]⟩, ?_, ?_⟩
    · intro l₀ hl₀
      show lookupL (insertL s.mem s.next (.nnum n)) l₀ = lookupL s.mem l₀
      exact lookupL_insertL_ne s.mem _ (Nat.ne_of_lt hl₀)
    · refine ⟨.nnum n, ?_, by simp [nodeLocs]⟩
      show lookupL (insertL s.mem s.next (.nnum n)) s.next = some (.nnum n)
      exact lookupL_insertL_self s.mem s.next _
  | .bool b, s => by
    refine ⟨by simp [allocVal], ⟨le_refl _, by simp [allocVal]⟩, ?_, ?_⟩
    · intro l₀ hl₀
      show lookupL (insertL s.mem s.next (.nbool b)) l₀ = lookupL s.mem l₀
      exact lookupL_insertL_ne s.mem _ (Nat.ne_of_lt hl₀)
    · refine ⟨.nbool b, ?_, by simp [nodeLocs]⟩
      show lookupL (insertL s.mem s.next (.nbool b)) s.next = some (.nbool b)
      exact lookupL_insertL_self s.mem s.next _
  | .null, s => by
    refine ⟨by simp [allocVal], ⟨le_refl _, by simp [allocVal]⟩, ?_, ?_⟩
    · intro l₀ hl₀
      show lookupL (insertL s.mem s.next .nnull) l₀ = lookupL s.mem l₀
      exact lookupL_insertL_ne s.mem _ (Nat.ne_of_lt hl₀)
    · refine ⟨.nnull, ?_, by simp [nodeLocs]⟩
      show lookupL (insertL s.mem s.next .nnull) s.next = some .nnull
      exact lookupL_insertL_self s.mem s.next _
  | .arr xs, s => by
    obtain ⟨h1, h2, h3⟩ := allocList_spec xs s
    refine ⟨?_, ⟨?_, ?_⟩, ?_, ?_⟩
    · show s.next ≤ (allocList xs s).2.next + 1
      omega
    · show s.next ≤ (allocList xs s).2.next
      exact h1
    · show (allocList xs s).2.next < (allocList xs s).2.next + 1
      omega
    · intro l₀ hl₀
      show lookupL (insertL (allocList xs s).2.mem (allocList xs s).2.next
        (.narr (allocList xs s).1)) l₀ = lookupL s.mem l₀
      rw [lookupL_insertL_ne _ _ (by omega)]
      exact h3 l₀ hl₀
    · refine ⟨.narr (allocList xs s).1, ?_, ?_⟩
      · show lookupL (insertL (allocList xs s).2.mem (allocList xs s).2.next
          (.narr (allocList xs s).1)) (allocList xs s).2.next =
          some (.narr (allocList xs s).1)
        exact lookupL_insertL_self _ _ _
      · intro l' hl'
        show s.next ≤ l' ∧ l' < (allocList xs s).2.next
        exact h2 l' hl'
  | .obj fs, s => by
    obtain ⟨h1, h2, h3⟩ := allocFields_spec fs s
    refine ⟨?_, ⟨?_, ?_⟩, ?_, ?_⟩
    · show s.next ≤ (allocFields fs s).2.next + 1
      omega
    · show s.next ≤ (allocFields fs s).2.next
      exact h1
    · show (allocFields fs s).2.next < (allocFields fs s).2.next + 1
      omega
    · intro l₀ hl₀
      show lookupL (insertL (allocFields fs s).2.mem (allocFields fs s).2.next
        (.nobj (allocFields fs s).1)) l₀ = lookupL s.mem l₀
      rw [lookupL_insertL_ne _ _ (by omega)]
      exact h3 l₀ hl₀
    · refine ⟨.nobj (allocFields fs s).1, ?_, ?_⟩
      · show lookupL (insertL (allocFields fs s).2.mem (allocFields fs s).2.next
          (.nobj (allocFields fs s).1)) (allocFields fs s).2.next =
          some (.nobj (allocFields fs s).1)
        exact lookupL_insertL_self _ _ _
      · intro l' hl'
        show s.next ≤ l' ∧ l' < (allocFields fs s).2.next
        obtain ⟨p, hp, hpl⟩ := List.mem_map.mp hl'
        obtain ⟨hge, hlt⟩ := h2 p hp
        rw [← hpl]
        exact ⟨hge, hlt⟩

theorem allocList_spec : ∀ (vs : List JVal) (s : Store),
    s.next ≤ (allocList vs s).2.next ∧
    (∀ l ∈ (allocList vs s).1, s.next ≤ l ∧ l < (allocList vs s).2.next) ∧
    (∀ l₀, l₀ < s.next → lookupL (allocList vs s).2.mem l₀ = lookupL s.mem l₀)
  | [], s => ⟨le_refl _, by simp [allocList], fun _ _ => rfl⟩
  | v :: vs, s => by
    obtain ⟨hv1, ⟨hv2a, hv2b⟩, hv3, _⟩ := allocVal_spec v s
    obtain ⟨hl1, hl2, hl3⟩ := allocList_spec vs (allocVal v s).2
    refine ⟨?_, ?_, ?_⟩
    · show s.next ≤ (allocList vs (allocVal v s).2).2.next
      omega
    · intro l hl
      show s.next ≤ l ∧ l < (allocList vs (allocVal v s).2).2.next
      rcases List.mem_cons.mp hl with hh | hh
      · subst hh
        omega
      · obtain ⟨ha, hb⟩ := hl2 l hh
        omega
    · intro l₀ hl₀
      show lookupL (allocList vs (allocVal v s).2).2.mem l₀ = lookupL s.mem l₀
      rw [hl3 l₀ (by omega)]
      exact hv3 l₀ hl₀

theorem allocFields_spec : ∀ (fs : List (String × JVal)) (s : Store),
    s.next ≤ (allocFields fs s).2.next ∧
    (∀ p ∈ (allocFields fs s).1, s.next ≤ p.2 ∧
      p.2 < (allocFields fs s).2.next) ∧
    (∀ l₀, l₀ < s.next → lookupL (allocFields fs s).2.mem l₀ = lookupL s.mem l₀)
  | [], s => ⟨le_refl _, by simp [allocFields], fun _ _ => rfl⟩
  | kv :: fs, s => by
    obtain ⟨hv1, ⟨hv2a, hv2b⟩, hv3, _⟩ := allocVal_spec kv.2 s
    obtain ⟨hl1, hl2, hl3⟩ := allocFields_spec fs (allocVal kv.2 s).2
    refine ⟨?_, ?_, ?_⟩
    · show s.next ≤ (allocFields fs (allocVal kv.2 s).2).2.next
      omega
    · intro p hp
      show s.next ≤ p.2 ∧ p.2 < (allocFields fs (allocVal kv.2 s).2).2.next
      rcases List.mem_cons.mp hp with hh | hh
      · rw [hh]
        show s.next ≤ (allocVal kv.2 s).1 ∧ _
        omega
      · obtain ⟨ha, hb⟩ := hl2 p hh
        omega
    · intro l₀ hl₀
      show lookupL (allocFields fs (allocVal kv.2 s).2).2.mem l₀ =
        lookupL s.mem l₀
      rw [hl3 l₀ (by omega)]
      exact hv3 l₀ hl₀

end

theorem mapM_readVal_congr {s₁ s₂ : Store} {f : Nat} :
    ∀ (xs : List Nat), (∀ x ∈ xs, readVal f s₂ x = readVal f s₁ x) →
      xs.mapM (readVal f s₂) = xs.mapM (readVal f s₁)
  | [], _ => rfl
  | x :: xs, h => by
    rw [List.mapM_cons, List.mapM_cons, h x (List.mem_cons_self x xs),
      mapM_readVal_congr xs (fun y hy => h y (List.mem_cons_of_mem x hy))]

theorem mapM_readF_congr {s₁ s₂ : Store} {f : Nat} :
    ∀ (fs : List (String × Nat)),
      (∀ p ∈ fs, readVal f s₂ p.2 = readVal f s₁ p.2) →
      fs.mapM (fun p => (readVal f s₂ p.2).map fun v => (p.1, v)) =
        fs.mapM (fun p => (readVal f s₁ p.2).map fun v => (p.1, v))
  | [], _ => rfl
  | p :: fs, h => by
    rw [List.mapM_cons, List.mapM_cons, h p (List.mem_cons_self p fs),
      mapM_readF_congr fs (fun q hq => h q (List.mem_cons_of_mem p hq))]

theorem readVal_frame {s₁ s₂ : Store} {n : Nat}
    (hlow : ∀ l, l < n → lookupL s₂.mem l = lookupL s₁.mem l)
    (hclosed : ∀ l nd, l < n → lookupL s₁.mem l = some nd →
      ∀ l' ∈ nodeLocs nd, l' < n) :
    ∀ (fuel l : Nat), l < n → readVal fuel s₂ l = readVal fuel s₁ l
  | 0, _, _ => rfl
  | fuel + 1, l, hl => by
    show (match lookupL s₂.mem l with
      | some (Node.nstr t) => some (JVal.str t)
      | some (Node.nnum n) => some (JVal.num n)
      | some (Node.nbool b) => some (JVal.bool b)
      | some Node.nnull => some JVal.null
      | some (Node.narr xs) => (xs.mapM (readVal fuel s₂)).map JVal.arr
      | some (Node.nobj fields) =>
        (fields.mapM (fun p => (readVal fuel s₂ p.2).map
          fun v => (p.1, v))).map JVal.obj
      | none => none : Option JVal) =
      (match lookupL s₁.mem l with
      | some (Node.nstr t) => some (JVal.str t)
      | some (Node.nnum n) => some (JVal.num n)
      | some (Node.nbool b) => some (JVal.bool b)
      | some Node.nnull => some JVal.null
      | some (Node.narr xs) => (xs.mapM (readVal fuel s₁)).map JVal.arr
      | some (Node.nobj fields) =>
        (fields.mapM (fun p => (readVal fuel s₁ p.2).map
          fun v => (p.1, v))).map JVal.obj
      | none => none : Option JVal)
    rw [hlow l hl]
    rcases hnd : lookupL s₁.mem l with _ | nd
    · rfl
    · cases nd with
      | nstr t => rfl
      | nnum n => rfl
      | nbool b => rfl
      | nnull => rfl
      | narr xs =>
        show (xs.mapM (readVal fuel s₂)).map JVal.arr =
          (xs.mapM (readVal fuel s₁)).map JVal.arr
        rw [mapM_readVal_congr xs (fun x hx =>
          readVal_frame hlow hclosed fuel x
            (hclosed l (.narr xs) hl hnd x hx))]
      | nobj fields =>
        show (fields.mapM (fun p => (readVal fuel s₂ p.2).map
            fun v => (p.1, v))).map JVal.obj =
          (fields.mapM (fun p => (readVal fuel s₁ p.2).map
            fun v => (p.1, v))).map JVal.obj
        rw [mapM_readF_congr fields (fun p hp =>
          readVal_frame hlow hclosed fuel p.2
            (hclosed l (.nobj fields) hl hnd p.2
              (List.mem_map.mpr ⟨p, hp, rfl⟩)))]

theorem readVal_some_lt {fuel : Nat} {s : Store} {l : Nat} {v : JVal}
    (h : readVal fuel s l = some v) (hwf : StoreWF s) : l < s.next := by
  cases fuel with
  | zero => exact absurd h (by rw [readVal]; simp)
  | succ f =>
    rcases hnd : lookupL s.mem l with _ | nd
    · rw [readVal, hnd] at h
      simp at h
    · exact (hwf (l, nd) (lookupL_mem hnd)).1

theorem writeAlloc_inv {s₀ : Store} {root : Nat} {st : Store}
    (hinv : MergeInv s₀ root st) (hroot : s₀.next ≤ root)
    {llang : Nat} (hge : s₀.next ≤ llang) (hlt : llang < st.next)
    (hne : llang ≠ root) (val : JVal) (nd : Node) :
    MergeInv s₀ root (writeL (allocVal val st).2 llang nd) := by
  obtain ⟨hlow, hnext, hrlt, hrf⟩ := hinv
  obtain ⟨ha1, ⟨ha2a, ha2b⟩, ha3, _⟩ := allocVal_spec val st
  refine ⟨?_, ?_, ?_, ?_⟩
  · intro l hl
    show lookupL (insertL (allocVal val st).2.mem llang nd) l = lookupL s₀.mem l
    rw [lookupL_insertL_ne _ _ (by omega)]
    rw [ha3 l (by omega)]
    exact hlow l hl
  · show s₀.next ≤ (allocVal val st).2.next
    omega
  · show root < (allocVal val st).2.next
    omega
  · intro rf hrfl p hp
    show s₀.next ≤ p.2 ∧ p.2 < (allocVal val st).2.next ∧ p.2 ≠ root
    replace hrfl : lookupL (insertL (allocVal val st).2.mem llang nd) root =
      some (.nobj rf) := hrfl
    rw [lookupL_insertL_ne _ _ (fun hh => hne hh.symm)] at hrfl
    rw [ha3 root (by omega)] at hrfl
    obtain ⟨hb1, hb2, hb3⟩ := hrf rf hrfl p hp
    exact ⟨hb1, by omega, hb3⟩

theorem ensureLangH_inv {s₀ : Store} {root : Nat} {st st' : Store}
    {lang : String} (h : ensureLangH st root lang = some st')
    (hinv : MergeInv s₀ root st) (hroot : s₀.next ≤ root) :
    MergeInv s₀ root st' := by
  obtain ⟨hlow, hnext, hrlt, hrf⟩ := hinv
  rw [ensureLangH] at h
  rcases hrn : lookupL st.mem root with _ | rnd
  · rw [hrn] at h
    simp at h
  · rw [hrn] at h
    cases rnd with
    | nobj fields =>
      have hwrite : MergeInv s₀ root
          (writeL ⟨insertL st.mem st.next (.nobj []), st.next + 1⟩
            root (.nobj (insertP fields lang st.next))) := by
        refine ⟨?_, ?_, ?_, ?_⟩
        · intro l hl
          show lookupL (insertL (insertL st.mem st.next (.nobj []))
            root (.nobj (insertP fields lang st.next))) l = lookupL s₀.mem l
          rw [lookupL_insertL_ne _ _ (by omega),
            lookupL_insertL_ne _ _ (by omega)]
          exact hlow l hl
        · show s₀.next ≤ st.next + 1
          omega
        · show root < st.next + 1
          omega
        · intro rf hrfl p hp
          show s₀.next ≤ p.2 ∧ p.2 < st.next + 1 ∧ p.2 ≠ root
          replace hrfl : lookupL (insertL (insertL st.mem st.next (.nobj []))
            root (.nobj (insertP fields lang st.next))) root =
            some (.nobj rf) := hrfl
          rw [lookupL_insertL_self] at hrfl
          have hrfeq : insertP fields lang st.next = rf := by
            have := Option.some_inj.mp hrfl
            exact Node.nobj.inj this
          rw [← hrfeq] at hp
          rcases mem_insertP hp with hh | hh
          · obtain ⟨hb1, hb2, hb3⟩ := hrf fields hrn p hh
            exact ⟨hb1, by omega, hb3⟩
          · rw [hh]
            exact ⟨by omega, by omega, by omega⟩
      replace h : (match lookupA fields lang with
        | some l =>
          match lookupL st.mem l with
          | some nd =>
            if ntruthy nd = true then some st
            else some (writeL ⟨insertL st.mem st.next (.nobj []), st.next + 1⟩
              root (.nobj (insertP fields lang st.next)))
          | none => none
        | none => some (writeL ⟨insertL st.mem st.next (.nobj []), st.next + 1⟩
            root (.nobj (insertP fields lang st.next)))) = some st' := h
      rcases hlk : lookupA fields lang with _ | l
      · rw [hlk] at h
        rw [← Option.some_inj.mp h]
        exact hwrite
      · rw [hlk] at h
        replace h : (match lookupL st.mem l with
          | some nd =>
            if ntruthy nd = true then some st
            else some (writeL ⟨insertL st.mem st.next (.nobj []), st.next + 1⟩
              root (.nobj (insertP fields lang st.next)))
          | none => none) = some st' := h
        rcases hnd : lookupL st.mem l with _ | nd
        · rw [hnd] at h
          simp at h
        · rw [hnd] at h
          replace h : (if ntruthy nd = true then some st
            else some (writeL ⟨insertL st.mem st.next (.nobj []), st.next + 1⟩
              root (.nobj (insertP fields lang st.next)))) = some st' := h
          by_cases ht : ntruthy nd = true
          · rw [if_pos ht] at h
            rw [← Option.some_inj.mp h]
            exact ⟨hlow, hnext, hrlt, hrf⟩
          · rw [if_neg ht] at h
            rw [← Option.some_inj.mp h]
            exact hwrite
    | narr xs =>
      replace h : some st = some st' := h
      rw [← Option.some_inj.mp h]
      exact ⟨hlow, hnext, hrlt, hrf⟩
    | nstr t =>
      replace h : (none : Option Store) = some st' := h
      simp at h
    | nnum n =>
      replace h : (none : Option Store) = some st' := h
      simp at h
    | nbool b =>
      replace h : (none : Option Store) = some st' := h
      simp at h
    | nnull =>
      replace h : (none : Option Store) = some st' := h
      simp at h

theorem installFileStepH_inv {fuel : Nat} {lang : String} {st st' : Store}
    {root : Nat} {p : String × JVal}
    (h : installFileStepH fuel lang st root p = some st')
    {s₀ : Store} (hinv : MergeInv s₀ root st) (hroot : s₀.next ≤ root) :
    MergeInv s₀ root st' := by
  rw [installFileStepH] at h
  rcases hrn : lookupL st.mem root with _ | rnd
  · rw [hrn] at h
    simp at h
  · rw [hrn] at h
    cases rnd with
    | nobj rf =>
      replace h : (match lookupA rf lang with
        | some llang =>
          match lookupL st.mem llang with
          | some (.nobj ff) =>
            match lookupA ff p.1 with
            | some lf =>
              match lookupL st.mem lf with
              | some nd =>
                if ntruthy nd = true then
                  match readVal fuel st lf with
                  | some cur =>
                    some (writeL (allocVal (deepMerge cur p.2) st).2 llang
                      (.nobj (insertP ff p.1 (allocVal (deepMerge cur p.2) st).1)))
                  | none => none
                else
                  some (writeL (allocVal p.2 st).2 llang
                    (.nobj (insertP ff p.1 (allocVal p.2 st).1)))
              | none => none
            | none =>
              some (writeL (allocVal p.2 st).2 llang
                (.nobj (insertP ff p.1 (allocVal p.2 st).1)))
          | some (.narr xs) => some st
          | _ => none
        | none => none) = some st' := h
      rcases hlk : lookupA rf lang with _ | llang
      · rw [hlk] at h
        simp at h
      · rw [hlk] at h
        obtain ⟨hge, hlt, hne⟩ := hinv.2.2.2 rf hrn (lang, llang) (lookupA_mem_nat hlk)
        replace h : (match lookupL st.mem llang with
          | some (.nobj ff) =>
            match lookupA ff p.1 with
            | some lf =>
              match lookupL st.mem lf with
              | some nd =>
                if ntruthy nd = true then
                  match readVal fuel st lf with
                  | some cur =>
                    some (writeL (allocVal (deepMerge cur p.2) st).2 llang
                      (.nobj (insertP ff p.1 (allocVal (deepMerge cur p.2) st).1)))
                  | none => none
                else
                  some (writeL (allocVal p.2 st).2 llang
                    (.nobj (insertP ff p.1 (allocVal p.2 st).1)))
              | none => none
            | none =>
              some (writeL (allocVal p.2 st).2 llang
                (.nobj (insertP ff p.1 (allocVal p.2 st).1)))
          | some (.narr xs) => some st
          | _ => none) = some st' := h
        rcases hln : lookupL st.mem llang with _ | lnd
        · rw [hln] at h
          simp at h
        · rw [hln] at h
          cases lnd with
          | nobj ff =>
            replace h : (match lookupA ff p.1 with
              | some lf =>
                match lookupL st.mem lf with
                | some nd =>
                  if ntruthy nd = true then
                    match readVal fuel st lf with
                    | some cur =>
                      some (writeL (allocVal (deepMerge cur p.2) st).2 llang
                        (.nobj (insertP ff p.1 (allocVal (deepMerge cur p.2) st).1)))
                    | none => none
                  else
                    some (writeL (allocVal p.2 st).2 llang
                      (.nobj (insertP ff p.1 (allocVal p.2 st).1)))
                | none => none
              | none =>
                some (writeL (allocVal p.2 st).2 llang
                  (.nobj (insertP ff p.1 (allocVal p.2 st).1)))) = some st' := h
            rcases hfk : lookupA ff p.1 with _ | lf
            · rw [hfk] at h
              rw [← Option.some_inj.mp h]
              exact writeAlloc_inv hinv hroot hge hlt hne p.2 _
            · rw [hfk] at h
              replace h : (match lookupL st.mem lf with
                | some nd =>
                  if ntruthy nd = true then
                    match readVal fuel st lf with
                    | some cur =>
                      some (writeL (allocVal (deepMerge cur p.2) st).2 llang
                        (.nobj (insertP ff p.1 (allocVal (deepMerge cur p.2) st).1)))
                    | none => none
                  else
                    some (writeL (allocVal p.2 st).2 llang
                      (.nobj (insertP ff p.1 (allocVal p.2 st).1)))
                | none => none) = some st' := h
              rcases hfn : lookupL st.mem lf with _ | nd
              · rw [hfn] at h
                simp at h
              · rw [hfn] at h
                replace h : (if ntruthy nd = true then
                    (match readVal fuel st lf with
                    | some cur =>
                      some (writeL (allocVal (deepMerge cur p.2) st).2 llang
                        (.nobj (insertP ff p.1 (allocVal (deepMerge cur p.2) st).1)))
                    | none => none)
                  else
                    some (writeL (allocVal p.2 st).2 llang
                      (.nobj (insertP ff p.1 (allocVal p.2 st).1)))) = some st' := h
                by_cases ht : ntruthy nd = true
                · rw [if_pos ht] at h
                  rcases hrv : readVal fuel st lf with _ | cur
                  · rw [hrv] at h
                    simp at h
                  · rw [hrv] at h
                    rw [← Option.some_inj.mp h]
                    exact writeAlloc_inv hinv hroot hge hlt hne (deepMerge cur p.2) _
                · rw [if_neg ht] at h
                  rw [← Option.some_inj.mp h]
                  exact writeAlloc_inv hinv hroot hge hlt hne p.2 _
          | narr xs =>
            replace h : some st = some st' := h
            rw [← Option.some_inj.mp h]
            exact hinv
          | nstr t =>
            replace h : (none : Option Store) = some st' := h
            simp at h
          | nnum n =>
            replace h : (none : Option Store) = some st' := h
            simp at h
          | nbool b =>
            replace h : (none : Option Store) = some st' := h
            simp at h
          | nnull =>
            replace h : (none : Option Store) = some st' := h
            simp at h
    | narr xs =>
      replace h : (none : Option Store) = some st' := h
      simp at h
    | nstr t =>
      replace h : (none : Option Store) = some st' := h
      simp at h
    | nnum n =>
      replace h : (none : Option Store) = some st' := h
      simp at h
    | nbool b =>
      replace h : (none : Option Store) = some st' := h
      simp at h
    | nnull =>
      replace h : (none : Option Store) = some st' := h
      simp at h

theorem deleteFileStepH_inv {fuel : Nat} {ch : Changes} {lang : String}
    {st st' : Store} {root : Nat} {fn : String}
    (h : deleteFileStepH fuel ch lang st root fn = some st')
    {s₀ : Store} (hinv : MergeInv s₀ root st) (hroot : s₀.next ≤ root) :
    MergeInv s₀ root st' := by
  rw [deleteFileStepH] at h
  rcases hdk : lookupA ch.deletedKeys fn with _ | dks
  · rw [hdk] at h
    rw [← Option.some_inj.mp h]
    exact hinv
  · rw [hdk] at h
    rcases hrn : lookupL st.mem root with _ | rnd
    · rw [hrn] at h
      simp at h
    · rw [hrn] at h
      cases rnd with
      | nobj rf =>
        replace h : (match lookupA rf lang with
          | some llang =>
            match lookupL st.mem llang with
            | some (.nobj ff) =>
              match lookupA ff fn with
              | some lf =>
                match lookupL st.mem lf with
                | some nd =>
                  if ntruthy nd = true then
                    match readVal fuel st lf with
                    | some cur =>
                      match dks.foldlM deleteNestedKey cur with
                      | some cur' =>
                        some (writeL (allocVal cur' st).2
                          llang (.nobj (insertP ff fn (allocVal cur' st).1)))
                      | none => none
                    | none => none
                  else some st
                | none => none
              | none => some st
            | some (.nstr t) => some st
            | some (.nnum n) => some st
            | some (.nbool b) => some st
            | some (.narr xs) => some st
            | _ => none
          | none => none) = some st' := h
        rcases hlk : lookupA rf lang with _ | llang
        · rw [hlk] at h
          simp at h
        · rw [hlk] at h
          obtain ⟨hge, hlt, hne⟩ := hinv.2.2.2 rf hrn (lang, llang) (lookupA_mem_nat hlk)
          replace h : (match lookupL st.mem llang with
            | some (.nobj ff) =>
              match lookupA ff fn with
              | some lf =>
                match lookupL st.mem lf with
                | some nd =>
                  if ntruthy nd = true then
                    match readVal fuel st lf with
                    | some cur =>
                      match dks.foldlM deleteNestedKey cur with
                      | some cur' =>
                        some (writeL (allocVal cur' st).2
                          llang (.nobj (insertP ff fn (allocVal cur' st).1)))
                      | none => none
                    | none => none
                  else some st
                | none => none
              | none => some st
            | some (.nstr t) => some st
            | some (.nnum n) => some st
            | some (.nbool b) => some st
            | some (.narr xs) => some st
            | _ => none) = some st' := h
          rcases hln : lookupL st.mem llang with _ | lnd
          · rw [hln] at h
            simp at h
          · rw [hln] at h
            cases lnd with
            | nobj ff =>
              replace h : (match lookupA ff fn with
                | some lf =>
                  match lookupL st.mem lf with
                  | some nd =>
                    if ntruthy nd = true then
                      match readVal fuel st lf with
                      | some cur =>
                        match dks.foldlM deleteNestedKey cur with
                        | some cur' =>
                          some (writeL (allocVal cur' st).2
                            llang (.nobj (insertP ff fn (allocVal cur' st).1)))
                        | none => none
                      | none => none
                    else some st
                  | none => none
                | none => some st) = some st' := h
              rcases hfk : lookupA ff fn with _ | lf
              · rw [hfk] at h
                rw [← Option.some_inj.mp h]
                exact hinv
              · rw [hfk] at h
                replace h : (match lookupL st.mem lf with
                  | some nd =>
                    if ntruthy nd = true then
                      match readVal fuel st lf with
                      | some cur =>
                        match dks.foldlM deleteNestedKey cur with
                        | some cur' =>
                          some (writeL (allocVal cur' st).2
                            llang (.nobj (insertP ff fn (allocVal cur' st).1)))
                        | none => none
                      | none => none
                    else some st
                  | none => none) = some st' := h
                rcases hfn : lookupL st.mem lf with _ | nd
                · rw [hfn] at h
                  simp at h
                · rw [hfn] at h
                  replace h : (if ntruthy nd = true then
                      (match readVal fuel st lf with
                      | some cur =>
                        match dks.foldlM deleteNestedKey cur with
                        | some cur' =>
                          some (writeL (allocVal cur' st).2
                            llang (.nobj (insertP ff fn (allocVal cur' st).1)))
                        | none => none
                      | none => none)
                    else some st) = some st' := h
                  by_cases ht : ntruthy nd = true
                  · rw [if_pos ht] at h
                    rcases hrv : readVal fuel st lf with _ | cur
                    · rw [hrv] at h
                      simp at h
                    · rw [hrv] at h
                      replace h : (match dks.foldlM deleteNestedKey cur with
                        | some cur' =>
                          some (writeL (allocVal cur' st).2
                            llang (.nobj (insertP ff fn (allocVal cur' st).1)))
                        | none => none) = some st' := h
                      rcases hfd : dks.foldlM deleteNestedKey cur with _ | cur'
                      · rw [hfd] at h
                        simp at h
                      · rw [hfd] at h
                        rw [← Option.some_inj.mp h]
                        exact writeAlloc_inv hinv hroot hge hlt hne cur' _
                  · rw [if_neg ht] at h
                    rw [← Option.some_inj.mp h]
                    exact hinv
            | narr xs =>
              replace h : some st = some st' := h
              rw [← Option.some_inj.mp h]
              exact hinv
            | nstr t =>
              replace h : some st = some st' := h
              rw [← Option.some_inj.mp h]
              exact hinv
            | nnum n =>
              replace h : some st = some st' := h
              rw [← Option.some_inj.mp h]
              exact hinv
            | nbool b =>
              replace h : some st = some st' := h
              rw [← Option.some_inj.mp h]
              exact hinv
            | nnull =>
              replace h : (none : Option Store) = some st' := h
              simp at h
      | narr xs =>
        replace h : (none : Option Store) = some st' := h
        simp at h
      | nstr t =>
        replace h : (none : Option Store) = some st' := h
        simp at h
      | nnum n =>
        replace h : (none : Option Store) = some st' := h
        simp at h
      | nbool b =>
        replace h : (none : Option Store) = some st' := h
        simp at h
      | nnull =>
        replace h : (none : Option Store) = some st' := h
        simp at h

theorem installFoldH_inv {fuel : Nat} {lang : String} {root : Nat}
    {s₀ : Store} (hroot : s₀.next ≤ root) :
    ∀ (ents : List (String × JVal)) (st st' : Store),
      ents.foldlM (fun m p => installFileStepH fuel lang m root p) st =
        some st' →
      MergeInv s₀ root st → MergeInv s₀ root st'
  | [], st, st', h, hinv => by
    rw [List.foldlM_nil] at h
    rw [← Option.some_inj.mp h]
    exact hinv
  | p :: rest, st, st', h, hinv => by
    rw [List.foldlM_cons] at h
    rcases hs : installFileStepH fuel lang st root p with _ | st₁
    · rw [hs] at h
      simp at h
    · rw [hs] at h
      replace h : rest.foldlM (fun m p => installFileStepH fuel lang m root p)
        st₁ = some st' := h
      exact installFoldH_inv hroot rest st₁ st' h
        (installFileStepH_inv hs hinv hroot)

theorem installLangH_inv {fuel : Nat} {newT : JVal} {lang : String}
    {root : Nat} {st st' : Store} {s₀ : Store}
    (h : installLangH fuel newT st root lang = some st')
    (hinv : MergeInv s₀ root st) (hroot : s₀.next ≤ root) :
    MergeInv s₀ root st' := by
  rw [installLangH] at h
  rcases hnl : jsReadO newT lang with _ | nl
  · rw [hnl] at h
    simp at h
  · rw [hnl] at h
    rcases nl with _ | nlv
    · replace h : some st = some st' := h
      rw [← Option.some_inj.mp h]
      exact hinv
    · replace h : (if jsTruthy nlv = true then
          (entriesJs nlv).foldlM (fun m p => installFileStepH fuel lang m root p) st
        else some st) = some st' := h
      by_cases ht : jsTruthy nlv = true
      · rw [if_pos ht] at h
        exact installFoldH_inv hroot (entriesJs nlv) st st' h hinv
      · rw [if_neg ht] at h
        rw [← Option.some_inj.mp h]
        exact hinv

theorem delFoldH_inv {fuel : Nat} {ch : Changes} {lang : String} {root : Nat}
    {s₀ : Store} (hroot : s₀.next ≤ root) :
    ∀ (mfs : List String) (st st' : Store),
      mfs.foldlM (fun m fn => deleteFileStepH fuel ch lang m root fn) st =
        some st' →
      MergeInv s₀ root st → MergeInv s₀ root st'
  | [], st, st', h, hinv => by
    rw [List.foldlM_nil] at h
    rw [← Option.some_inj.mp h]
    exact hinv
  | fn :: rest, st, st', h, hinv => by
    rw [List.foldlM_cons] at h
    rcases hs : deleteFileStepH fuel ch lang st root fn with _ | st₁
    · rw [hs] at h
      simp at h
    · rw [hs] at h
      replace h : rest.foldlM (fun m fn => deleteFileStepH fuel ch lang m root fn)
        st₁ = some st' := h
      exact delFoldH_inv hroot rest st₁ st' h (deleteFileStepH_inv hs hinv hroot)

theorem mergeLangStepH_inv {fuel : Nat} {newT : JVal} {ch : Changes}
    {st st' : Store} {root : Nat} {lang : String} {s₀ : Store}
    (h : mergeLangStepH fuel newT ch st root lang = some st')
    (hinv : MergeInv s₀ root st) (hroot : s₀.next ≤ root) :
    MergeInv s₀ root st' := by
  rw [mergeLangStepH] at h
  rcases he : ensureLangH st root lang with _ | st₁
  · rw [he] at h
    simp at h
  · rw [he] at h
    replace h : (installLangH fuel newT st₁ root lang >>= fun s₂ =>
      ch.modifiedFiles.foldlM
        (fun m fn => deleteFileStepH fuel ch lang m root fn) s₂) = some st' := h
    rcases hi : installLangH fuel newT st₁ root lang with _ | st₂
    · rw [hi] at h
      simp at h
    · rw [hi] at h
      replace h : ch.modifiedFiles.foldlM
        (fun m fn => deleteFileStepH fuel ch lang m root fn) st₂ = some st' := h
      exact delFoldH_inv hroot ch.modifiedFiles st₂ st' h
        (installLangH_inv hi (ensureLangH_inv he hinv hroot) hroot)

theorem langFoldH_inv {fuel : Nat} {newT : JVal} {ch : Changes} {root : Nat}
    {s₀ : Store} (hroot : s₀.next ≤ root) :
    ∀ (langs : List String) (st st' : Store),
      langs.foldlM (fun st lang => mergeLangStepH fuel newT ch st root lang)
        st = some st' →
      MergeInv s₀ root st → MergeInv s₀ root st'
  | [], st, st', h, hinv => by
    rw [List.foldlM_nil] at h
    rw [← Option.some_inj.mp h]
    exact hinv
  | lang :: rest, st, st', h, hinv => by
    rw [List.foldlM_cons] at h
    rcases hs : mergeLangStepH fuel newT ch st root lang with _ | st₁
    · rw [hs] at h
      simp at h
    · rw [hs] at h
      replace h : rest.foldlM
        (fun st lang => mergeLangStepH fuel newT ch st root lang) st₁ =
        some st' := h
      exact langFoldH_inv hroot rest st₁ st' h (mergeLangStepH_inv hs hinv hroot)

/-- C9: `mergeTranslations` never mutates the caller's
`existingTranslations`.  In the store model, the merge first clones the
existing tree (`JSON.parse(JSON.stringify(...))`) into fresh locations
and performs every property write on the clone, so after the merge the
tree decoded from the caller's root location is exactly what it was
before the call. -/
theorem c9_merge_does_not_mutate_existing (fuel : Nat) (s : Store)
    (lex : Nat) (newT : JVal) (ch : Changes) (root : Nat) (s' : Store)
    (hwf : StoreWF s)
    (h : mergeTranslationsH fuel s lex newT ch = some (root, s')) :
    readVal fuel s' lex = readVal fuel s lex := by
  rw [mergeTranslationsH] at h
  rcases hv : readVal fuel s lex with _ | v
  · rw [hv] at h
    simp at h
  · rw [hv] at h
    replace h : (match targetLanguages.foldlM
        (fun st lang => mergeLangStepH fuel newT ch st (allocVal v s).1 lang)
        (allocVal v s).2 with
      | some s₂ => some ((allocVal v s).1, s₂)
      | none => none) = some (root, s') := h
    rcases hf : targetLanguages.foldlM
        (fun st lang => mergeLangStepH fuel newT ch st (allocVal v s).1 lang)
        (allocVal v s).2 with _ | s₂
    · rw [hf] at h
      simp at h
    · rw [hf] at h
      replace h : ((allocVal v s).1, s₂) = (root, s') := Option.some_inj.mp h
      have hs2 : s₂ = s' := congrArg Prod.snd h
      subst hs2
      obtain ⟨ha1, ⟨ha2a, ha2b⟩, ha3, hnode⟩ := allocVal_spec v s
      have hinv₀ : MergeInv s (allocVal v s).1 (allocVal v s).2 := by
        refine ⟨ha3, ha1, ha2b, ?_⟩
        intro rf hrfl p hp
        obtain ⟨nd, hnd, hlocs⟩ := hnode
        rw [hnd] at hrfl
        have hndrf : nd = .nobj rf := Option.some_inj.mp hrfl
        subst hndrf
        have hp2 : p.2 ∈ nodeLocs (.nobj rf) :=
          List.mem_map.mpr ⟨p, hp, rfl⟩
        obtain ⟨hge, hlt⟩ := hlocs p.2 hp2
        exact ⟨hge, by omega, by omega⟩
      obtain ⟨hlow, _, _, _⟩ := langFoldH_inv ha2a targetLanguages
        (allocVal v s).2 s₂ hf hinv₀
      have hlex := readVal_some_lt hv hwf
      have hclosed : ∀ l nd, l < s.next → lookupL s.mem l = some nd →
          ∀ l' ∈ nodeLocs nd, l' < s.next := by
        intro l nd _ hl l' hl'
        exact (hwf (l, nd) (lookupL_mem hl)).2 l' hl'
      rw [readVal_frame hlow hclosed fuel lex hlex]
      exact hv

/-- C9 (witness): a store holding `{fr: {"app.json": {greeting:
"Bonjour"}}}` at location 3; the merge clones it to locations 4–17 and
the tree decoded from location 3 is unchanged. -/
theorem c9_merge_does_not_mutate_existing_witness :
    StoreWF ⟨[(0, Node.nstr "Bonjour"), (1, Node.nobj [("greeting", 0)]),
      (2, Node.nobj [("app.json", 1)]), (3, Node.nobj [("fr", 2)])], 4⟩ ∧
    readVal 6
      ⟨[(0, Node.nstr "Bonjour"), (1, Node.nobj [("greeting", 0)]),
        (2, Node.nobj [("app.json", 1)]), (3, Node.nobj [("fr", 2)]),
        (4, Node.nstr "Bonjour"), (5, Node.nobj [("greeting", 4)]),
        (6, Node.nobj [("app.json", 5)]),
        (7, Node.nobj [("fr", 6), ("de", 8), ("es", 9), ("fr-ca", 10),
          ("ja", 11), ("ko", 12), ("nl", 13), ("pt", 14), ("zh-cn", 15),
          ("zh-hk", 16), ("it", 17)]),
        (8, Node.nobj []), (9, Node.nobj []), (10, Node.nobj []),
        (11, Node.nobj []), (12, Node.nobj []), (13, Node.nobj []),
        (14, Node.nobj []), (15, Node.nobj []), (16, Node.nobj []),
        (17, Node.nobj [])], 18⟩ 3 =
    readVal 6
      ⟨[(0, Node.nstr "Bonjour"), (1, Node.nobj [("greeting", 0)]),
        (2, Node.nobj [("app.json", 1)]), (3, Node.nobj [("fr", 2)])], 4⟩ 3 := by
  refine ⟨by rw [show StoreWF = fun s => ∀ p ∈ s.mem, p.1 < s.next ∧ ∀ l₀ ∈ nodeLocs p.2, l₀ < s.next from rfl]; decide, ?_⟩
  exact c9_merge_does_not_mutate_existing 6
    ⟨[(0, Node.nstr "Bonjour"), (1, Node.nobj [("greeting", 0)]),
      (2, Node.nobj [("app.json", 1)]), (3, Node.nobj [("fr", 2)])], 4⟩
    3 (JVal.obj [])
    { hasChanges := false, newFiles := [], modifiedFiles := [],
      newKeys := [], modifiedKeys := [], deletedKeys := [] }
    7
    ⟨[(0, Node.nstr "Bonjour"), (1, Node.nobj [("greeting", 0)]),
        (2, Node.nobj [("app.json", 1)]), (3, Node.nobj [("fr", 2)]),
        (4, Node.nstr "Bonjour"), (5, Node.nobj [("greeting", 4)]),
        (6, Node.nobj [("app.json", 5)]),
        (7, Node.nobj [("fr", 6), ("de", 8), ("es", 9), ("fr-ca", 10),
          ("ja", 11), ("ko", 12), ("nl", 13), ("pt", 14), ("zh-cn", 15),
          ("zh-hk", 16), ("it", 17)]),
        (8, Node.nobj []), (9, Node.nobj []), (10, Node.nobj []),
        (11, Node.nobj []), (12, Node.nobj []), (13, Node.nobj []),
        (14, Node.nobj []), (15, Node.nobj []), (16, Node.nobj []),
        (17, Node.nobj [])], 18⟩
    (by rw [show StoreWF = fun s => ∀ p ∈ s.mem, p.1 < s.next ∧ ∀ l₀ ∈ nodeLocs p.2, l₀ < s.next from rfl]; decide) (by decide)

end TranslatePlatform
